import Mathlib

/-!
Verification of the scripting-language evaluator (`src/Evalvisitor.cpp`)

Shallow embedding of the arbitrary-precision integer kernel (`BigInt`), the
tagged `Value` and the tree-walking evaluator, followed by the theorems that
settle the specification's claims.

Modelling conventions

* `std::string` is a `List Char`; every character stands for one byte and the
  text handled by the integer kernel is ASCII (`c.toNat < 128`), so that the
  C++ expression `c - '0'` is `c.toNat - 48` as a mathematical integer.
* C++ `int` arithmetic is done in `Int`; `/` and `%` are the truncating
  `Int.tdiv` and `Int.tmod`.  The values that occur are bounded by a small
  multiple of the digit range, so no 32-bit wrap-around can happen.  String
  lengths are assumed to fit the index type.
* Right-to-left index loops (`for (i = len - 1; i >= 0; i--)`) walk the
  reversed list; the string built by `result = ch + result` is a list that
  grows at its head.
* A loop that the source does not bound (`while (absGreater(r, b) || r == b)`)
  takes a fuel argument counting the permitted body executions and reports
  `Res.outOfFuel` when it is exhausted.
-/

namespace PyInterp

/-! ## Results of fallible code -/

/-- Outcome of code that may throw `std::runtime_error` or loop: a value, the
thrown message, or exhaustion of the fuel granted to an unbounded loop. -/
inductive Res (α : Type) where
  | ok (v : α)
  | throw (msg : String)
  | outOfFuel
  deriving DecidableEq, Repr

/-- Sequencing of fallible computations (exceptions and fuel exhaustion propagate). -/
def Res.bind {α β : Type} (r : Res α) (f : α → Res β) : Res β :=
  match r with
  | .ok v => f v
  | .throw m => .throw m
  | .outOfFuel => .outOfFuel

/-! ## Characters and digit strings -/

/-- The C++ expression `c - '0'` (an `int`). -/
def digitOf (c : Char) : Int := (c.toNat : Int) - 48

/-- The C++ expression `char('0' + k)` for an `int` `k`: the byte `'0' + k` modulo 256. -/
def charOf (k : Int) : Char := Char.ofNat ((48 + k) % 256).toNat

/-- The loop `while (s.length() > 1 && s[0] == '0') s = s.substr(1);`, which the
source repeats in `removeLeadingZeros`, `absSub` and `absDiv`. -/
def stripLeadingZeros : List Char → List Char
  | c :: d :: rest => if c = '0' then stripLeadingZeros (d :: rest) else c :: d :: rest
  | s => s

/-- Byte-wise lexicographic `std::string::operator<` (a proper prefix is smaller). -/
def strLt : List Char → List Char → Bool
  | [], [] => false
  | [], _ :: _ => true
  | _ :: _, [] => false
  | x :: xs, y :: ys =>
    if x.toNat < y.toNat then true
    else if y.toNat < x.toNat then false
    else strLt xs ys

/-! ## BigInt: magnitude helpers -/

/-- Embeds `BigInt::absGreater`: longer string wins, equal lengths compare as strings (`a > b`). -/
def absGreater (a b : List Char) : Bool :=
  if a.length ≠ b.length then decide (a.length > b.length) else strLt b a

/-- Tail of the loop of `BigInt::absAdd` once both strings are consumed
(`while (carry)`): emits the digits of the remaining carry.  The first
argument bounds the iterations; `|carry|` is always enough because
`|carry / 10| < |carry|` for a nonzero carry. -/
def absAddCarry : Nat → Int → List Char → List Char
  | 0, _, result => result
  | n + 1, carry, result =>
    if carry = 0 then result
    else absAddCarry n (Int.tdiv carry 10) (charOf (Int.tmod carry 10) :: result)

/-- The loop of `BigInt::absAdd` once `a` is consumed (`i < 0`): only the digits
`b[j], b[j-1], …` and the carry remain. -/
def absAddRest : List Char → Int → List Char → List Char
  | [], carry, result => absAddCarry carry.natAbs carry result
  | y :: rb, carry, result =>
    let sum := carry + digitOf y
    absAddRest rb (Int.tdiv sum 10) (charOf (Int.tmod sum 10) :: result)

/-- The loop of `BigInt::absAdd` (`while (i >= 0 || j >= 0 || carry)`).  The
first two arguments are the not yet consumed digits `a[i], a[i-1], …` and
`b[j], b[j-1], …`. -/
def absAddLoop : List Char → List Char → Int → List Char → List Char
  | [], rb, carry, result => absAddRest rb carry result
  | x :: ra, [], carry, result =>
    let sum := carry + digitOf x
    absAddLoop ra [] (Int.tdiv sum 10) (charOf (Int.tmod sum 10) :: result)
  | x :: ra, y :: rb, carry, result =>
    let sum := carry + digitOf x + digitOf y
    absAddLoop ra rb (Int.tdiv sum 10) (charOf (Int.tmod sum 10) :: result)

/-- Embeds `BigInt::absAdd`. -/
def absAdd (a b : List Char) : List Char :=
  absAddLoop a.reverse b.reverse 0 []

/-- The digit loop of `BigInt::absSub` (`while (i >= 0)`). -/
def absSubLoop : List Char → List Char → Int → List Char → List Char
  | [], _, _, result => result
  | x :: ra, [], borrow, result =>
    let diff := digitOf x - borrow
    if diff < 0 then absSubLoop ra [] 1 (charOf (diff + 10) :: result)
    else absSubLoop ra [] 0 (charOf diff :: result)
  | x :: ra, y :: rb, borrow, result =>
    let diff := digitOf x - borrow - digitOf y
    if diff < 0 then absSubLoop ra rb 1 (charOf (diff + 10) :: result)
    else absSubLoop ra rb 0 (charOf diff :: result)

/-- Embeds `BigInt::absSub`. -/
def absSub (a b : List Char) : List Char :=
  stripLeadingZeros (absSubLoop a.reverse b.reverse 0 [])

/-- Inner loop of `BigInt::absMul` for a fixed `i` (digit `ai = a[i] - '0'`):
the list holds `b[j], b[j-1], …, b[0]`, so `j` is the length of its tail. -/
def absMulInner (ai : Int) (i : Nat) : List Char → List Int → List Int
  | [], result => result
  | y :: rb, result =>
    let j := rb.length
    let mul := ai * digitOf y
    let p1 := i + j
    let p2 := i + j + 1
    let sum := mul + result.getD p2 0
    let result1 := result.set p2 (Int.tmod sum 10)
    let result2 := result1.set p1 (result1.getD p1 0 + Int.tdiv sum 10)
    absMulInner ai i rb result2

/-- Outer loop of `BigInt::absMul`: the list holds `a[i], a[i-1], …, a[0]`. -/
def absMulOuter (b : List Char) : List Char → List Int → List Int
  | [], result => result
  | x :: ra, result =>
    absMulOuter b ra (absMulInner (digitOf x) ra.length b.reverse result)

/-- The output loop of `BigInt::absMul`: skips leading zero cells and writes the rest. -/
def absMulEmit : List Int → Bool → List Char
  | [], _ => []
  | num :: rest, leadingZero =>
    let leadingZero1 := if num ≠ 0 then false else leadingZero
    if leadingZero1 then absMulEmit rest leadingZero1
    else charOf num :: absMulEmit rest leadingZero1

/-- Embeds `BigInt::absMul`. -/
def absMul (a b : List Char) : List Char :=
  if a = ['0'] ∨ b = ['0'] then ['0']
  else
    let result := absMulOuter b a.reverse (List.replicate (a.length + b.length) 0)
    let str := absMulEmit result true
    if str.isEmpty then ['0'] else str

/-- The loop `while (absGreater(remainder, b) || remainder == b)` of
`BigInt::absDiv`; returns the final remainder and `count`. -/
def absDivInner (b : List Char) : Nat → List Char → Int → Option (List Char × Int)
  | fuel, remainder, count =>
    if absGreater remainder b ∨ remainder = b then
      match fuel with
      | 0 => none
      | fuel1 + 1 => absDivInner b fuel1 (absSub remainder b) (count + 1)
    else some (remainder, count)

/-- The loop `for (char digit : a)` of `BigInt::absDiv` on the state
`(quotient, remainder)`. -/
def absDivLoop (fuel : Nat) (b : List Char) :
    List Char → List Char → List Char → Option (List Char × List Char)
  | [], quotient, remainder => some (quotient, remainder)
  | digit :: rest, quotient, remainder =>
    match absDivInner b fuel (stripLeadingZeros (remainder ++ [digit])) 0 with
    | none => none
    | some (remainder1, count) => absDivLoop fuel b rest (quotient ++ [charOf count]) remainder1

/-- Embeds `BigInt::absDiv`; `fuel` bounds each run of the repeated-subtraction loop. -/
def absDiv (fuel : Nat) (a b : List Char) : Res (List Char × List Char) :=
  if b = ['0'] then .throw "Division by zero"
  else if (!absGreater a b) ∧ a ≠ b then .ok (['0'], a)
  else if a = b then .ok (['1'], ['0'])
  else
    match absDivLoop fuel b a [] [] with
    | none => .outOfFuel
    | some (quotient, remainder) =>
      .ok (stripLeadingZeros quotient, if remainder.isEmpty then ['0'] else remainder)

/-! ## BigInt -/

/-- The class `BigInt`: a decimal magnitude and a sign flag. -/
structure BigInt where
  value : List Char
  negative : Bool
  deriving DecidableEq, Repr

namespace BigInt

/-- Embeds `BigInt::removeLeadingZeros`. -/
def removeLeadingZeros (x : BigInt) : BigInt :=
  let v := stripLeadingZeros x.value
  { value := v, negative := if v = ['0'] then false else x.negative }

/-- Embeds `BigInt::BigInt()`. -/
def zero : BigInt := { value := ['0'], negative := false }

/-- Embeds `BigInt::BigInt(const std::string&)`. -/
def ofString (s : List Char) : BigInt :=
  if s.isEmpty ∨ s = ['-'] then { value := ['0'], negative := false }
  else
    let negative := decide (s.head? = some '-')
    removeLeadingZeros { value := if negative then s.drop 1 else s, negative := negative }

/-- Embeds `BigInt::BigInt(long long)` (and `BigInt(int)`, which delegates to it);
`std::to_string` of the absolute value is its decimal expansion. -/
def ofLongLong (n : Int) : BigInt :=
  removeLeadingZeros { value := Nat.toDigits 10 n.natAbs, negative := decide (n < 0) }

/-- Embeds `BigInt::toString`. -/
def toString (x : BigInt) : List Char :=
  (if x.negative then ['-'] else []) ++ x.value

/-- Embeds `BigInt::toBool`. -/
def toBool (x : BigInt) : Bool := decide (x.value ≠ ['0'])

/-- Embeds `BigInt::operator-()` (unary). -/
def neg (x : BigInt) : BigInt :=
  if x.value ≠ ['0'] then { x with negative := !x.negative } else x

/-- Embeds `BigInt::operator+`. -/
def add (x other : BigInt) : BigInt :=
  if x.negative = other.negative then
    removeLeadingZeros { value := absAdd x.value other.value, negative := x.negative }
  else if absGreater x.value other.value then
    removeLeadingZeros { value := absSub x.value other.value, negative := x.negative }
  else if x.value = other.value then zero
  else removeLeadingZeros { value := absSub other.value x.value, negative := other.negative }

/-- Embeds `BigInt::operator-` (binary). -/
def sub (x other : BigInt) : BigInt := add x (neg other)

/-- Embeds `BigInt::operator*`. -/
def mul (x other : BigInt) : BigInt :=
  let v := absMul x.value other.value
  removeLeadingZeros
    { value := v, negative := decide (x.negative ≠ other.negative) && decide (v ≠ ['0']) }

/-- Embeds `BigInt::operator/` (floor division). -/
def div (fuel : Nat) (x other : BigInt) : Res BigInt :=
  (absDiv fuel x.value other.value).bind fun qr =>
    let result : BigInt :=
      { value := qr.1, negative := decide (x.negative ≠ other.negative) && decide (qr.1 ≠ ['0']) }
    let result1 :=
      if x.negative ≠ other.negative ∧ qr.2 ≠ ['0'] then sub result (ofLongLong 1) else result
    .ok (removeLeadingZeros result1)

/-- Embeds `BigInt::operator%`. -/
def mod (fuel : Nat) (x other : BigInt) : Res BigInt :=
  (absDiv fuel x.value other.value).bind fun qr =>
    let r := qr.2
    let result : BigInt :=
      if r ≠ ['0'] then
        if x.negative ∧ !other.negative then sub other (ofString r)
        else if !x.negative ∧ other.negative then add (ofString r) other
        else if x.negative ∧ other.negative then { value := r, negative := true }
        else { value := r, negative := false }
      else { value := ['0'], negative := false }
    .ok (removeLeadingZeros result)

/-- Embeds `BigInt::operator<`. -/
def lt (x other : BigInt) : Bool :=
  if x.negative ≠ other.negative then x.negative
  else if x.negative then absGreater x.value other.value
  else !absGreater x.value other.value && decide (x.value ≠ other.value)

/-- Embeds `BigInt::operator>`. -/
def gt (x other : BigInt) : Bool := lt other x

/-- Embeds `BigInt::operator<=`. -/
def le (x other : BigInt) : Bool := !gt x other

/-- Embeds `BigInt::operator>=`. -/
def ge (x other : BigInt) : Bool := !lt x other

/-- Embeds `BigInt::operator==`. -/
def eq (x other : BigInt) : Bool :=
  decide (x.negative = other.negative) && decide (x.value = other.value)

/-- Embeds `BigInt::operator!=`. -/
def ne (x other : BigInt) : Bool := !eq x other

end BigInt


/-! ## Denotation and canonical form -/

/-- The integer written by a string of decimal digits (most significant first). -/
def val (s : List Char) : Int := s.foldl (fun acc c => 10 * acc + digitOf c) 0

/-- Every character is one of `'0'..'9'`. -/
def IsDigits (s : List Char) : Prop := ∀ c ∈ s, c.isDigit = true

instance (s : List Char) : Decidable (IsDigits s) := by unfold IsDigits; infer_instance

/-- Canonical magnitude: non-empty, decimal digits only, no leading zero except for `"0"`. -/
def CanonMag (s : List Char) : Prop :=
  s ≠ [] ∧ IsDigits s ∧ (1 < s.length → s.head? ≠ some '0')

instance (s : List Char) : Decidable (CanonMag s) := by unfold CanonMag; infer_instance

namespace BigInt

/-- The mathematical integer denoted by a `BigInt`. -/
def toInt (x : BigInt) : Int := if x.negative then - val x.value else val x.value

/-- Canonical `BigInt`: canonical magnitude, and zero is never negative. -/
def Canonical (x : BigInt) : Prop := CanonMag x.value ∧ (x.value = ['0'] → x.negative = false)

instance (x : BigInt) : Decidable (Canonical x) := by unfold Canonical; infer_instance

end BigInt


/-- The integer held by the cell array of `absMul` (most significant cell first), each
cell weighted by its power of ten; cells may temporarily exceed 9. -/
def cellVal (r : List Int) : Int := r.foldl (fun acc x => 10 * acc + x) 0

/-- Every cell is a decimal digit `0..9`. -/
def CellsOk (r : List Int) : Prop := ∀ x ∈ r, 0 ≤ x ∧ x ≤ 9

/-- Canonical decimal text of an integer literal, as the specification words it: an
optional leading `-`, the digits without their leading zeros, `"0"` when nothing is
left, and the `-` kept only in front of a nonzero number. -/
def canonicalText (n : List Char) : List Char :=
  let neg := decide (n.head? = some '-')
  let digits := if neg then n.tail else n
  let stripped := digits.dropWhile (· == '0')
  if stripped.isEmpty then ['0'] else if neg then '-' :: stripped else stripped

/-! ## Value -/

/-- The operations of the host's IEEE-754 `double` that the evaluator uses.  The type and
its arithmetic are a parameter of the model: nothing is assumed about them. -/
class HostFloat (F : Type) where
  /-- Conversion of an `int` to `double` (the literals `0.0`, `1.0`, `10` and `c - '0'`). -/
  ofInt : Int → F
  add : F → F → F
  sub : F → F → F
  mul : F → F → F
  div : F → F → F
  neg : F → F
  /-- Embeds `std::floor`. -/
  floor : F → F
  /-- Embeds `operator<` on `double`. -/
  lt : F → F → Bool
  /-- Embeds `operator==` on `double`. -/
  eq : F → F → Bool
  /-- The conversion `(long long)f` (also the implicit one in `long long n = f`). -/
  toLongLong : F → Int
  /-- Embeds `std::stod`; `none` when it throws. -/
  stod : List Char → Option F
  /-- Output with `std::fixed << std::setprecision(6)`. -/
  fixed6 : F → List Char

/-- Embeds `BigInt::toDouble`. -/
def BigInt.toDouble {F : Type} [HostFloat F] (x : BigInt) : F :=
  let result := x.value.foldl
    (fun acc c => HostFloat.add (HostFloat.mul acc (HostFloat.ofInt 10)) (HostFloat.ofInt (digitOf c)))
    (HostFloat.ofInt 0)
  if x.negative then HostFloat.neg result else result

/-- The class `Value`: the type tag together with the one payload field it selects. -/
inductive Value (F : Type) where
  | none
  | bool (boolVal : Bool)
  | int (intVal : BigInt)
  | float (floatVal : F)
  | str (stringVal : List Char)
  deriving DecidableEq, Repr

/-- One of the characters of `" \t\n\r"`. -/
def isTrimChar (c : Char) : Bool := c = ' ' ∨ c = '\t' ∨ c = '\n' ∨ c = '\r'

/-- The two `erase` calls of `Value::toInt`: drop leading and trailing `" \t\n\r"`. -/
def trimSpaces (s : List Char) : List Char :=
  ((s.dropWhile isTrimChar).reverse.dropWhile isTrimChar).reverse

/-- The loop `for (long long i = 0; i < n; i++) result += s;`. -/
def repeatString (s : List Char) : Nat → List Char → List Char
  | 0, result => result
  | n + 1, result => repeatString s n (result ++ s)

namespace Value

variable {F : Type} [HostFloat F]

/-- Embeds `Value::toString`. -/
def toString : Value F → List Char
  | .none => "None".toList
  | .bool b => if b then "True".toList else "False".toList
  | .int i => i.toString
  | .float f => HostFloat.fixed6 f
  | .str s => s

/-- Embeds `Value::toBool`. -/
def toBool : Value F → Bool
  | .none => false
  | .bool b => b
  | .int i => i.toBool
  | .float f => !HostFloat.eq f (HostFloat.ofInt 0 : F)
  | .str s => !s.isEmpty

/-- Embeds `Value::toInt`. -/
def toInt : Value F → Value F
  | .bool b => .int (BigInt.ofLongLong (if b then 1 else 0))
  | .int i => .int i
  | .float f => .int (BigInt.ofLongLong (HostFloat.toLongLong f))
  | .str stringVal =>
    let s := trimSpaces stringVal
    if '.' ∈ s then
      match (HostFloat.stod s : Option F) with
      | some f => .int (BigInt.ofLongLong (HostFloat.toLongLong f))
      | Option.none => .int (BigInt.ofLongLong 0)
    else .int (BigInt.ofString s)
  | .none => .int (BigInt.ofLongLong 0)

/-- The `floatVal` of `Value::toFloat()`. -/
def toFloatVal : Value F → F
  | .bool b => if b then HostFloat.ofInt 1 else HostFloat.ofInt 0
  | .int i => i.toDouble
  | .float f => f
  | .str s =>
    match (HostFloat.stod s : Option F) with
    | some f => f
    | Option.none => HostFloat.ofInt 0
  | .none => HostFloat.ofInt 0

/-- Embeds `Value::toFloat`. -/
def toFloat (v : Value F) : Value F := .float v.toFloatVal

/-- Embeds `Value::toStr`. -/
def toStr : Value F → Value F
  | .str s => .str s
  | v => .str v.toString

/-- The test `type == ValueType::STRING`. -/
def isStr : Value F → Bool
  | .str _ => true
  | _ => false

/-- The test `type == ValueType::FLOAT`. -/
def isFloat : Value F → Bool
  | .float _ => true
  | _ => false

/-- The test `type == ValueType::INT`. -/
def isInt : Value F → Bool
  | .int _ => true
  | _ => false

/-- Embeds `Value::operator+`. -/
def add (a b : Value F) : Value F :=
  if a.isStr ∨ b.isStr then .str (a.toString ++ b.toString)
  else if a.isFloat ∨ b.isFloat then .float (HostFloat.add a.toFloatVal b.toFloatVal)
  else
    match a, b with
    | .int x, .int y => .int (x.add y)
    | _, _ => .none

/-- Embeds `Value::operator-` (binary). -/
def sub (a b : Value F) : Value F :=
  if a.isFloat ∨ b.isFloat then .float (HostFloat.sub a.toFloatVal b.toFloatVal)
  else
    match a, b with
    | .int x, .int y => .int (x.sub y)
    | _, _ => .none

/-- The repetition branch of `Value::operator*`: `count` copies of `s` when the count,
converted through `double` to `long long`, is positive. -/
def repeatBy (s : List Char) (count : BigInt) : Value F :=
  let n : Int := HostFloat.toLongLong (count.toDouble : F)
  .str (if n > 0 then repeatString s n.toNat [] else [])

/-- Embeds `Value::operator*`. -/
def mul (a b : Value F) : Value F :=
  match a, b with
  | .str s, .int count => repeatBy s count
  | .int count, .str s => repeatBy s count
  | _, _ =>
    if a.isFloat ∨ b.isFloat then .float (HostFloat.mul a.toFloatVal b.toFloatVal)
    else
      match a, b with
      | .int x, .int y => .int (x.mul y)
      | _, _ => .none

/-- Embeds `Value::operator/` (true division). -/
def div (a b : Value F) : Value F := .float (HostFloat.div a.toFloatVal b.toFloatVal)

/-- Embeds `Value::operator%`. -/
def mod (fuel : Nat) (a b : Value F) : Res (Value F) :=
  match a, b with
  | .int x, .int y => (x.mod fuel y).bind fun r => .ok (.int r)
  | _, _ => .ok .none

/-- Embeds `Value::floordiv`. -/
def floordiv (fuel : Nat) (a b : Value F) : Res (Value F) :=
  match a, b with
  | .int x, .int y => (x.div fuel y).bind fun r => .ok (.int r)
  | _, _ => .ok (.float (HostFloat.floor (HostFloat.div a.toFloatVal b.toFloatVal)))

/-- Embeds `Value::operator-()` (unary). -/
def neg : Value F → Value F
  | .int i => .int i.neg
  | .float f => .float (HostFloat.neg f)
  | _ => .none

/-- Embeds `Value::operator<`. -/
def lt (a b : Value F) : Bool :=
  if a.isFloat ∨ b.isFloat then HostFloat.lt a.toFloatVal b.toFloatVal
  else
    match a, b with
    | .int x, .int y => x.lt y
    | .str s, .str t => strLt s t
    | _, _ => false

/-- Embeds `Value::operator>`. -/
def gt (a b : Value F) : Bool := lt b a

/-- Embeds `Value::operator<=`. -/
def le (a b : Value F) : Bool := !gt a b

/-- Embeds `Value::operator>=`. -/
def ge (a b : Value F) : Bool := !lt a b

/-- Embeds `Value::operator==`. -/
def eq (a b : Value F) : Bool :=
  match a, b with
  | .none, .none => true
  | .bool x, .bool y => decide (x = y)
  | .int x, .int y => x.eq y
  | .float x, .float y => HostFloat.eq x y
  | .str s, .str t => decide (s = t)
  | .int _, .float _ => HostFloat.eq a.toFloatVal b.toFloatVal
  | .float _, .int _ => HostFloat.eq a.toFloatVal b.toFloatVal
  | _, _ => false

/-- Embeds `Value::operator!=`. -/
def ne (a b : Value F) : Bool := !eq a b

end Value

/-! ## Parse tree

The tree produced by the external parser, restricted to what the visitor reads.  A rule
`x (op x)*` is a first child and a list of `(operator text, child)` pairs; the layers
`stmt`, `simple_stmt`, `small_stmt`, `flow_stmt` and `compound_stmt`, whose visitors only
forward to their single child, are folded into `Stmt`. -/

mutual
/-- Rule `test: or_test`. -/
inductive Test where
  | mk (orTest : OrTest)
/-- Rule `or_test: and_test ('or' and_test)*`. -/
inductive OrTest where
  | mk (first : AndTest) (rest : List AndTest)
/-- Rule `and_test: not_test ('and' not_test)*`. -/
inductive AndTest where
  | mk (first : NotTest) (rest : List NotTest)
/-- Rule `not_test: 'not' not_test | comparison`. -/
inductive NotTest where
  | not (operand : NotTest)
  | comparison (c : Comparison)
/-- Rule `comparison: arith_expr (comp_op arith_expr)*`. -/
inductive Comparison where
  | mk (first : ArithExpr) (rest : List (String × ArithExpr))
/-- Rule `arith_expr: term (addorsub_op term)*`. -/
inductive ArithExpr where
  | mk (first : Term) (rest : List (String × Term))
/-- Rule `term: factor (muldivmod_op factor)*`. -/
inductive Term where
  | mk (first : Factor) (rest : List (String × Factor))
/-- Rule `factor: ('+' | '-') factor | atom_expr`; `op` is the text of the first child. -/
inductive Factor where
  | unary (op : String) (operand : Factor)
  | atomExpr (a : AtomExpr)
/-- Rule `atom_expr: atom trailer?`. -/
inductive AtomExpr where
  | mk (atom : Atom) (trailer : Option Trailer)
/-- Rule `trailer: '(' arglist? ')'`. -/
inductive Trailer where
  | mk (arglist : Option (List Argument))
/-- Rule `argument: test | test '=' test`: the first test, its source text (`getText()`), and
the second test when there is one. -/
inductive Argument where
  | mk (test0 : Test) (text0 : String) (test1 : Option Test)
/-- Embeds `atom`: a `NAME`, a `NUMBER` lexeme, one or more `STRING` lexemes, a keyword given by
its text, a parenthesised test, a format string, or none of these. -/
inductive Atom where
  | name (s : String)
  | number (lexeme : List Char)
  | strings (first : List Char) (rest : List (List Char))
  | keyword (text : String)
  | paren (t : Test)
  | formatString (children : List FormatChild)
/-- A child of `format_string`: a terminal with its text, or a `testlist`. -/
inductive FormatChild where
  | token (text : List Char)
  | testlist (tl : Testlist)
/-- Rule `testlist: test (',' test)*`. -/
inductive Testlist where
  | mk (first : Test) (rest : List Test)
end

mutual
/-- A statement (`expr_stmt`, `break`, `continue`, `return`, `if`, `while`, `def`). -/
inductive Stmt where
  | exprStmt (first : Testlist) (rest : List Testlist) (augassign : Option String)
  | breakStmt
  | continueStmt
  | returnStmt (value : Option Testlist)
  | ifStmt (branches : List (Test × Suite)) (elseSuite : Option Suite)
  | whileStmt (test : Test) (suite : Suite)
  | defStmt (name : String) (typedargslist : Option (List String × List Test)) (suite : Suite)
/-- Rule `suite: simple_stmt | NEWLINE INDENT stmt+ DEDENT`. -/
inductive Suite where
  | simple (s : Stmt)
  | block (stmts : List Stmt)
end

/-! ## Evaluator state -/

/-- Embeds `std::map<std::string, V>::find`, on an association list standing for the map. -/
def mapFind {α : Type} : List (String × α) → String → Option α
  | [], _ => none
  | (k, v) :: rest, key => if k = key then some v else mapFind rest key

/-- Embeds `m[key] = v` on a `std::map`: assign in place, or insert. -/
def mapSet {α : Type} : List (String × α) → String → α → List (String × α)
  | [], key, v => [(key, v)]
  | (k, w) :: rest, key, v => if k = key then (k, v) :: rest else (k, w) :: mapSet rest key v

/-- Embeds `struct FunctionDef`. -/
structure FunctionDef (F : Type) where
  params : List String
  defaults : List (String × Value F)
  suite : Suite

/-- The state of `class EvalVisitor`: the scope stack listed from `scopes.back()` (the
innermost scope, first) to the global scope (last), the function table, and the text
written to `std::cout` so far. -/
structure EvalVisitor (F : Type) where
  scopes : List (List (String × Value F))
  functions : List (String × FunctionDef F)
  output : List Char

/-- Result of visiting a node: normal completion with the new state, one of the three
control-flow exceptions with the state at the `throw`, an uncaught C++ exception, or fuel
exhaustion. -/
inductive Exec (F : Type) (α : Type) where
  | ok (result : α) (st : EvalVisitor F)
  | breakSignal (st : EvalVisitor F)
  | continueSignal (st : EvalVisitor F)
  | returnSignal (value : Value F) (st : EvalVisitor F)
  | error (msg : String)
  | outOfFuel

namespace Exec

/-- Sequencing: anything but normal completion propagates. -/
def bind {F α β : Type} (x : Exec F α) (f : α → EvalVisitor F → Exec F β) : Exec F β :=
  match x with
  | .ok a st => f a st
  | .breakSignal st => .breakSignal st
  | .continueSignal st => .continueSignal st
  | .returnSignal v st => .returnSignal v st
  | .error m => .error m
  | .outOfFuel => .outOfFuel

/-- A fallible pure computation inside the evaluator. -/
def ofRes {F α : Type} (r : Res α) (st : EvalVisitor F) : Exec F α :=
  match r with
  | .ok v => .ok v st
  | .throw m => .error m
  | .outOfFuel => .outOfFuel

end Exec

namespace EvalVisitor

variable {F : Type}

/-- Embeds `EvalVisitor::EvalVisitor()`: the global scope alone. -/
def init : EvalVisitor F := { scopes := [[]], functions := [], output := [] }

/-- Embeds `EvalVisitor::pushScope`. -/
def pushScope (st : EvalVisitor F) : EvalVisitor F := { st with scopes := [] :: st.scopes }

/-- Embeds `EvalVisitor::popScope`. -/
def popScope (st : EvalVisitor F) : EvalVisitor F :=
  if st.scopes.length > 1 then { st with scopes := st.scopes.tail } else st

/-- Embeds `EvalVisitor::setVariable` (`scopes.back()[name] = val`; the stack is never empty). -/
def setVariable (st : EvalVisitor F) (name : String) (val : Value F) : EvalVisitor F :=
  match st.scopes with
  | [] => st
  | top :: below => { st with scopes := mapSet top name val :: below }

/-- The loop of `EvalVisitor::getVariable`, from the innermost scope outwards. -/
def lookupScopes : List (List (String × Value F)) → String → Value F
  | [], _ => .none
  | scope :: below, name =>
    match mapFind scope name with
    | some v => v
    | Option.none => lookupScopes below name

/-- Embeds `EvalVisitor::getVariable`. -/
def getVariable (st : EvalVisitor F) (name : String) : Value F := lookupScopes st.scopes name

/-- Embeds `std::cout << text`. -/
def write (st : EvalVisitor F) (text : List Char) : EvalVisitor F :=
  { st with output := st.output ++ text }

end EvalVisitor

/-! ## Pure helpers of the visitor -/

/-- The `switch` of `EvalVisitor::parseString` for an escaped character. -/
def unescape (c : Char) : Char :=
  if c = 'n' then '\n'
  else if c = 't' then '\t'
  else if c = 'r' then '\r'
  else if c = '\\' then '\\'
  else if c = Char.ofNat 39 then Char.ofNat 39
  else if c = '\"' then '\"'
  else c

/-- The loop of `EvalVisitor::parseString` over `content`, with the flag `escaped`. -/
def parseStringLoop : List Char → Bool → List Char → List Char
  | [], _, result => result
  | c :: rest, true, result => parseStringLoop rest false (result ++ [unescape c])
  | c :: rest, false, result =>
    if c = '\\' then parseStringLoop rest true result
    else parseStringLoop rest false (result ++ [c])

/-- Embeds `EvalVisitor::parseString`; `none` when `s.substr(1, …)` throws (`s` empty). -/
def parseString (s : List Char) : Option (List Char) :=
  if s.isEmpty then none
  else some (parseStringLoop ((s.drop 1).take (s.length - 2)) false [])

/-- The loop `for (auto str : ctx->STRING()) result += parseString(str->toString());`. -/
def parseStrings : List (List Char) → List Char → Option (List Char)
  | [], result => some result
  | s :: rest, result =>
    match parseString s with
    | none => none
    | some t => parseStrings rest (result ++ t)

/-- The navigation of `visitExpr_stmt` from a `test` down to a plain `NAME`; the empty
string when a test is not of that shape. -/
def targetName : Test → String
  | .mk (.mk (.mk (.comparison (.mk (.mk (.mk (.atomExpr (.mk (.name s) _)) []) []) [])) []) []) => s
  | _ => ""

/-- The variable named by a left-hand `testlist` (`lhsTests.size() == 1` and a plain name),
else the empty string. -/
def testlistTarget : Testlist → String
  | .mk t [] => targetName t
  | _ => ""

/-- The loop of the regular assignment over the targets `testlists[size-2] … testlists[0]`. -/
def assignTargets {F : Type} : List Testlist → Value F → EvalVisitor F → EvalVisitor F
  | [], _, st => st
  | lhs :: rest, rhsVal, st =>
    let varName := testlistTarget lhs
    assignTargets rest rhsVal (if varName ≠ "" then st.setVariable varName rhsVal else st)

/-- The operator dispatch of `visitComparison`. -/
def compareOp {F : Type} [HostFloat F] (op : String) (a b : Value F) : Bool :=
  if op = "<" then a.lt b
  else if op = ">" then a.gt b
  else if op = "<=" then a.le b
  else if op = ">=" then a.ge b
  else if op = "==" then a.eq b
  else if op = "!=" then a.ne b
  else false

/-- The operator dispatch of `visitArith_expr`. -/
def arithOp {F : Type} [HostFloat F] (op : String) (result right : Value F) : Value F :=
  if op = "+" then result.add right
  else if op = "-" then result.sub right
  else result

/-- The operator dispatch of `visitTerm`. -/
def termOp {F : Type} [HostFloat F] (fuel : Nat) (op : String) (result right : Value F) :
    Res (Value F) :=
  if op = "*" then .ok (result.mul right)
  else if op = "/" then .ok (result.div right)
  else if op = "//" then result.floordiv fuel right
  else if op = "%" then result.mod fuel right
  else .ok result

/-- The operator dispatch of the augmented assignment in `visitExpr_stmt`. -/
def augOp {F : Type} [HostFloat F] (fuel : Nat) (op : String) (oldVal rhsVal : Value F) :
    Res (Value F) :=
  if op = "+=" then .ok (oldVal.add rhsVal)
  else if op = "-=" then .ok (oldVal.sub rhsVal)
  else if op = "*=" then .ok (oldVal.mul rhsVal)
  else if op = "/=" then .ok (oldVal.div rhsVal)
  else if op = "//=" then oldVal.floordiv fuel rhsVal
  else if op = "%=" then oldVal.mod fuel rhsVal
  else .ok .none

/-- The last loop of the call protocol: every parameter is set from the passed arguments,
else from the defaults, else to `None`. -/
def bindParameters {F : Type} (passedArgs defaults : List (String × Value F)) :
    List String → EvalVisitor F → EvalVisitor F
  | [], st => st
  | param :: rest, st =>
    let v : Value F :=
      match mapFind passedArgs param with
      | some a => a
      | none =>
        match mapFind defaults param with
        | some d => d
        | none => .none
    bindParameters passedArgs defaults rest (st.setVariable param v)

/-- Embeds `func.params` of `FunctionDef& func = functions[funcName]`, read through the reference. -/
def paramsOf {F : Type} (st : EvalVisitor F) (funcName : String) : List String :=
  match mapFind st.functions funcName with
  | some func => func.params
  | none => []

/-- The assignment `functions[name] = func` of `visitFuncdef`. -/
def defineFunction {F : Type} (st : EvalVisitor F) (name : String) (func : FunctionDef F) :
    EvalVisitor F :=
  { st with functions := mapSet st.functions name func }

/-- The end of the call protocol, `try { visit(func.suite); } catch (ReturnException& e)`
followed by `popScope(); return returnVal;`: a return signal supplies the result, normal
completion gives `None`, and any other exception leaves the call without the pop. -/
def finishCall {F : Type} : Exec F Unit → Exec F (Value F)
  | .ok _ st => .ok .none st.popScope
  | .returnSignal v st => .ok v st.popScope
  | .breakSignal st => .breakSignal st
  | .continueSignal st => .continueSignal st
  | .error m => .error m
  | .outOfFuel => .outOfFuel

/-! ## The visitor

Every visitor method takes a fuel argument that bounds the depth of the visit (and the
runs of the division loop); each call of another method passes the fuel decreased by one,
and a visit that exhausts it reports `Exec.outOfFuel`. -/

section Visitor

variable {F : Type} [HostFloat F]

mutual

/-- Embeds `EvalVisitor::visitTest`. -/
def visitTest : Nat → Test → EvalVisitor F → Exec F (Value F)
  | 0, _, _ => .outOfFuel
  | fuel + 1, .mk orTest, st => visitOrTest fuel orTest st

/-- Embeds `EvalVisitor::visitOr_test`. -/
def visitOrTest : Nat → OrTest → EvalVisitor F → Exec F (Value F)
  | 0, _, _ => .outOfFuel
  | fuel + 1, .mk first rest, st =>
    (visitAndTest fuel first st).bind fun result st1 => visitOrRest fuel rest result st1

/-- The loop of `visitOr_test` over `and_test(1) …`. -/
def visitOrRest : Nat → List AndTest → Value F → EvalVisitor F → Exec F (Value F)
  | 0, _, _, _ => .outOfFuel
  | _ + 1, [], result, st => .ok result st
  | fuel + 1, t :: rest, result, st =>
    if result.toBool then .ok result st
    else (visitAndTest fuel t st).bind fun result1 st1 => visitOrRest fuel rest result1 st1

/-- Embeds `EvalVisitor::visitAnd_test`. -/
def visitAndTest : Nat → AndTest → EvalVisitor F → Exec F (Value F)
  | 0, _, _ => .outOfFuel
  | fuel + 1, .mk first rest, st =>
    (visitNotTest fuel first st).bind fun result st1 => visitAndRest fuel rest result st1

/-- The loop of `visitAnd_test` over `not_test(1) …`. -/
def visitAndRest : Nat → List NotTest → Value F → EvalVisitor F → Exec F (Value F)
  | 0, _, _, _ => .outOfFuel
  | _ + 1, [], result, st => .ok result st
  | fuel + 1, t :: rest, result, st =>
    if !result.toBool then .ok result st
    else (visitNotTest fuel t st).bind fun result1 st1 => visitAndRest fuel rest result1 st1

/-- Embeds `EvalVisitor::visitNot_test`. -/
def visitNotTest : Nat → NotTest → EvalVisitor F → Exec F (Value F)
  | 0, _, _ => .outOfFuel
  | fuel + 1, .not operand, st =>
    (visitNotTest fuel operand st).bind fun val st1 => .ok (.bool (!val.toBool)) st1
  | fuel + 1, .comparison c, st => visitComparison fuel c st

/-- Embeds `EvalVisitor::visitComparison`. -/
def visitComparison : Nat → Comparison → EvalVisitor F → Exec F (Value F)
  | 0, _, _ => .outOfFuel
  | fuel + 1, .mk first rest, st =>
    (visitArithExpr fuel first st).bind fun result st1 =>
      if rest.isEmpty then .ok result st1 else visitComparisonRest fuel rest result st1

/-- The loop of `visitComparison` over the operators. -/
def visitComparisonRest :
    Nat → List (String × ArithExpr) → Value F → EvalVisitor F → Exec F (Value F)
  | 0, _, _, _ => .outOfFuel
  | _ + 1, [], _, st => .ok (.bool true) st
  | fuel + 1, (op, e) :: rest, result, st =>
    (visitArithExpr fuel e st).bind fun right st1 =>
      if !compareOp op result right then .ok (.bool false) st1
      else visitComparisonRest fuel rest right st1

/-- Embeds `EvalVisitor::visitArith_expr`. -/
def visitArithExpr : Nat → ArithExpr → EvalVisitor F → Exec F (Value F)
  | 0, _, _ => .outOfFuel
  | fuel + 1, .mk first rest, st =>
    (visitTerm fuel first st).bind fun result st1 => visitArithRest fuel rest result st1

/-- The loop of `visitArith_expr` over the operators. -/
def visitArithRest : Nat → List (String × Term) → Value F → EvalVisitor F → Exec F (Value F)
  | 0, _, _, _ => .outOfFuel
  | _ + 1, [], result, st => .ok result st
  | fuel + 1, (op, t) :: rest, result, st =>
    (visitTerm fuel t st).bind fun right st1 =>
      visitArithRest fuel rest (arithOp op result right) st1

/-- Embeds `EvalVisitor::visitTerm`. -/
def visitTerm : Nat → Term → EvalVisitor F → Exec F (Value F)
  | 0, _, _ => .outOfFuel
  | fuel + 1, .mk first rest, st =>
    (visitFactor fuel first st).bind fun result st1 => visitTermRest fuel rest result st1

/-- The loop of `visitTerm` over the operators. -/
def visitTermRest : Nat → List (String × Factor) → Value F → EvalVisitor F → Exec F (Value F)
  | 0, _, _, _ => .outOfFuel
  | _ + 1, [], result, st => .ok result st
  | fuel + 1, (op, f) :: rest, result, st =>
    (visitFactor fuel f st).bind fun right st1 =>
      (Exec.ofRes (termOp fuel op result right) st1).bind fun result1 st2 =>
        visitTermRest fuel rest result1 st2

/-- Embeds `EvalVisitor::visitFactor`. -/
def visitFactor : Nat → Factor → EvalVisitor F → Exec F (Value F)
  | 0, _, _ => .outOfFuel
  | fuel + 1, .unary op operand, st =>
    (visitFactor fuel operand st).bind fun val st1 =>
      if op = "-" then .ok val.neg st1 else .ok val st1
  | fuel + 1, .atomExpr a, st => visitAtomExpr fuel a st

/-- Embeds `EvalVisitor::visitAtom_expr`. -/
def visitAtomExpr : Nat → AtomExpr → EvalVisitor F → Exec F (Value F)
  | 0, _, _ => .outOfFuel
  | fuel + 1, .mk atom none, st => visitAtom fuel atom st
  | fuel + 1, .mk (.name funcName) (some (.mk arglist)), st =>
    if funcName = "print" then
      (match arglist with
        | some args => visitPrintArgs fuel args true st
        | none => (.ok () st : Exec F Unit)).bind fun _ st1 =>
        .ok .none (st1.write ['\n'])
    else if funcName = "int" then
      match arglist with
      | some (arg :: _) => (visitArgument fuel arg st).bind fun a st1 => .ok a.toInt st1
      | _ => .ok (.int (BigInt.ofLongLong 0)) st
    else if funcName = "float" then
      match arglist with
      | some (arg :: _) => (visitArgument fuel arg st).bind fun a st1 => .ok a.toFloat st1
      | _ => .ok (.float (HostFloat.ofInt 0)) st
    else if funcName = "str" then
      match arglist with
      | some (arg :: _) => (visitArgument fuel arg st).bind fun a st1 => .ok a.toStr st1
      -- `return Value("")`: for a string literal overload resolution picks `Value(bool)`
      -- (pointer-to-bool is a standard conversion, `std::string` a user-defined one).
      | _ => .ok (.bool true) st
    else if funcName = "bool" then
      match arglist with
      | some (arg :: _) => (visitArgument fuel arg st).bind fun a st1 => .ok (.bool a.toBool) st1
      | _ => .ok (.bool false) st
    else if (mapFind st.functions funcName).isSome then
      (match arglist with
        | some args => visitCallArgs fuel funcName args 0 [] st.pushScope
        | none => (.ok [] st.pushScope : Exec F (List (String × Value F)))).bind
        fun passedArgs st1 =>
          match mapFind st1.functions funcName with
          | none => .error "function table entry lost"
          | some func =>
            finishCall (visitSuite fuel func.suite
              (bindParameters passedArgs func.defaults func.params st1))
    else .ok .none st
  | _ + 1, .mk _ (some _), st => .ok .none st

/-- The loop of the `print` branch: a space before every argument but the first, then
the argument is visited and its display form written. -/
def visitPrintArgs : Nat → List Argument → Bool → EvalVisitor F → Exec F Unit
  | 0, _, _, _ => .outOfFuel
  | _ + 1, [], _, st => .ok () st
  | fuel + 1, arg :: rest, isFirst, st =>
    (visitArgument fuel arg (if isFirst then st else st.write [' '])).bind fun a st1 =>
      visitPrintArgs fuel rest false (st1.write a.toString)

/-- The loop `for (auto arg : args)` of the call of a user function: fills `passedArgs`. -/
def visitCallArgs : Nat → String → List Argument → Nat → List (String × Value F) →
    EvalVisitor F → Exec F (List (String × Value F))
  | 0, _, _, _, _, _ => .outOfFuel
  | _ + 1, _, [], _, passedArgs, st => .ok passedArgs st
  | fuel + 1, funcName, .mk _ text0 (some test1) :: rest, posArgIdx, passedArgs, st =>
    (visitTest fuel test1 st).bind fun val st1 =>
      visitCallArgs fuel funcName rest posArgIdx (mapSet passedArgs text0 val) st1
  | fuel + 1, funcName, .mk test0 _ none :: rest, posArgIdx, passedArgs, st =>
    match (paramsOf st funcName)[posArgIdx]? with
    | some param =>
      (visitTest fuel test0 st).bind fun val st1 =>
        visitCallArgs fuel funcName rest (posArgIdx + 1) (mapSet passedArgs param val) st1
    | none => visitCallArgs fuel funcName rest posArgIdx passedArgs st

/-- Embeds `EvalVisitor::visitArgument`. -/
def visitArgument : Nat → Argument → EvalVisitor F → Exec F (Value F)
  | 0, _, _ => .outOfFuel
  | fuel + 1, .mk test0 _ _, st => visitTest fuel test0 st

/-- Embeds `EvalVisitor::visitAtom`. -/
def visitAtom : Nat → Atom → EvalVisitor F → Exec F (Value F)
  | 0, _, _ => .outOfFuel
  | _ + 1, .name s, st => .ok (st.getVariable s) st
  | _ + 1, .number num, st =>
    if '.' ∈ num then
      match (HostFloat.stod num : Option F) with
      | some f => .ok (.float f) st
      | none => .error "std::stod"
    else .ok (.int (BigInt.ofString num)) st
  | _ + 1, .strings first rest, st =>
    match parseStrings (first :: rest) [] with
    | some result => .ok (.str result) st
    | none => .error "std::out_of_range"
  | _ + 1, .keyword text, st =>
    if text = "None" then .ok .none st
    else if text = "True" then .ok (.bool true) st
    else if text = "False" then .ok (.bool false) st
    else .ok .none st
  | fuel + 1, .paren t, st => visitTest fuel t st
  | fuel + 1, .formatString children, st => visitFormatString fuel children [] st

/-- The loop of `EvalVisitor::visitFormat_string` over `ctx->children`. -/
def visitFormatString : Nat → List FormatChild → List Char → EvalVisitor F → Exec F (Value F)
  | 0, _, _, _ => .outOfFuel
  | _ + 1, [], result, st => .ok (.str result) st
  | fuel + 1, .token text :: rest, result, st =>
    if text = "f\"".toList ∨ text = ['f', Char.ofNat 39] ∨ text = "\"".toList
        ∨ text = [Char.ofNat 39] then
      visitFormatString fuel rest result st
    else if text.length ≥ 2 ∧ text.head? = some (Char.ofNat 123)
        ∧ text.getLast? = some (Char.ofNat 125) then
      visitFormatString fuel rest result st
    else visitFormatString fuel rest (result ++ text) st
  | fuel + 1, .testlist (.mk first more) :: rest, result, st =>
    (visitFormatTests fuel (first :: more) true result st).bind fun result1 st1 =>
      visitFormatString fuel rest result1 st1

/-- The loop over the tests of one embedded `testlist` of a format string. -/
def visitFormatTests : Nat → List Test → Bool → List Char → EvalVisitor F →
    Exec F (List Char)
  | 0, _, _, _, _ => .outOfFuel
  | _ + 1, [], _, result, st => .ok result st
  | fuel + 1, t :: rest, isFirst, result, st =>
    (visitTest fuel t st).bind fun val st1 =>
      visitFormatTests fuel rest false
        ((if isFirst then result else result ++ [' ']) ++ val.toString) st1

/-- Embeds `EvalVisitor::visitTestlist`. -/
def visitTestlist : Nat → Testlist → EvalVisitor F → Exec F (Value F)
  | 0, _, _ => .outOfFuel
  | fuel + 1, .mk first _, st => visitTest fuel first st

/-- Embeds `EvalVisitor::visitStmt` with the statement visitors it forwards to
(`visitExpr_stmt`, `visitBreak_stmt`, `visitContinue_stmt`, `visitReturn_stmt`,
`visitIf_stmt`, `visitWhile_stmt`, `visitFuncdef`). -/
def visitStmt : Nat → Stmt → EvalVisitor F → Exec F Unit
  | 0, _, _ => .outOfFuel
  | fuel + 1, .exprStmt first [] _, st =>
    (visitTestlist fuel first st).bind fun _ st1 => .ok () st1
  | fuel + 1, .exprStmt lhs (rhs :: _) (some op), st =>
    let varName := testlistTarget lhs
    if varName ≠ "" then
      let oldVal := st.getVariable varName
      (visitTestlist fuel rhs st).bind fun rhsVal st1 =>
        (Exec.ofRes (augOp fuel op oldVal rhsVal) st1).bind fun newVal st2 =>
          .ok () (st2.setVariable varName newVal)
    else .ok () st
  | fuel + 1, .exprStmt first (t :: rest) none, st =>
    (visitTestlist fuel ((t :: rest).getLast (List.cons_ne_nil t rest)) st).bind
      fun rhsVal st1 => .ok () (assignTargets (first :: (t :: rest).dropLast).reverse rhsVal st1)
  | _ + 1, .breakStmt, st => .breakSignal st
  | _ + 1, .continueStmt, st => .continueSignal st
  | fuel + 1, .returnStmt (some tl), st =>
    (visitTestlist fuel tl st).bind fun val st1 => .returnSignal val st1
  | _ + 1, .returnStmt none, st => .returnSignal .none st
  | fuel + 1, .ifStmt branches elseSuite, st => visitIfBranches fuel branches elseSuite st
  | fuel + 1, .whileStmt test suite, st => visitWhile fuel test suite st
  | _ + 1, .defStmt name none suite, st =>
    .ok () (defineFunction st name { params := [], defaults := [], suite := suite })
  | fuel + 1, .defStmt name (some (params, tests)) suite, st =>
    if tests.length ≤ params.length then
      (visitDefaults fuel (params.drop (params.length - tests.length)) tests [] st).bind
        fun defaults st1 =>
          .ok () (defineFunction st1 name
            { params := params, defaults := defaults, suite := suite })
    else .error "more defaults than parameters"

/-- The loop of `visitIf_stmt` over the tests, then the `else` suite. -/
def visitIfBranches : Nat → List (Test × Suite) → Option Suite → EvalVisitor F → Exec F Unit
  | 0, _, _, _ => .outOfFuel
  | _ + 1, [], none, st => .ok () st
  | fuel + 1, [], some suite, st => visitSuite fuel suite st
  | fuel + 1, (test, suite) :: rest, elseSuite, st =>
    (visitTest fuel test st).bind fun condition st1 =>
      if condition.toBool then visitSuite fuel suite st1
      else visitIfBranches fuel rest elseSuite st1

/-- Embeds `EvalVisitor::visitWhile_stmt`: one turn of `while (true)` per unit of fuel. -/
def visitWhile : Nat → Test → Suite → EvalVisitor F → Exec F Unit
  | 0, _, _, _ => .outOfFuel
  | fuel + 1, test, suite, st =>
    (visitTest fuel test st).bind fun condition st1 =>
      if !condition.toBool then .ok () st1
      else
        match visitSuite fuel suite st1 with
        | .ok _ st2 => visitWhile fuel test suite st2
        | .breakSignal st2 => .ok () st2
        | .continueSignal st2 => visitWhile fuel test suite st2
        | .returnSignal v st2 => .returnSignal v st2
        | .error m => .error m
        | .outOfFuel => .outOfFuel

/-- The loop of `visitFuncdef` over the default expressions: `names` are the parameters
`params[numParams - numDefaults + i]`. -/
def visitDefaults : Nat → List String → List Test → List (String × Value F) →
    EvalVisitor F → Exec F (List (String × Value F))
  | 0, _, _, _, _ => .outOfFuel
  | fuel + 1, name :: names, test :: tests, defaults, st =>
    (visitTest fuel test st).bind fun defaultVal st1 =>
      visitDefaults fuel names tests (mapSet defaults name defaultVal) st1
  | _ + 1, _, _, defaults, st => .ok defaults st

/-- Embeds `EvalVisitor::visitSuite`. -/
def visitSuite : Nat → Suite → EvalVisitor F → Exec F Unit
  | 0, _, _ => .outOfFuel
  | fuel + 1, .simple s, st => visitStmt fuel s st
  | fuel + 1, .block stmts, st => visitStmts fuel stmts st

/-- The loop `for (auto stmt : ctx->stmt()) visit(stmt);` of `visitSuite` and
`visitFile_input`. -/
def visitStmts : Nat → List Stmt → EvalVisitor F → Exec F Unit
  | 0, _, _ => .outOfFuel
  | _ + 1, [], st => .ok () st
  | fuel + 1, s :: rest, st =>
    (visitStmt fuel s st).bind fun _ st1 => visitStmts fuel rest st1

end

/-- Embeds `EvalVisitor::visitFile_input`. -/
def visitFileInput (fuel : Nat) (stmts : List Stmt) (st : EvalVisitor F) : Exec F Unit :=
  visitStmts fuel stmts st

end Visitor

/-- A one-point stand-in for `double`, with which programs that use no floating point can
be run; its operations are never inspected. -/
inductive NoFloat where
  | unit
  deriving DecidableEq, Repr

instance : HostFloat NoFloat where
  ofInt _ := .unit
  add _ _ := .unit
  sub _ _ := .unit
  mul _ _ := .unit
  div _ _ := .unit
  neg _ := .unit
  floor _ := .unit
  lt _ _ := false
  eq _ _ := true
  toLongLong _ := 0
  stod _ := none
  fixed6 _ := []

/-! ## Parse trees of the specification's scenarios -/

/-- The `factor` made of a bare atom. -/
def Factor.ofAtom (a : Atom) : Factor := .atomExpr (.mk a none)

/-- The `term` made of a single factor. -/
def Term.ofFactor (f : Factor) : Term := .mk f []

/-- The `test` that wraps one `arith_expr` through `comparison`, `not_test`, `and_test`
and `or_test`. -/
def Test.ofArith (e : ArithExpr) : Test :=
  .mk (.mk (.mk (.comparison (.mk e [])) []) [])

/-- The `test` that wraps a single factor. -/
def Test.ofFactor (f : Factor) : Test := Test.ofArith (.mk (Term.ofFactor f) [])

/-- The `test` of a `NUMBER` literal. -/
def Test.number (lexeme : String) : Test := Test.ofFactor (Factor.ofAtom (.number lexeme.toList))

/-- The `test` of a `NAME`. -/
def Test.name (s : String) : Test := Test.ofFactor (Factor.ofAtom (.name s))

/-- The `test` of a call `name(args)`. -/
def Test.call (name : String) (args : List Argument) : Test :=
  Test.ofFactor (.atomExpr (.mk (.name name) (some (.mk (if args.isEmpty then none else some args)))))

/-- A positional `argument`. -/
def Argument.positional (t : Test) (text : String) : Argument := .mk t text none

/-- A keyword `argument` `name=value`. -/
def Argument.keyword (name : String) (value : Test) : Argument :=
  .mk (Test.name name) name (some value)

/-- The statement `def f(x, y=3): return x + y`. -/
def progDefF : Stmt :=
  .defStmt "f" (some (["x", "y"], [Test.number "3"]))
    (.simple (.returnStmt (some (.mk
      (Test.ofArith (.mk (Term.ofFactor (Factor.ofAtom (.name "x")))
        [("+", Term.ofFactor (Factor.ofAtom (.name "y")))])) []))))

/-- The call `f(1)`. -/
def callF1 : Test := Test.call "f" [Argument.positional (Test.number "1") "1"]

/-- The call `f(1, 2)`. -/
def callF12 : Test :=
  Test.call "f" [Argument.positional (Test.number "1") "1",
    Argument.positional (Test.number "2") "2"]

/-- The call `f(y=10, x=5)`. -/
def callFkw : Test :=
  Test.call "f" [Argument.keyword "y" (Test.number "10"), Argument.keyword "x" (Test.number "5")]

/-- The display form of the value of an expression, or `none` when its visit does not
complete normally. -/
def shownResult {F : Type} [HostFloat F] : Exec F (Value F) → Option (List Char)
  | .ok v _ => some v.toString
  | _ => none

/-- The state after a statement list run from the initial state, when it completes. -/
def stateAfter {F : Type} [HostFloat F] (fuel : Nat) (stmts : List Stmt) :
    Option (EvalVisitor F) :=
  match visitFileInput fuel stmts EvalVisitor.init with
  | .ok _ st => some st
  | _ => none

/-! ## The call protocol as the specification words it -/

/-- The bindings a call makes, in the specification's words: the k-th positional argument
is bound to the k-th parameter, a keyword argument to the name it gives.  `vals` are the
values of the arguments, `n` the number of positional arguments already seen. -/
def specBindings {F : Type} (params : List String) :
    List Argument → List (Value F) → Nat → List (String × Value F)
  | .mk _ _ none :: rest, v :: vals, n =>
    (match params[n]? with
      | some p => [(p, v)]
      | none => []) ++ specBindings params rest vals (n + 1)
  | .mk _ name (some _) :: rest, v :: vals, n => (name, v) :: specBindings params rest vals n
  | _, _, _ => []

/-- The value a parameter left unbound by the call receives: its default if it has one,
else `None`. -/
def specDefault {F : Type} (defaults : List (String × Value F)) (param : String) : Value F :=
  match mapFind defaults param with
  | some d => d
  | none => .none

/-- The number of positional arguments of an argument list. -/
def positionalCount : List Argument → Nat
  | [] => 0
  | .mk _ _ none :: rest => positionalCount rest + 1
  | .mk _ _ (some _) :: rest => positionalCount rest

/-- The arguments of a call evaluate in order to `vals`, taking the state `st` to `stN`
and leaving the function table as it is: the argument at position `i` is visited with the
fuel that the argument loop, run with `fuel`, gives it. -/
def ArgsEvaluateTo {F : Type} [HostFloat F] :
    Nat → EvalVisitor F → List Argument → List (Value F) → EvalVisitor F → Prop
  | _ + 1, st, [], [], stN => stN = st
  | fuel + 1, st, .mk test0 _ none :: rest, v :: vals, stN =>
    ∃ st1, visitTest fuel test0 st = .ok v st1 ∧ st1.functions = st.functions ∧
      ArgsEvaluateTo fuel st1 rest vals stN
  | fuel + 1, st, .mk _ _ (some test1) :: rest, v :: vals, stN =>
    ∃ st1, visitTest fuel test1 st = .ok v st1 ∧ st1.functions = st.functions ∧
      ArgsEvaluateTo fuel st1 rest vals stN
  | _, _, _, _, _ => False

/-- The definition that `def f(x, y=3): return x + y` records. -/
def funcF : FunctionDef NoFloat :=
  { params := ["x", "y"],
    defaults := [("y", .int { value := ['3'], negative := false })],
    suite := .simple (.returnStmt (some (.mk
      (Test.ofArith (.mk (Term.ofFactor (Factor.ofAtom (.name "x")))
        [("+", Term.ofFactor (Factor.ofAtom (.name "y")))])) []))) }

/-- The state in which only `f` is defined. -/
def stateWithF : EvalVisitor NoFloat :=
  { scopes := [[]], functions := [("f", funcF)], output := [] }

/-- The arguments of the call `f(1, y=10)`. -/
def argsOneAndY : List Argument :=
  [Argument.positional (Test.number "1") "1", Argument.keyword "y" (Test.number "10")]

/-- The values of the arguments of `f(1, y=10)`. -/
def valsOneAndY : List (Value NoFloat) :=
  [.int { value := ['1'], negative := false }, .int { value := ['1', '0'], negative := false }]

/-! ## Scope operations and further scenarios -/

/-- One of the four scope operations of `EvalVisitor`: `pushScope()`, `popScope()`,
`setVariable(name, val)` and `getVariable(name)`. -/
inductive ScopeOp (F : Type) where
  | push
  | pop
  | assign (name : String) (val : Value F)
  | lookup (name : String)

/-- The state after one scope operation (a lookup returns a value and changes nothing). -/
def applyOp {F : Type} (st : EvalVisitor F) : ScopeOp F → EvalVisitor F
  | .push => st.pushScope
  | .pop => st.popScope
  | .assign name val => st.setVariable name val
  | .lookup _ => st

/-- The state after a sequence of scope operations. -/
def applyOps {F : Type} (st : EvalVisitor F) (ops : List (ScopeOp F)) : EvalVisitor F :=
  ops.foldl applyOp st

/-- The write of an augmented assignment as the claim words it: into the innermost scope
that holds the name, or into the innermost scope when no scope holds it. -/
def specWriteHolding {F : Type} :
    List (List (String × Value F)) → String → Value F → List (List (String × Value F))
  | [], _, _ => []
  | [scope], name, v => [mapSet scope name v]
  | scope :: below, name, v =>
    if (mapFind scope name).isSome then mapSet scope name v :: below
    else if below.any (fun s => (mapFind s name).isSome) then
      scope :: specWriteHolding below name v
    else mapSet scope name v :: below

/-- The int value written by a decimal literal. -/
def intValue (lexeme : String) : Value NoFloat := .int (BigInt.ofString lexeme.toList)

/-- The scope stack of an outcome that carries a state. -/
def scopesOf {F α : Type} : Exec F α → Option (List (List (String × Value F)))
  | .ok _ st => some st.scopes
  | .breakSignal st => some st.scopes
  | .continueSignal st => some st.scopes
  | .returnSignal _ st => some st.scopes
  | _ => none

/-- The text written to standard output by an outcome that carries a state. -/
def outputOf {F α : Type} : Exec F α → Option (List Char)
  | .ok _ st => some st.output
  | .breakSignal st => some st.output
  | .continueSignal st => some st.output
  | .returnSignal _ st => some st.output
  | _ => none

/-- The `testlist` of a single test. -/
def Testlist.single (t : Test) : Testlist := .mk t []

/-- The statement `name = value`. -/
def Stmt.assign (name : String) (value : Test) : Stmt :=
  .exprStmt (Testlist.single (Test.name name)) [Testlist.single value] none

/-- The statement `name op value` for an augmented-assignment operator `op`. -/
def Stmt.augAssign (name op : String) (value : Test) : Stmt :=
  .exprStmt (Testlist.single (Test.name name)) [Testlist.single value] (some op)

/-- The statement `return value`. -/
def Stmt.returnValue (value : Test) : Stmt := .returnStmt (some (Testlist.single value))

/-- The expression statement made of one test. -/
def Stmt.expr (t : Test) : Stmt := .exprStmt (Testlist.single t) [] none

/-- The program `x = 1`, `def f(): x = 2; return x` (a two-statement body), `r = f()`. -/
def progShadow : List Stmt :=
  [Stmt.assign "x" (Test.number "1"),
   .defStmt "f" none (.block [Stmt.assign "x" (Test.number "2"),
     Stmt.returnValue (Test.name "x")]),
   Stmt.assign "r" (Test.call "f" [])]

/-- The program `x = 1`, `def f(): x += 1; return x`, `r = f()`. -/
def progAugShadow : List Stmt :=
  [Stmt.assign "x" (Test.number "1"),
   .defStmt "f" none (.block [Stmt.augAssign "x" "+=" (Test.number "1"),
     Stmt.returnValue (Test.name "x")]),
   Stmt.assign "r" (Test.call "f" [])]

/-- A state inside a call: an empty function scope above a global scope that binds `x`
to 1. -/
def stateInCall : EvalVisitor NoFloat :=
  { scopes := [[], [("x", intValue "1")]], functions := [], output := [] }

/-! ## Operand traces of the short-circuit operators and of comparison chains -/

/-- The operands `ts` are visited in order by `visit`, the first with `fuel` and each
further one with one unit less; they complete normally with the values `vals` and take the
state `st` to `stN`. -/
def OperandsEvaluateTo {F α : Type} (visit : Nat → α → EvalVisitor F → Exec F (Value F)) :
    Nat → EvalVisitor F → List α → List (Value F) → EvalVisitor F → Prop
  | _, st, [], [], stN => stN = st
  | fuel + 1, st, t :: rest, v :: vals, stN =>
    ∃ st1, visit (fuel + 1) t st = .ok v st1 ∧ OperandsEvaluateTo visit fuel st1 rest vals stN
  | _, _, _, _, _ => False

/-- The comparisons `left op1 e1`, `e1 op2 e2`, … of a chain all hold: each right operand
is visited once, in order (the first with `fuel`, each further one with one unit less),
`last` is the value of the last operand and `stN` the state reached. -/
def ComparisonsHold {F : Type} [HostFloat F] :
    Nat → EvalVisitor F → Value F → List (String × ArithExpr) → Value F → EvalVisitor F → Prop
  | _, st, left, [], last, stN => stN = st ∧ last = left
  | fuel + 1, st, left, (op, e) :: rest, last, stN =>
    ∃ v st1, visitArithExpr (fuel + 1) e st = .ok v st1 ∧ compareOp op left v = true ∧
      ComparisonsHold fuel st1 v rest last stN
  | 0, _, _, _ :: _, _, _ => False

/-- The `not_test` that wraps one `arith_expr` with comparison operators. -/
def NotTest.ofComparison (first : ArithExpr) (rest : List (String × ArithExpr)) : NotTest :=
  .comparison (.mk first rest)

/-- The `arith_expr` made of a single atom. -/
def ArithExpr.ofAtom (a : Atom) : ArithExpr := .mk (Term.ofFactor (Factor.ofAtom a)) []

/-- The `arith_expr` of a call `name()` without arguments. -/
def ArithExpr.call0 (name : String) : ArithExpr :=
  .mk (Term.ofFactor (.atomExpr (.mk (.name name) (some (.mk none))))) []

/-- The `and_test` made of a single call `name()`. -/
def AndTest.call0 (name : String) : AndTest :=
  .mk (NotTest.ofComparison (ArithExpr.call0 name) []) []

/-- The statement `print(value)`. -/
def Stmt.print (value : Test) : Stmt :=
  Stmt.expr (Test.call "print" [Argument.positional value ""])

/-- The statement `def name(): print(shown); return result` with number literals. -/
def Stmt.defPrinting (name shown result : String) : Stmt :=
  .defStmt name none (.block [Stmt.print (Test.number shown),
    Stmt.returnValue (Test.number result)])

/-- The definitions `def f(): print(1); return 1`, `def g(): print(2); return 2` and
`def z(): print(0); return 0`. -/
def progPrinters : List Stmt :=
  [Stmt.defPrinting "f" "1" "1", Stmt.defPrinting "g" "2" "2", Stmt.defPrinting "z" "0" "0"]

/-- The value and the output of an expression visited after the statements `stmts` have
run from the initial state. -/
def valueAndOutput (fuel : Nat) (stmts : List Stmt) (t : Test) :
    Option (Value NoFloat × List Char) :=
  match (stateAfter fuel stmts : Option (EvalVisitor NoFloat)) with
  | none => none
  | some st =>
    match visitTest fuel t st with
    | .ok v st1 => some (v, st1.output)
    | _ => none

/-- The expression `f() or g()`. -/
def testFOrG : Test := .mk (.mk (AndTest.call0 "f") [AndTest.call0 "g"])

/-- The expression `z() or g()`. -/
def testZOrG : Test := .mk (.mk (AndTest.call0 "z") [AndTest.call0 "g"])

/-- The expression `z() and g()`. -/
def testZAndG : Test :=
  .mk (.mk (.mk (NotTest.ofComparison (ArithExpr.call0 "z") [])
    [NotTest.ofComparison (ArithExpr.call0 "g") []]) [])

/-- The expression `f() and g()`. -/
def testFAndG : Test :=
  .mk (.mk (.mk (NotTest.ofComparison (ArithExpr.call0 "f") [])
    [NotTest.ofComparison (ArithExpr.call0 "g") []]) [])

/-- The definition recorded by `def name(): print(shown); return result`. -/
def printerDef (shown result : String) : FunctionDef NoFloat :=
  { params := [], defaults := [],
    suite := .block [Stmt.print (Test.number shown), Stmt.returnValue (Test.number result)] }

/-- The state in which `f`, `g` and `z` of `progPrinters` are defined and `out` has been
written. -/
def statePrinters (out : List Char) : EvalVisitor NoFloat :=
  { scopes := [[]],
    functions := [("f", printerDef "1" "1"), ("g", printerDef "2" "2"),
      ("z", printerDef "0" "0")],
    output := out }

/-- The `test` made of one comparison chain. -/
def Test.ofChain (first : ArithExpr) (rest : List (String × ArithExpr)) : Test :=
  .mk (.mk (.mk (NotTest.ofComparison first rest) []) [])

/-- The `test` `c1 and c2` of two comparison chains. -/
def Test.andOfChains (first1 : ArithExpr) (rest1 : List (String × ArithExpr))
    (first2 : ArithExpr) (rest2 : List (String × ArithExpr)) : Test :=
  .mk (.mk (.mk (NotTest.ofComparison first1 rest1) [NotTest.ofComparison first2 rest2]) [])

/-- The chained comparison `1 < x < 10`. -/
def chainOneXTen : Test :=
  Test.ofChain (ArithExpr.ofAtom (.number ['1']))
    [("<", ArithExpr.ofAtom (.name "x")), ("<", ArithExpr.ofAtom (.number ['1', '0']))]

/-- The conjunction `1 < x and x < 10`. -/
def andOneXTen : Test :=
  Test.andOfChains (ArithExpr.ofAtom (.number ['1'])) [("<", ArithExpr.ofAtom (.name "x"))]
    (ArithExpr.ofAtom (.name "x")) [("<", ArithExpr.ofAtom (.number ['1', '0']))]

/-- The chained comparison `0 < f() < 2`. -/
def chainCallF : Test :=
  Test.ofChain (ArithExpr.ofAtom (.number ['0']))
    [("<", ArithExpr.call0 "f"), ("<", ArithExpr.ofAtom (.number ['2']))]

/-- The conjunction `0 < f() and f() < 2`. -/
def andCallF : Test :=
  Test.andOfChains (ArithExpr.ofAtom (.number ['0'])) [("<", ArithExpr.call0 "f")]
    (ArithExpr.call0 "f") [("<", ArithExpr.ofAtom (.number ['2']))]

/-- The chained comparison `2 < f() < g()`. -/
def chainStops : Test :=
  Test.ofChain (ArithExpr.ofAtom (.number ['2']))
    [("<", ArithExpr.call0 "f"), ("<", ArithExpr.call0 "g")]

/-! ## Loop traces and loop scenarios -/

/-- The loop `while test: suite` makes `n` full turns from `st` to `stN`: in each turn the
test is visited first and is truthy, then the body is visited and ends normally or with a
continue signal; the first turn runs with `fuel`, each further one with one unit less. -/
def LoopTurns {F : Type} [HostFloat F] (test : Test) (suite : Suite) :
    Nat → EvalVisitor F → Nat → EvalVisitor F → Prop
  | _, st, 0, stN => stN = st
  | 0, _, _ + 1, _ => False
  | fuel + 1, st, n + 1, stN =>
    ∃ c st1 st2, visitTest (fuel + 1) test st = .ok c st1 ∧ c.toBool = true ∧
      (visitSuite (fuel + 1) suite st1 = .ok () st2 ∨
        visitSuite (fuel + 1) suite st1 = .continueSignal st2) ∧
      LoopTurns test suite fuel st2 n stN

/-- The `test` of one comparison `left op right`. -/
def Test.compare (left : ArithExpr) (op : String) (right : ArithExpr) : Test :=
  Test.ofChain left [(op, right)]

/-- The statement `if test: s1; s2; …` without `elif` and `else`. -/
def Stmt.ifThen (test : Test) (body : List Stmt) : Stmt := .ifStmt [(test, .block body)] none

/-- The program `n = 5`, `acc = 1`, `while n > 0: acc *= n; n -= 1`, `print(acc)`. -/
def progFactorial : List Stmt :=
  [Stmt.assign "n" (Test.number "5"),
   Stmt.assign "acc" (Test.number "1"),
   .whileStmt (Test.compare (ArithExpr.ofAtom (.name "n")) ">" (ArithExpr.ofAtom (.number ['0'])))
     (.block [Stmt.augAssign "acc" "*=" (Test.name "n"),
       Stmt.augAssign "n" "-=" (Test.number "1")]),
   Stmt.print (Test.name "acc")]

/-- The program `i = 0`, `s = 0`,
`while 1: i += 1; if i > 5: break; if i == 2: continue; s += i`, `print(s)`, `print(i)`. -/
def progBreakContinue : List Stmt :=
  [Stmt.assign "i" (Test.number "0"),
   Stmt.assign "s" (Test.number "0"),
   .whileStmt (Test.number "1")
     (.block [Stmt.augAssign "i" "+=" (Test.number "1"),
       Stmt.ifThen (Test.compare (ArithExpr.ofAtom (.name "i")) ">"
         (ArithExpr.ofAtom (.number ['5']))) [.breakStmt],
       Stmt.ifThen (Test.compare (ArithExpr.ofAtom (.name "i")) "=="
         (ArithExpr.ofAtom (.number ['2']))) [.continueStmt],
       Stmt.augAssign "s" "+=" (Test.name "i")]),
   Stmt.print (Test.name "s"),
   Stmt.print (Test.name "i")]

/-- The loop `while n: n -= 1`. -/
def loopCountDown : Stmt :=
  .whileStmt (Test.name "n") (.simple (Stmt.augAssign "n" "-=" (Test.number "1")))

/-- A state whose only scope binds `n` to the int written `lexeme`. -/
def stateN (lexeme : String) : EvalVisitor NoFloat :=
  { scopes := [[("n", intValue lexeme)]], functions := [], output := [] }

/-! ## Default values -/

/-- The map `func.defaults` that the loop `func.defaults[name] = defaultVal` of
`visitFuncdef` builds from the defaulted parameter names and the values of their default
expressions. -/
def storedDefaults {F : Type} (names : List String) (vals : List (Value F)) :
    List (String × Value F) :=
  (names.zip vals).foldl (fun acc b => mapSet acc b.1 b.2) []

/-- The arguments of a call, none when the call has no argument list. -/
def argsOf (arglist : Option (List Argument)) : List Argument :=
  match arglist with
  | some args => args
  | none => []

/-- The program `x = 1`, `def f(y=x): return y`, `x = 2`, `print(f())`. -/
def progDefaultCapture : List Stmt :=
  [Stmt.assign "x" (Test.number "1"),
   .defStmt "f" (some (["y"], [Test.name "x"])) (.simple (Stmt.returnValue (Test.name "y"))),
   Stmt.assign "x" (Test.number "2"),
   Stmt.print (Test.call "f" [])]

/-- The program `def g(): print(7); return 2`, `def h(y=g()): return y`, `print(h())`,
`print(h())`. -/
def progDefaultOnce : List Stmt :=
  [Stmt.defPrinting "g" "7" "2",
   .defStmt "h" (some (["y"], [Test.call "g" []])) (.simple (Stmt.returnValue (Test.name "y"))),
   Stmt.print (Test.call "h" []),
   Stmt.print (Test.call "h" [])]

/-- The definition recorded by `def f(y=x): return y` when `x` is 1. -/
def funcCaptured : FunctionDef NoFloat :=
  { params := ["y"], defaults := [("y", intValue "1")],
    suite := .simple (Stmt.returnValue (Test.name "y")) }

/-- A state whose only scope binds `x` to the int written `lexeme`, with the function
table `fns`. -/
def stateX (lexeme : String) (fns : List (String × FunctionDef NoFloat)) : EvalVisitor NoFloat :=
  { scopes := [[("x", intValue lexeme)]], functions := fns, output := [] }

/-! ## Well-formed control flow and the scope frame of a visit -/

mutual

/-- Statement `s` is well formed when it stands inside a loop of the enclosing function
body (`inLoop = true`) or outside any loop of it (`inLoop = false`): `break` and `continue`
occur only inside a `while` of the same function body; the body of a `def` starts outside
any loop. -/
inductive StmtOk : Bool → Stmt → Prop where
  | exprStmt (inLoop : Bool) (first : Testlist) (rest : List Testlist)
      (augassign : Option String) : StmtOk inLoop (.exprStmt first rest augassign)
  | breakStmt : StmtOk true .breakStmt
  | continueStmt : StmtOk true .continueStmt
  | returnStmt (inLoop : Bool) (value : Option Testlist) : StmtOk inLoop (.returnStmt value)
  | ifStmt (inLoop : Bool) (branches : List (Test × Suite)) (elseSuite : Option Suite) :
      (∀ p, p ∈ branches → SuiteOk inLoop p.2) → (∀ s, elseSuite = some s → SuiteOk inLoop s) →
      StmtOk inLoop (.ifStmt branches elseSuite)
  | whileStmt (inLoop : Bool) (test : Test) (suite : Suite) :
      SuiteOk true suite → StmtOk inLoop (.whileStmt test suite)
  | defStmt (inLoop : Bool) (name : String) (typedargslist : Option (List String × List Test))
      (suite : Suite) : SuiteOk false suite → StmtOk inLoop (.defStmt name typedargslist suite)

/-- Well-formedness of a suite: of its statement, or of every statement of its block. -/
inductive SuiteOk : Bool → Suite → Prop where
  | simple (inLoop : Bool) (s : Stmt) : StmtOk inLoop s → SuiteOk inLoop (.simple s)
  | block (inLoop : Bool) (stmts : List Stmt) :
      (∀ s, s ∈ stmts → StmtOk inLoop s) → SuiteOk inLoop (.block stmts)

end

/-- Every function of the function table has a well-formed body. -/
def FnsOk {F : Type} (st : EvalVisitor F) : Prop :=
  ∀ name func, mapFind st.functions name = some func → SuiteOk false func.suite

/-- The frame of an expression visit started with the scope stack `sc`: normal completion
leaves the scope stack as it was and the function table well formed, and no control-flow
signal leaves the visit. -/
def ExprInv {F α : Type} (sc : List (List (String × Value F))) : Exec F α → Prop
  | .ok _ st1 => st1.scopes = sc ∧ FnsOk st1
  | .breakSignal _ => False
  | .continueSignal _ => False
  | .returnSignal _ _ => False
  | .error _ => True
  | .outOfFuel => True

/-- The frame of a statement visit started with the scopes `below` under the innermost
one: every outcome that carries a state leaves `below` as it was, the stack non-empty and
the function table well formed; a break or continue signal leaves only a statement that
stands inside a loop. -/
def StmtInv {F α : Type} (inLoop : Bool) (below : List (List (String × Value F))) :
    Exec F α → Prop
  | .ok _ st1 => st1.scopes.tail = below ∧ st1.scopes ≠ [] ∧ FnsOk st1
  | .returnSignal _ st1 => st1.scopes.tail = below ∧ st1.scopes ≠ [] ∧ FnsOk st1
  | .breakSignal st1 => inLoop = true ∧ st1.scopes.tail = below ∧ st1.scopes ≠ [] ∧ FnsOk st1
  | .continueSignal st1 =>
    inLoop = true ∧ st1.scopes.tail = below ∧ st1.scopes ≠ [] ∧ FnsOk st1
  | .error _ => True
  | .outOfFuel => True

/-- The frame properties of all the visitor methods run with `fuel`. -/
structure AllInv (F : Type) [HostFloat F] (fuel : Nat) : Prop where
  test : ∀ (t : Test) (st : EvalVisitor F), st.scopes ≠ [] → FnsOk st →
    ExprInv st.scopes (visitTest fuel t st)
  orTest : ∀ (t : OrTest) (st : EvalVisitor F), st.scopes ≠ [] → FnsOk st →
    ExprInv st.scopes (visitOrTest fuel t st)
  orRest : ∀ (rest : List AndTest) (r : Value F) (st : EvalVisitor F), st.scopes ≠ [] →
    FnsOk st → ExprInv st.scopes (visitOrRest fuel rest r st)
  andTest : ∀ (t : AndTest) (st : EvalVisitor F), st.scopes ≠ [] → FnsOk st →
    ExprInv st.scopes (visitAndTest fuel t st)
  andRest : ∀ (rest : List NotTest) (r : Value F) (st : EvalVisitor F), st.scopes ≠ [] →
    FnsOk st → ExprInv st.scopes (visitAndRest fuel rest r st)
  notTest : ∀ (t : NotTest) (st : EvalVisitor F), st.scopes ≠ [] → FnsOk st →
    ExprInv st.scopes (visitNotTest fuel t st)
  comparison : ∀ (t : Comparison) (st : EvalVisitor F), st.scopes ≠ [] → FnsOk st →
    ExprInv st.scopes (visitComparison fuel t st)
  comparisonRest : ∀ (rest : List (String × ArithExpr)) (r : Value F) (st : EvalVisitor F),
    st.scopes ≠ [] → FnsOk st → ExprInv st.scopes (visitComparisonRest fuel rest r st)
  arithExpr : ∀ (t : ArithExpr) (st : EvalVisitor F), st.scopes ≠ [] → FnsOk st →
    ExprInv st.scopes (visitArithExpr fuel t st)
  arithRest : ∀ (rest : List (String × Term)) (r : Value F) (st : EvalVisitor F),
    st.scopes ≠ [] → FnsOk st → ExprInv st.scopes (visitArithRest fuel rest r st)
  term : ∀ (t : Term) (st : EvalVisitor F), st.scopes ≠ [] → FnsOk st →
    ExprInv st.scopes (visitTerm fuel t st)
  termRest : ∀ (rest : List (String × Factor)) (r : Value F) (st : EvalVisitor F),
    st.scopes ≠ [] → FnsOk st → ExprInv st.scopes (visitTermRest fuel rest r st)
  factor : ∀ (t : Factor) (st : EvalVisitor F), st.scopes ≠ [] → FnsOk st →
    ExprInv st.scopes (visitFactor fuel t st)
  atomExpr : ∀ (t : AtomExpr) (st : EvalVisitor F), st.scopes ≠ [] → FnsOk st →
    ExprInv st.scopes (visitAtomExpr fuel t st)
  printArgs : ∀ (args : List Argument) (isFirst : Bool) (st : EvalVisitor F),
    st.scopes ≠ [] → FnsOk st → ExprInv st.scopes (visitPrintArgs fuel args isFirst st)
  callArgs : ∀ (funcName : String) (args : List Argument) (idx : Nat)
    (passed : List (String × Value F)) (st : EvalVisitor F), st.scopes ≠ [] → FnsOk st →
    ExprInv st.scopes (visitCallArgs fuel funcName args idx passed st)
  argument : ∀ (t : Argument) (st : EvalVisitor F), st.scopes ≠ [] → FnsOk st →
    ExprInv st.scopes (visitArgument fuel t st)
  atom : ∀ (t : Atom) (st : EvalVisitor F), st.scopes ≠ [] → FnsOk st →
    ExprInv st.scopes (visitAtom fuel t st)
  formatString : ∀ (children : List FormatChild) (result : List Char) (st : EvalVisitor F),
    st.scopes ≠ [] → FnsOk st → ExprInv st.scopes (visitFormatString fuel children result st)
  formatTests : ∀ (tests : List Test) (isFirst : Bool) (result : List Char)
    (st : EvalVisitor F), st.scopes ≠ [] → FnsOk st →
    ExprInv st.scopes (visitFormatTests fuel tests isFirst result st)
  testlist : ∀ (t : Testlist) (st : EvalVisitor F), st.scopes ≠ [] → FnsOk st →
    ExprInv st.scopes (visitTestlist fuel t st)
  defaults : ∀ (names : List String) (tests : List Test) (acc : List (String × Value F))
    (st : EvalVisitor F), st.scopes ≠ [] → FnsOk st →
    ExprInv st.scopes (visitDefaults fuel names tests acc st)
  stmt : ∀ (inLoop : Bool) (s : Stmt) (st : EvalVisitor F), StmtOk inLoop s →
    st.scopes ≠ [] → FnsOk st → StmtInv inLoop st.scopes.tail (visitStmt fuel s st)
  ifBranches : ∀ (inLoop : Bool) (branches : List (Test × Suite)) (elseSuite : Option Suite)
    (st : EvalVisitor F), (∀ p, p ∈ branches → SuiteOk inLoop p.2) →
    (∀ s, elseSuite = some s → SuiteOk inLoop s) → st.scopes ≠ [] → FnsOk st →
    StmtInv inLoop st.scopes.tail (visitIfBranches fuel branches elseSuite st)
  whileLoop : ∀ (test : Test) (suite : Suite) (st : EvalVisitor F), SuiteOk true suite →
    st.scopes ≠ [] → FnsOk st → StmtInv false st.scopes.tail (visitWhile fuel test suite st)
  suite : ∀ (inLoop : Bool) (s : Suite) (st : EvalVisitor F), SuiteOk inLoop s →
    st.scopes ≠ [] → FnsOk st → StmtInv inLoop st.scopes.tail (visitSuite fuel s st)
  stmts : ∀ (inLoop : Bool) (l : List Stmt) (st : EvalVisitor F),
    (∀ s, s ∈ l → StmtOk inLoop s) → st.scopes ≠ [] → FnsOk st →
    StmtInv inLoop st.scopes.tail (visitStmts fuel l st)

/-- The program `def h(): break`, `def g(): y = 5; while 1: h()`, `g()`: the `break` of
`h` stands outside any loop of `h`. -/
def progLeak : List Stmt :=
  [.defStmt "h" none (.simple .breakStmt),
   .defStmt "g" none (.block [Stmt.assign "y" (Test.number "5"),
     .whileStmt (Test.number "1") (.simple (Stmt.expr (Test.call "h" [])))]),
   Stmt.expr (Test.call "g" [])]

/-- The body `y = 5; while 1: h()` of `g` in `progLeak`. -/
def bodyG : Suite :=
  .block [Stmt.assign "y" (Test.number "5"),
    .whileStmt (Test.number "1") (.simple (Stmt.expr (Test.call "h" [])))]

/-- The state after the two definitions of `progLeak`, with the scope stack `scopes`. -/
def stateLeak (scopes : List (List (String × Value NoFloat))) : EvalVisitor NoFloat :=
  { scopes := scopes,
    functions := [("h", { params := [], defaults := [], suite := .simple .breakStmt }),
      ("g", { params := [], defaults := [], suite := bodyG })],
    output := [] }

/-- The program `def f(): t = 7; return t`, `r = f()`, `print(r)`, `print(t)`. -/
def progLocal : List Stmt :=
  [.defStmt "f" none (.block [Stmt.assign "t" (Test.number "7"),
     Stmt.returnValue (Test.name "t")]),
   Stmt.assign "r" (Test.call "f" []),
   Stmt.print (Test.name "r"),
   Stmt.print (Test.name "t")]

/-- The body `t = 7; return t` of `f` in `progLocal`. -/
def bodyLocal : Suite :=
  .block [Stmt.assign "t" (Test.number "7"), Stmt.returnValue (Test.name "t")]

/-- The state in which `f` of `progLocal` is defined, with the scope stack `scopes`. -/
def stateLocal (scopes : List (List (String × Value NoFloat))) : EvalVisitor NoFloat :=
  { scopes := scopes,
    functions := [("f", { params := [], defaults := [], suite := bodyLocal })],
    output := [] }

/-! ## Scenarios for `if` statements -/

/-- The statement `if t1: s1 elif t2: s2 … else: e` with one-statement suites. -/
def Stmt.ifChain (branches : List (Test × Stmt)) (elseStmt : Option Stmt) : Stmt :=
  .ifStmt (branches.map fun p => (p.1, Suite.simple p.2)) (elseStmt.map Suite.simple)

/-- The test `x < k` for a number literal `k`. -/
def Test.xBelow (k : String) : Test :=
  Test.compare (ArithExpr.ofAtom (.name "x")) "<" (ArithExpr.ofAtom (.number k.toList))

/-- The program `x = 5`, `if x < 3: print(1) elif x < 10: print(2) elif x < 20: print(3)
else: print(4)`. -/
def progIfChain : List Stmt :=
  [Stmt.assign "x" (Test.number "5"),
   Stmt.ifChain [(Test.xBelow "3", Stmt.print (Test.number "1")),
     (Test.xBelow "10", Stmt.print (Test.number "2")),
     (Test.xBelow "20", Stmt.print (Test.number "3"))] (some (Stmt.print (Test.number "4")))]

/-- After the definitions of `progPrinters` (`f`, `g`, `z` print and return 1, 2, 0):
`if z(): print(7) elif f(): print(8) elif g(): print(9) else: print(6)`. -/
def progIfEffects : List Stmt :=
  progPrinters ++
  [Stmt.ifChain [(Test.call "z" [], Stmt.print (Test.number "7")),
     (Test.call "f" [], Stmt.print (Test.number "8")),
     (Test.call "g" [], Stmt.print (Test.number "9"))] (some (Stmt.print (Test.number "6")))]

/-- After the definitions of `progPrinters`: `if z(): print(7) elif z(): print(8)` followed
by `else: print(6)` when `withElse` holds, and then `print(5)`. -/
def progIfNone (withElse : Bool) : List Stmt :=
  progPrinters ++
  [Stmt.ifChain [(Test.call "z" [], Stmt.print (Test.number "7")),
     (Test.call "z" [], Stmt.print (Test.number "8"))]
     (if withElse then some (Stmt.print (Test.number "6")) else none),
   Stmt.print (Test.number "5")]

/-! ## Type tags, a float model for examples, and value scenarios -/

/-- Embeds `enum class ValueType`. -/
inductive ValueType where
  | NONE
  | BOOL
  | INT
  | FLOAT
  | STRING
  deriving DecidableEq, Repr

/-- The field `type` of a `Value`. -/
def Value.type {F : Type} : Value F → ValueType
  | .none => .NONE
  | .bool _ => .BOOL
  | .int _ => .INT
  | .float _ => .FLOAT
  | .str _ => .STRING

/-- A model of the host `double` with which examples that use floats can be run: the
fraction `num / den` with exact arithmetic.  It agrees with IEEE-754 `double` on the values
the examples use (whole numbers that `double` represents exactly, and their sums, products
and comparisons); it does not model rounding, overflow, infinities or NaN: a quotient by
zero gets the denominator 0 and stands for no number. -/
structure ExactFloat where
  num : Int
  den : Nat
  deriving DecidableEq, Repr

namespace ExactFloat

/-- The conversion `(long long)f`: truncation toward zero when the result fits 64 bits;
the C++ standard leaves the other case undefined, and the model returns the value
`-2^63` that the x86-64 conversion instruction produces. -/
def toLongLong (a : ExactFloat) : Int :=
  let t := Int.tdiv a.num a.den
  if -(2 : Int) ^ 63 ≤ t ∧ t < (2 : Int) ^ 63 then t else -(2 : Int) ^ 63

/-- The value of plain decimal text `[+-]digits[.digits]` with at least one digit; other
text is outside the model and reported as a failed conversion. -/
def stod (s : List Char) : Option ExactFloat :=
  let negative := decide (s.head? = some '-')
  let body := if s.head? = some '-' ∨ s.head? = some '+' then s.drop 1 else s
  let whole := body.takeWhile Char.isDigit
  let rest := body.dropWhile Char.isDigit
  let frac := if rest.head? = some '.' then rest.drop 1 else []
  if (whole ++ frac).isEmpty ∨ ¬ IsDigits frac ∨ (rest ≠ [] ∧ rest.head? ≠ some '.') then none
  else some ⟨(if negative then -1 else 1) * val (whole ++ frac), 10 ^ frac.length⟩

/-- The decimal digits of `n`, padded with zeros on the left to at least `width` digits. -/
def padDigits (width n : Nat) : List Char :=
  let ds := Nat.toDigits 10 n
  List.replicate (width - ds.length) '0' ++ ds

/-- Output with six digits after the point, the last one rounded to nearest, ties to even. -/
def fixed6 (a : ExactFloat) : List Char :=
  let scaled := a.num.natAbs * 10 ^ 6
  let q := scaled / a.den
  let r := scaled % a.den
  let rounded := if 2 * r > a.den ∨ (2 * r = a.den ∧ q % 2 = 1) then q + 1 else q
  (if a.num < 0 then ['-'] else []) ++ Nat.toDigits 10 (rounded / 10 ^ 6) ++ ['.'] ++
    padDigits 6 (rounded % 10 ^ 6)

end ExactFloat

instance : HostFloat ExactFloat where
  ofInt n := ⟨n, 1⟩
  add a b := ⟨a.num * b.den + b.num * a.den, a.den * b.den⟩
  sub a b := ⟨a.num * b.den - b.num * a.den, a.den * b.den⟩
  mul a b := ⟨a.num * b.num, a.den * b.den⟩
  div a b := ⟨a.num * b.den * Int.sign b.num, a.den * b.num.natAbs⟩
  neg a := ⟨-a.num, a.den⟩
  floor a := ⟨Int.fdiv a.num a.den, 1⟩
  lt a b := decide (a.num * b.den < b.num * a.den)
  eq a b := decide (a.num * b.den = b.num * a.den)
  toLongLong := ExactFloat.toLongLong
  stod := ExactFloat.stod
  fixed6 := ExactFloat.fixed6

/-- The string made of `n` copies of `s` (none when `n ≤ 0`), as the claim words the
result of a repetition. -/
def specRepeat (s : List Char) (n : Int) : List Char := (List.replicate n.toNat s).flatten

/-- The int value 10^22, written `10000000000000000000000`. -/
def tenPow22 : BigInt := BigInt.ofString ('1' :: List.replicate 22 '0')

/-- The `test` of one string literal, given with its quotes. -/
def Test.string (lexeme : String) : Test := Test.ofFactor (Factor.ofAtom (.strings lexeme.toList []))

/-- The `test` `left op right` of two factors joined by a `term` operator. -/
def Test.termOf (left : Factor) (op : String) (right : Factor) : Test :=
  Test.ofArith (.mk (.mk left [(op, right)]) [])

/-- The `test` `left op right` of two terms joined by an `arith_expr` operator. -/
def Test.arithOf (left : Term) (op : String) (right : Term) : Test :=
  Test.ofArith (.mk left [(op, right)])

/-- The program `s = "ha"`, `print(s * 3 + "!")`. -/
def progRepeat : List Stmt :=
  [Stmt.assign "s" (Test.string "\"ha\""),
   Stmt.print (Test.arithOf (.mk (Factor.ofAtom (.name "s")) [("*", Factor.ofAtom (.number ['3']))])
     "+" (Term.ofFactor (Factor.ofAtom (.strings "\"!\"".toList []))))]

/-- The program `print("n=" + 42)`, `print(7 / 2)`, `print(True == 1.0)`,
`print(1 == 1.0)`, `print(True < 1.5)`. -/
def progValues : List Stmt :=
  [Stmt.print (Test.arithOf (Term.ofFactor (Factor.ofAtom (.strings "\"n=\"".toList [])))
     "+" (Term.ofFactor (Factor.ofAtom (.number ['4', '2'])))),
   Stmt.print (Test.termOf (Factor.ofAtom (.number ['7'])) "/" (Factor.ofAtom (.number ['2']))),
   Stmt.print (Test.compare (ArithExpr.ofAtom (.keyword "True")) "=="
     (ArithExpr.ofAtom (.number ['1', '.', '0']))),
   Stmt.print (Test.compare (ArithExpr.ofAtom (.number ['1'])) "=="
     (ArithExpr.ofAtom (.number ['1', '.', '0']))),
   Stmt.print (Test.compare (ArithExpr.ofAtom (.keyword "True")) "<"
     (ArithExpr.ofAtom (.number ['1', '.', '5'])))]

/-! ## String literals and formatted strings as the specification words them -/

/-- The character an escape `\c` stands for, in the claim's words: newline, tab, carriage
return, backslash, single quote and double quote for `n`, `t`, `r`, `\`, `'`, `"`, and the
character itself otherwise. -/
def specEscape (c : Char) : Char :=
  if c = 'n' then Char.ofNat 10
  else if c = 't' then Char.ofNat 9
  else if c = 'r' then Char.ofNat 13
  else c

/-- The decoding of the content of a string literal in the claim's words, left to right: a
backslash and the character after it give `specEscape` of that character, every other
character is kept.  The claim gives no rule for a backslash that ends the content:
`none`. -/
def specDecode : List Char → Option (List Char)
  | [] => some []
  | c :: rest =>
    if c = '\\' then
      match rest with
      | [] => none
      | d :: rest1 => (specDecode rest1).map fun out => specEscape d :: out
    else (specDecode rest).map fun out => c :: out

/-- The program `print("a\tb" "c\\d\"e\qf")`: two adjacent literals with escapes. -/
def progEscapes : List Stmt :=
  [Stmt.print (Test.ofFactor (Factor.ofAtom
    (.strings "\"a\\tb\"".toList ["\"c\\\\d\\\"e\\qf\"".toList])))]

/-- One part of a formatted string between its quotes: literal text or an interpolation
`{testlist}`. -/
inductive FormatPart where
  | text (s : List Char)
  | interpolation (tl : Testlist)

/-- Modelled from the spec: the children of a `format_string` node.  The grammar is not
part of the sources; by the production
`format_string := prefix-quoted sequence of text and '{' testlist '}' interpolations`
the children are the opening quote token (`f"` or `f'`), then one literal-text token for
each run of text and the three children `{`, `testlist`, `}` for each interpolation, then
the closing quote token. -/
def formatChildren (quote : Char) (parts : List FormatPart) : List FormatChild :=
  [FormatChild.token ['f', quote]] ++
  (parts.map fun p =>
    match p with
    | .text s => [FormatChild.token s]
    | .interpolation tl => [FormatChild.token ['{'], FormatChild.testlist tl,
        FormatChild.token ['}']]).flatten ++
  [FormatChild.token [quote]]

/-- The formatted string `f"hello {name}!"`. -/
def formatHello : List FormatChild :=
  formatChildren '"' [.text "hello ".toList, .interpolation (Testlist.single (Test.name "name")),
    .text ['!']]

/-- The program `name = "world"`, `print(f"hello {name}!")`. -/
def progHello : List Stmt :=
  [Stmt.assign "name" (Test.string "\"world\""),
   Stmt.print (Test.ofFactor (Factor.ofAtom (.formatString formatHello)))]

/-- The program `print(f"it's")`, `print(f"'")`: formatted strings without interpolation. -/
def progFormatText : List Stmt :=
  [Stmt.print (Test.ofFactor (Factor.ofAtom
     (.formatString (formatChildren '"' [.text ['i', 't', Char.ofNat 39, 's']])))),
   Stmt.print (Test.ofFactor (Factor.ofAtom
     (.formatString (formatChildren '"' [.text [Char.ofNat 39]]))))]

/-- A state whose only scope binds `name` to the string `world`. -/
def stateWorld : EvalVisitor NoFloat :=
  { scopes := [[("name", .str "world".toList)]], functions := [], output := [] }

/-- The program `print(int("abc"))`, `print(int("12a") + 1)`, `print(int("+5"))`,
`print(int(" 42 "))`. -/
def progToInt : List Stmt :=
  [Stmt.print (Test.call "int" [Argument.positional (Test.string "\"abc\"") ""]),
   Stmt.print (Test.arithOf
     (Term.ofFactor (.atomExpr (.mk (.name "int")
       (some (.mk (some [Argument.positional (Test.string "\"12a\"") ""]))))))
     "+" (Term.ofFactor (Factor.ofAtom (.number ['1'])))),
   Stmt.print (Test.call "int" [Argument.positional (Test.string "\"+5\"") ""]),
   Stmt.print (Test.call "int" [Argument.positional (Test.string "\" 42 \"") ""])]

/-! ## Orders as the claims word them, and round-trip scenarios -/

/-- The byte-lexicographic order on texts: `s` comes before `t` when `s` is a proper
prefix of `t`, or when at the first position where they differ `s` has the smaller
byte. -/
inductive LexLt : List Char → List Char → Prop where
  | shorter (c : Char) (t : List Char) : LexLt [] (c :: t)
  | head (x y : Char) (s t : List Char) : x.toNat < y.toNat → LexLt (x :: s) (y :: t)
  | tail (x : Char) (s t : List Char) : LexLt s t → LexLt (x :: s) (x :: t)

/-- The `test` of the unary minus of a number literal. -/
def Test.negNumber (lexeme : String) : Test :=
  Test.ofFactor (.unary "-" (Factor.ofAtom (.number lexeme.toList)))

/-- The call `name(arg)` as a factor. -/
def Factor.call1 (name : String) (arg : Test) : Factor :=
  .atomExpr (.mk (.name name) (some (.mk (some [Argument.positional arg ""]))))

/-- The program `print(None < None)`, `print(None <= None)`, `print("a" < 1)`,
`print("a" >= 1)`, `print(True > False)`, `print("ab" < "abc")`, `print("b" <= "abc")`,
`print(10 >= 9)`. -/
def progOrdering : List Stmt :=
  [Stmt.print (Test.compare (ArithExpr.ofAtom (.keyword "None")) "<"
     (ArithExpr.ofAtom (.keyword "None"))),
   Stmt.print (Test.compare (ArithExpr.ofAtom (.keyword "None")) "<="
     (ArithExpr.ofAtom (.keyword "None"))),
   Stmt.print (Test.compare (ArithExpr.ofAtom (.strings "\"a\"".toList [])) "<"
     (ArithExpr.ofAtom (.number ['1']))),
   Stmt.print (Test.compare (ArithExpr.ofAtom (.strings "\"a\"".toList [])) ">="
     (ArithExpr.ofAtom (.number ['1']))),
   Stmt.print (Test.compare (ArithExpr.ofAtom (.keyword "True")) ">"
     (ArithExpr.ofAtom (.keyword "False"))),
   Stmt.print (Test.compare (ArithExpr.ofAtom (.strings "\"ab\"".toList [])) "<"
     (ArithExpr.ofAtom (.strings "\"abc\"".toList []))),
   Stmt.print (Test.compare (ArithExpr.ofAtom (.strings "\"b\"".toList [])) "<="
     (ArithExpr.ofAtom (.strings "\"abc\"".toList []))),
   Stmt.print (Test.compare (ArithExpr.ofAtom (.number ['1', '0'])) ">="
     (ArithExpr.ofAtom (.number ['9'])))]

/-- The program `x = -12345678901234567890123`, `print(int(str(x)) == x)`,
`print(int(str(x)) + 1)`, `print(int(" \t-42\n"))`. -/
def progRoundTrip : List Stmt :=
  [Stmt.assign "x" (Test.negNumber "12345678901234567890123"),
   Stmt.print (Test.compare
     (.mk (Term.ofFactor (Factor.call1 "int" (Test.ofFactor (Factor.call1 "str" (Test.name "x")))))
       []) "==" (ArithExpr.ofAtom (.name "x"))),
   Stmt.print (Test.arithOf
     (Term.ofFactor (Factor.call1 "int" (Test.ofFactor (Factor.call1 "str" (Test.name "x")))))
     "+" (Term.ofFactor (Factor.ofAtom (.number ['1'])))),
   Stmt.print (Test.ofFactor (Factor.call1 "int" (Test.string "\" \\t-42\\n\"")))]

/-! ## Digits -/

theorem isDigit_iff (c : Char) : c.isDigit = true ↔ 48 ≤ c.toNat ∧ c.toNat ≤ 57 := by
  simp only [Char.isDigit, Bool.and_eq_true, decide_eq_true_eq, ge_iff_le, Char.toNat,
    UInt32.le_def, Fin.le_def]
  rfl

theorem digitOf_nonneg {c : Char} (h : c.isDigit = true) : 0 ≤ digitOf c := by
  rw [isDigit_iff] at h; unfold digitOf; omega

theorem digitOf_le {c : Char} (h : c.isDigit = true) : digitOf c ≤ 9 := by
  rw [isDigit_iff] at h; unfold digitOf; omega

theorem charOf_isDigit {k : Int} (h0 : 0 ≤ k) (h9 : k ≤ 9) : (charOf k).isDigit = true := by
  have : k = 0 ∨ k = 1 ∨ k = 2 ∨ k = 3 ∨ k = 4 ∨ k = 5 ∨ k = 6 ∨ k = 7 ∨ k = 8 ∨ k = 9 := by
    omega
  rcases this with h | h | h | h | h | h | h | h | h | h <;> subst h <;> decide

theorem digitOf_charOf {k : Int} (h0 : 0 ≤ k) (h9 : k ≤ 9) : digitOf (charOf k) = k := by
  have : k = 0 ∨ k = 1 ∨ k = 2 ∨ k = 3 ∨ k = 4 ∨ k = 5 ∨ k = 6 ∨ k = 7 ∨ k = 8 ∨ k = 9 := by
    omega
  rcases this with h | h | h | h | h | h | h | h | h | h <;> subst h <;> decide

theorem toNat_inj {c d : Char} (h : c.toNat = d.toNat) : c = d := by
  rw [← Char.ofNat_toNat c, ← Char.ofNat_toNat d, h]

theorem digitOf_inj {c d : Char} (h : digitOf c = digitOf d) : c = d := by
  apply toNat_inj; unfold digitOf at h; omega

theorem digitOf_eq_zero {c : Char} : digitOf c = 0 ↔ c = '0' := by
  constructor
  · intro h; exact digitOf_inj (h.trans (by decide))
  · rintro rfl; decide

/-! ## The value of a digit string -/

theorem foldl_val (s : List Char) (acc : Int) :
    s.foldl (fun acc c => 10 * acc + digitOf c) acc = acc * 10 ^ s.length + val s := by
  induction s generalizing acc with
  | nil => simp [val]
  | cons c s ih =>
    have h1 : val (c :: s) = (10 * 0 + digitOf c) * 10 ^ s.length + val s := ih _
    rw [List.foldl_cons, ih, h1, List.length_cons]
    ring

@[simp] theorem val_nil : val [] = 0 := rfl

theorem val_cons (c : Char) (s : List Char) :
    val (c :: s) = digitOf c * 10 ^ s.length + val s := by
  have h : val (c :: s) = (10 * 0 + digitOf c) * 10 ^ s.length + val s := foldl_val s _
  rw [h]; ring

theorem val_append (s t : List Char) : val (s ++ t) = val s * 10 ^ t.length + val t := by
  have h : val (s ++ t) = List.foldl (fun acc c => 10 * acc + digitOf c) (val s) t := by
    simp only [val, List.foldl_append]
  rw [h, foldl_val]

theorem val_snoc (s : List Char) (c : Char) : val (s ++ [c]) = val s * 10 + digitOf c := by
  rw [val_append, val_cons]; simp

theorem val_zero_cons (s : List Char) : val ('0' :: s) = val s := by
  rw [val_cons]; simp [digitOf_eq_zero.2 rfl]

theorem IsDigits.cons {c : Char} {s : List Char} (hc : c.isDigit = true) (hs : IsDigits s) :
    IsDigits (c :: s) := by
  intro d hd
  rcases List.mem_cons.1 hd with rfl | h
  · exact hc
  · exact hs d h

theorem IsDigits.head {c : Char} {s : List Char} (h : IsDigits (c :: s)) : c.isDigit = true :=
  h c (List.mem_cons_self _ _)

theorem IsDigits.tail {c : Char} {s : List Char} (h : IsDigits (c :: s)) : IsDigits s :=
  fun d hd => h d (List.mem_cons_of_mem _ hd)

theorem IsDigits.append {s t : List Char} (hs : IsDigits s) (ht : IsDigits t) :
    IsDigits (s ++ t) := by
  intro d hd
  rcases List.mem_append.1 hd with h | h
  · exact hs d h
  · exact ht d h

theorem IsDigits.reverse {s : List Char} (hs : IsDigits s) : IsDigits s.reverse :=
  fun d hd => hs d (List.mem_reverse.1 hd)

theorem isDigits_nil : IsDigits [] := fun _ h => absurd h (List.not_mem_nil _)

theorem val_nonneg {s : List Char} (h : IsDigits s) : 0 ≤ val s := by
  induction s with
  | nil => simp
  | cons c s ih =>
    rw [val_cons]
    have := digitOf_nonneg h.head
    have := ih h.tail
    positivity

theorem val_lt_pow {s : List Char} (h : IsDigits s) : val s < 10 ^ s.length := by
  induction s with
  | nil => simp
  | cons c s ih =>
    rw [val_cons, List.length_cons, pow_succ]
    have h9 := digitOf_le h.head
    have := ih h.tail
    have hp : (0 : Int) < 10 ^ s.length := by positivity
    nlinarith

/-! ## Leading zeros and canonical magnitudes -/

theorem stripLeadingZeros_val (s : List Char) : val (stripLeadingZeros s) = val s := by
  induction s with
  | nil => rfl
  | cons c s ih =>
    cases s with
    | nil => rfl
    | cons d rest =>
      simp only [stripLeadingZeros]
      split
      · next h => subst h; rw [ih, val_zero_cons]
      · rfl

theorem stripLeadingZeros_isDigits {s : List Char} (h : IsDigits s) :
    IsDigits (stripLeadingZeros s) := by
  induction s with
  | nil => exact h
  | cons c s ih =>
    cases s with
    | nil => exact h
    | cons d rest =>
      simp only [stripLeadingZeros]
      split
      · exact ih h.tail
      · exact h

theorem stripLeadingZeros_ne_nil {s : List Char} (h : s ≠ []) : stripLeadingZeros s ≠ [] := by
  induction s with
  | nil => exact absurd rfl h
  | cons c s ih =>
    cases s with
    | nil => simp [stripLeadingZeros]
    | cons d rest =>
      simp only [stripLeadingZeros]
      split
      · exact ih (by simp)
      · simp

theorem stripLeadingZeros_head {s : List Char} :
    1 < (stripLeadingZeros s).length → (stripLeadingZeros s).head? ≠ some '0' := by
  induction s with
  | nil => simp [stripLeadingZeros]
  | cons c s ih =>
    cases s with
    | nil => simp [stripLeadingZeros]
    | cons d rest =>
      simp only [stripLeadingZeros]
      split
      · exact ih
      · next h => intro _; simpa using h

theorem stripLeadingZeros_canon {s : List Char} (hne : s ≠ []) (hd : IsDigits s) :
    CanonMag (stripLeadingZeros s) :=
  ⟨stripLeadingZeros_ne_nil hne, stripLeadingZeros_isDigits hd, stripLeadingZeros_head⟩

theorem stripLeadingZeros_of_canon {s : List Char} (h : CanonMag s) :
    stripLeadingZeros s = s := by
  obtain ⟨_, _, hh⟩ := h
  cases s with
  | nil => rfl
  | cons c s =>
    cases s with
    | nil => rfl
    | cons d rest =>
      simp only [stripLeadingZeros]
      split
      · next h => subst h; exact absurd rfl (hh (by simp))
      · rfl

theorem canon_zero : CanonMag ['0'] := by decide

/-- A canonical magnitude other than `"0"` starts with a nonzero digit. -/
theorem canon_lower {s : List Char} (h : CanonMag s) (h0 : s ≠ ['0']) :
    (10 : Int) ^ (s.length - 1) ≤ val s := by
  obtain ⟨hne, hd, hh⟩ := h
  cases s with
  | nil => exact absurd rfl hne
  | cons c s =>
    have hc : digitOf c ≠ 0 := by
      intro hz
      rw [digitOf_eq_zero] at hz
      subst hz
      cases s with
      | nil => exact h0 rfl
      | cons d rest => exact hh (by simp) rfl
    have hc0 := digitOf_nonneg hd.head
    have hv := val_nonneg hd.tail
    rw [val_cons]
    simp only [List.length_cons, Nat.add_sub_cancel]
    have hp : (0 : Int) < 10 ^ s.length := by positivity
    have h1 : (1 : Int) ≤ digitOf c := by omega
    nlinarith

theorem canon_val_eq_zero {s : List Char} (h : CanonMag s) : val s = 0 ↔ s = ['0'] := by
  constructor
  · intro hv
    by_contra h0
    have hl := canon_lower h h0
    have hp : (0 : Int) < 10 ^ (s.length - 1) := by positivity
    omega
  · rintro rfl; rfl

theorem canon_val_pos {s : List Char} (h : CanonMag s) (h0 : s ≠ ['0']) : 0 < val s := by
  have hl := canon_lower h h0
  have hp : (0 : Int) < 10 ^ (s.length - 1) := by positivity
  omega

/-- Digit strings of equal length with equal value are equal. -/
theorem digits_eq_of_val_eq : ∀ {s t : List Char}, IsDigits s → IsDigits t →
    s.length = t.length → val s = val t → s = t
  | [], [], _, _, _, _ => rfl
  | [], _ :: _, _, _, hl, _ => by simp at hl
  | _ :: _, [], _, _, hl, _ => by simp at hl
  | c :: s, d :: t, hs, ht, hl, hv => by
    have hl1 : s.length = t.length := by simpa using hl
    rw [val_cons, val_cons, hl1] at hv
    have hs0 := val_nonneg hs.tail
    have ht0 := val_nonneg ht.tail
    have hs1 := val_lt_pow hs.tail
    have ht1 := val_lt_pow ht.tail
    rw [hl1] at hs1
    have hp : (0 : Int) < 10 ^ t.length := by positivity
    have hcd : digitOf c = digitOf d := by
      by_contra hne
      rcases lt_or_gt_of_ne hne with hlt | hgt
      · have : digitOf c + 1 ≤ digitOf d := by omega
        nlinarith
      · have : digitOf d + 1 ≤ digitOf c := by omega
        nlinarith
    rw [hcd] at hv
    have hst : val s = val t := by linarith
    rw [digitOf_inj hcd, digits_eq_of_val_eq hs.tail ht.tail hl1 hst]

/-- The length of a canonical magnitude is determined by its value. -/
theorem canon_length_le {s t : List Char} (hs : CanonMag s) (ht : CanonMag t)
    (hv : val s ≤ val t) : s.length ≤ t.length := by
  by_contra hlt
  push_neg at hlt
  have hs0 : s ≠ ['0'] := by
    rintro rfl
    have := ht.1
    cases t with
    | nil => exact this rfl
    | cons _ _ => simp at hlt
  have h1 := canon_lower hs hs0
  have h2 := val_lt_pow ht.2.1
  have h3 : (10 : Int) ^ t.length ≤ 10 ^ (s.length - 1) :=
    pow_le_pow_right₀ (by norm_num) (by omega)
  omega

/-- Canonical magnitudes are determined by their value. -/
theorem canon_inj {s t : List Char} (hs : CanonMag s) (ht : CanonMag t) (hv : val s = val t) :
    s = t :=
  digits_eq_of_val_eq hs.2.1 ht.2.1
    (le_antisymm (canon_length_le hs ht hv.le) (canon_length_le ht hs hv.ge)) hv

/-! ## Comparison of magnitudes -/

theorem strLt_digits : ∀ {s t : List Char}, IsDigits s → IsDigits t → s.length = t.length →
    (strLt s t = true ↔ val s < val t)
  | [], [], _, _, _ => by simp [strLt]
  | [], _ :: _, _, _, hl => by simp at hl
  | _ :: _, [], _, _, hl => by simp at hl
  | c :: s, d :: t, hs, ht, hl => by
    have hl1 : s.length = t.length := by simpa using hl
    have ih := strLt_digits hs.tail ht.tail hl1
    have hs0 := val_nonneg hs.tail
    have ht0 := val_nonneg ht.tail
    have hs1 := val_lt_pow hs.tail
    have ht1 := val_lt_pow ht.tail
    rw [hl1] at hs1
    have hp : (0 : Int) < 10 ^ t.length := by positivity
    rw [val_cons, val_cons, hl1]
    simp only [strLt]
    split
    · next h =>
      have : digitOf c + 1 ≤ digitOf d := by unfold digitOf; omega
      simp only [true_iff]
      nlinarith
    · split
      · next h1 h2 =>
        have : digitOf d + 1 ≤ digitOf c := by unfold digitOf; omega
        simp only [Bool.false_eq_true, false_iff, not_lt]
        nlinarith
      · next h1 h2 =>
        have : digitOf c = digitOf d := by unfold digitOf; omega
        rw [ih, this]
        constructor <;> intro h <;> linarith

/-- On canonical magnitudes `absGreater` is the strict numeric order. -/
theorem absGreater_iff {a b : List Char} (ha : CanonMag a) (hb : CanonMag b) :
    absGreater a b = true ↔ val b < val a := by
  unfold absGreater
  split
  · next hne =>
    simp only [decide_eq_true_eq, gt_iff_lt]
    constructor
    · intro hlt
      by_contra hv
      have := canon_length_le ha hb (not_lt.1 hv)
      omega
    · intro hv
      by_contra hlt
      have h1 := canon_length_le hb ha hv.le
      have h2 : a.length = b.length := by omega
      exact hne h2
  · next heq =>
    have heq1 : b.length = a.length := by
      by_contra h
      exact heq (fun h2 => h h2.symm)
    exact strLt_digits hb.2.1 ha.2.1 heq1

theorem absGreater_false_iff {a b : List Char} (ha : CanonMag a) (hb : CanonMag b) :
    absGreater a b = false ↔ val a ≤ val b := by
  rw [← not_lt, ← absGreater_iff ha hb]; simp

theorem canon_eq_iff {a b : List Char} (ha : CanonMag a) (hb : CanonMag b) :
    a = b ↔ val a = val b :=
  ⟨fun h => by rw [h], canon_inj ha hb⟩

/-! ## Magnitude addition -/

theorem absAddCarry_zero (n : Nat) (result : List Char) : absAddCarry n 0 result = result := by
  cases n <;> simp [absAddCarry]

theorem absAddCarry_spec {carry : Int} (h0 : 0 ≤ carry) (h9 : carry ≤ 9) {result : List Char}
    (hr : IsDigits result) :
    IsDigits (absAddCarry carry.natAbs carry result) ∧
    val (absAddCarry carry.natAbs carry result) = carry * 10 ^ result.length + val result ∧
    result.length ≤ (absAddCarry carry.natAbs carry result).length := by
  by_cases hc : carry = 0
  · subst hc; simp [absAddCarry, hr]
  · obtain ⟨n, hn⟩ : ∃ n, carry.natAbs = n + 1 := ⟨carry.natAbs - 1, by omega⟩
    have hd : Int.tdiv carry 10 = 0 := by rw [Int.tdiv_eq_ediv h0 (by norm_num)]; omega
    have hm : Int.tmod carry 10 = carry := by rw [Int.tmod_eq_emod h0 (by norm_num)]; omega
    rw [hn]
    simp only [absAddCarry, hc, if_false, hd, hm, absAddCarry_zero]
    refine ⟨IsDigits.cons (charOf_isDigit h0 h9) hr, ?_, by simp⟩
    rw [val_cons, digitOf_charOf h0 h9]

theorem absAddRest_spec : ∀ (rb : List Char) (carry : Int) (result : List Char),
    IsDigits rb → 0 ≤ carry → carry ≤ 1 → IsDigits result →
    IsDigits (absAddRest rb carry result) ∧
    val (absAddRest rb carry result)
      = (val rb.reverse + carry) * 10 ^ result.length + val result ∧
    result.length + rb.length ≤ (absAddRest rb carry result).length
  | [], carry, result, _, h0, h1, hr => by
    simpa [absAddRest] using absAddCarry_spec h0 (by omega) hr
  | y :: rb, carry, result, hb, h0, h1, hr => by
    have hy0 := digitOf_nonneg hb.head
    have hy9 := digitOf_le hb.head
    have hs0 : 0 ≤ carry + digitOf y := by omega
    have hd : Int.tdiv (carry + digitOf y) 10 = (carry + digitOf y) / 10 :=
      Int.tdiv_eq_ediv hs0 (by norm_num)
    have hm : Int.tmod (carry + digitOf y) 10 = (carry + digitOf y) % 10 :=
      Int.tmod_eq_emod hs0 (by norm_num)
    simp only [absAddRest, hd, hm]
    have hm0 : 0 ≤ (carry + digitOf y) % 10 := by omega
    have hm9 : (carry + digitOf y) % 10 ≤ 9 := by omega
    obtain ⟨i1, i2, i3⟩ := absAddRest_spec rb ((carry + digitOf y) / 10)
      (charOf ((carry + digitOf y) % 10) :: result) hb.tail (by omega) (by omega)
      (IsDigits.cons (charOf_isDigit hm0 hm9) hr)
    refine ⟨i1, ?_, ?_⟩
    · rw [i2, val_cons, digitOf_charOf hm0 hm9, List.reverse_cons, val_snoc, List.length_cons,
        pow_succ]
      have key : carry + digitOf y = 10 * ((carry + digitOf y) / 10) + (carry + digitOf y) % 10 := by
        omega
      linear_combination (-(10 ^ result.length : Int)) * key
    · simp only [List.length_cons] at i3 ⊢; omega

theorem absAddLoop_spec : ∀ (ra rb : List Char) (carry : Int) (result : List Char),
    IsDigits ra → IsDigits rb → 0 ≤ carry → carry ≤ 1 → IsDigits result →
    IsDigits (absAddLoop ra rb carry result) ∧
    val (absAddLoop ra rb carry result)
      = (val ra.reverse + val rb.reverse + carry) * 10 ^ result.length + val result ∧
    result.length + ra.length ≤ (absAddLoop ra rb carry result).length
  | [], rb, carry, result, _, hb, h0, h1, hr => by
    obtain ⟨i1, i2, i3⟩ := absAddRest_spec rb carry result hb h0 h1 hr
    simp only [absAddLoop]
    refine ⟨i1, ?_, ?_⟩
    · rw [i2]; simp
    · simp only [List.length_nil]; omega
  | x :: ra, [], carry, result, ha, hb, h0, h1, hr => by
    have hx0 := digitOf_nonneg ha.head
    have hx9 := digitOf_le ha.head
    have hs0 : 0 ≤ carry + digitOf x := by omega
    have hd : Int.tdiv (carry + digitOf x) 10 = (carry + digitOf x) / 10 :=
      Int.tdiv_eq_ediv hs0 (by norm_num)
    have hm : Int.tmod (carry + digitOf x) 10 = (carry + digitOf x) % 10 :=
      Int.tmod_eq_emod hs0 (by norm_num)
    simp only [absAddLoop, hd, hm]
    have hm0 : 0 ≤ (carry + digitOf x) % 10 := by omega
    have hm9 : (carry + digitOf x) % 10 ≤ 9 := by omega
    obtain ⟨i1, i2, i3⟩ := absAddLoop_spec ra [] ((carry + digitOf x) / 10)
      (charOf ((carry + digitOf x) % 10) :: result) ha.tail hb (by omega) (by omega)
      (IsDigits.cons (charOf_isDigit hm0 hm9) hr)
    refine ⟨i1, ?_, ?_⟩
    · rw [i2, val_cons, digitOf_charOf hm0 hm9, List.reverse_cons, val_snoc, List.length_cons,
        pow_succ]
      have key : carry + digitOf x = 10 * ((carry + digitOf x) / 10) + (carry + digitOf x) % 10 := by
        omega
      simp only [List.reverse_nil, val_nil]
      linear_combination (-(10 ^ result.length : Int)) * key
    · simp only [List.length_cons] at i3 ⊢; omega
  | x :: ra, y :: rb, carry, result, ha, hb, h0, h1, hr => by
    have hx0 := digitOf_nonneg ha.head
    have hx9 := digitOf_le ha.head
    have hy0 := digitOf_nonneg hb.head
    have hy9 := digitOf_le hb.head
    have hs0 : 0 ≤ carry + digitOf x + digitOf y := by omega
    have hd : Int.tdiv (carry + digitOf x + digitOf y) 10 = (carry + digitOf x + digitOf y) / 10 :=
      Int.tdiv_eq_ediv hs0 (by norm_num)
    have hm : Int.tmod (carry + digitOf x + digitOf y) 10 = (carry + digitOf x + digitOf y) % 10 :=
      Int.tmod_eq_emod hs0 (by norm_num)
    simp only [absAddLoop, hd, hm]
    have hm0 : 0 ≤ (carry + digitOf x + digitOf y) % 10 := by omega
    have hm9 : (carry + digitOf x + digitOf y) % 10 ≤ 9 := by omega
    obtain ⟨i1, i2, i3⟩ := absAddLoop_spec ra rb ((carry + digitOf x + digitOf y) / 10)
      (charOf ((carry + digitOf x + digitOf y) % 10) :: result) ha.tail hb.tail (by omega)
      (by omega) (IsDigits.cons (charOf_isDigit hm0 hm9) hr)
    refine ⟨i1, ?_, ?_⟩
    · rw [i2, val_cons, digitOf_charOf hm0 hm9, List.reverse_cons, List.reverse_cons, val_snoc,
        val_snoc, List.length_cons, pow_succ]
      have key : carry + digitOf x + digitOf y
          = 10 * ((carry + digitOf x + digitOf y) / 10) + (carry + digitOf x + digitOf y) % 10 := by
        omega
      linear_combination (-(10 ^ result.length : Int)) * key
    · simp only [List.length_cons] at i3 ⊢; omega

/-- Embeds `absAdd` on digit strings: digits, the sum of the values, not shorter than `a`. -/
theorem absAdd_spec {a b : List Char} (ha : IsDigits a) (hb : IsDigits b) :
    IsDigits (absAdd a b) ∧ val (absAdd a b) = val a + val b ∧
    a.length ≤ (absAdd a b).length := by
  obtain ⟨i1, i2, i3⟩ := absAddLoop_spec a.reverse b.reverse 0 [] ha.reverse hb.reverse
    le_rfl (by norm_num) isDigits_nil
  refine ⟨i1, ?_, ?_⟩
  · unfold absAdd; rw [i2]; simp
  · unfold absAdd; simpa using i3

/-- The bound `|carry|` given to the carry tail of `absAdd` never cuts the loop short:
any larger bound gives the same string. -/
theorem absAddCarry_fuel : ∀ (n m : Nat) (carry : Int) (result : List Char),
    carry.natAbs ≤ n → carry.natAbs ≤ m →
    absAddCarry n carry result = absAddCarry m carry result
  | 0, m, carry, result, hn, _ => by
    have hc : carry = 0 := Int.natAbs_eq_zero.1 (by omega)
    subst hc
    rw [absAddCarry_zero, absAddCarry_zero]
  | n + 1, 0, carry, result, _, hm => by
    have hc : carry = 0 := Int.natAbs_eq_zero.1 (by omega)
    subst hc
    rw [absAddCarry_zero, absAddCarry_zero]
  | n + 1, m + 1, carry, result, hn, hm => by
    by_cases hc : carry = 0
    · subst hc
      rw [absAddCarry_zero, absAddCarry_zero]
    · have hpos : 0 < carry.natAbs := Int.natAbs_pos.2 hc
      have hlt : (Int.tdiv carry 10).natAbs < carry.natAbs := by
        rw [Int.natAbs_tdiv]
        exact Nat.div_lt_self hpos (by decide)
      simp only [absAddCarry, hc, if_false]
      exact absAddCarry_fuel n m _ _ (by omega) (by omega)

/-! ## Magnitude subtraction -/

theorem absSubLoop_spec : ∀ (ra rb : List Char) (borrow : Int) (result : List Char),
    IsDigits ra → IsDigits rb → 0 ≤ borrow → borrow ≤ 1 → IsDigits result →
    rb.length ≤ ra.length → 0 ≤ val ra.reverse - val rb.reverse - borrow →
    IsDigits (absSubLoop ra rb borrow result) ∧
    val (absSubLoop ra rb borrow result)
      = (val ra.reverse - val rb.reverse - borrow) * 10 ^ result.length + val result ∧
    (absSubLoop ra rb borrow result).length = result.length + ra.length
  | [], rb, borrow, result, _, _, h0, _, hr, hl, hv => by
    have hrb : rb = [] := List.eq_nil_of_length_eq_zero (by simpa using hl)
    subst hrb
    simp only [List.reverse_nil, val_nil] at hv
    have hb0 : borrow = 0 := by omega
    subst hb0
    simp [absSubLoop, hr]
  | x :: ra, [], borrow, result, ha, hb, h0, h1, hr, _, hv => by
    have hx0 := digitOf_nonneg ha.head
    have hx9 := digitOf_le ha.head
    have hra := val_nonneg ha.tail.reverse
    simp only [List.reverse_cons, val_snoc, List.reverse_nil, val_nil] at hv
    simp only [absSubLoop]
    split
    · next hneg =>
      have hd0 : 0 ≤ digitOf x - borrow + 10 := by omega
      have hd9 : digitOf x - borrow + 10 ≤ 9 := by omega
      obtain ⟨i1, i2, i3⟩ := absSubLoop_spec ra [] 1 (charOf (digitOf x - borrow + 10) :: result)
        ha.tail hb (by norm_num) le_rfl (IsDigits.cons (charOf_isDigit hd0 hd9) hr) (by simp)
        (by simp only [List.reverse_nil, val_nil]; omega)
      refine ⟨i1, ?_, ?_⟩
      · rw [i2, val_cons, digitOf_charOf hd0 hd9, List.reverse_cons, val_snoc, List.length_cons,
          pow_succ]
        simp only [List.reverse_nil, val_nil]
        ring
      · rw [i3]; simp only [List.length_cons]; omega
    · next hpos =>
      have hd0 : 0 ≤ digitOf x - borrow := by omega
      have hd9 : digitOf x - borrow ≤ 9 := by omega
      obtain ⟨i1, i2, i3⟩ := absSubLoop_spec ra [] 0 (charOf (digitOf x - borrow) :: result)
        ha.tail hb le_rfl (by norm_num) (IsDigits.cons (charOf_isDigit hd0 hd9) hr) (by simp)
        (by simp only [List.reverse_nil, val_nil]; omega)
      refine ⟨i1, ?_, ?_⟩
      · rw [i2, val_cons, digitOf_charOf hd0 hd9, List.reverse_cons, val_snoc, List.length_cons,
          pow_succ]
        simp only [List.reverse_nil, val_nil]
        ring
      · rw [i3]; simp only [List.length_cons]; omega
  | x :: ra, y :: rb, borrow, result, ha, hb, h0, h1, hr, hl, hv => by
    have hx0 := digitOf_nonneg ha.head
    have hx9 := digitOf_le ha.head
    have hy0 := digitOf_nonneg hb.head
    have hy9 := digitOf_le hb.head
    have hl1 : rb.length ≤ ra.length := by simpa using hl
    simp only [List.reverse_cons, val_snoc] at hv
    simp only [absSubLoop]
    split
    · next hneg =>
      have hd0 : 0 ≤ digitOf x - borrow - digitOf y + 10 := by omega
      have hd9 : digitOf x - borrow - digitOf y + 10 ≤ 9 := by omega
      obtain ⟨i1, i2, i3⟩ := absSubLoop_spec ra rb 1
        (charOf (digitOf x - borrow - digitOf y + 10) :: result)
        ha.tail hb.tail (by norm_num) le_rfl (IsDigits.cons (charOf_isDigit hd0 hd9) hr) hl1
        (by omega)
      refine ⟨i1, ?_, ?_⟩
      · rw [i2, val_cons, digitOf_charOf hd0 hd9, List.reverse_cons, List.reverse_cons,
          val_snoc, val_snoc, List.length_cons, pow_succ]
        ring
      · rw [i3]; simp only [List.length_cons]; omega
    · next hpos =>
      have hd0 : 0 ≤ digitOf x - borrow - digitOf y := by omega
      have hd9 : digitOf x - borrow - digitOf y ≤ 9 := by omega
      obtain ⟨i1, i2, i3⟩ := absSubLoop_spec ra rb 0
        (charOf (digitOf x - borrow - digitOf y) :: result)
        ha.tail hb.tail le_rfl (by norm_num) (IsDigits.cons (charOf_isDigit hd0 hd9) hr) hl1
        (by omega)
      refine ⟨i1, ?_, ?_⟩
      · rw [i2, val_cons, digitOf_charOf hd0 hd9, List.reverse_cons, List.reverse_cons,
          val_snoc, val_snoc, List.length_cons, pow_succ]
        ring
      · rw [i3]; simp only [List.length_cons]; omega

/-- Embeds `absSub` of a smaller digit string from a larger non-empty one is the canonical
magnitude of the difference. -/
theorem absSub_spec {a b : List Char} (ha : IsDigits a) (hb : IsDigits b) (hne : a ≠ [])
    (hl : b.length ≤ a.length) (hv : val b ≤ val a) :
    CanonMag (absSub a b) ∧ val (absSub a b) = val a - val b := by
  obtain ⟨i1, i2, i3⟩ := absSubLoop_spec a.reverse b.reverse 0 [] ha.reverse hb.reverse
    le_rfl (by norm_num) isDigits_nil (by simpa using hl) (by simp only [List.reverse_reverse]; omega)
  have hne1 : absSubLoop a.reverse b.reverse 0 [] ≠ [] := by
    intro h
    rw [h] at i3
    simp only [List.length_nil, List.length_reverse] at i3
    exact hne (List.eq_nil_of_length_eq_zero (by omega))
  refine ⟨stripLeadingZeros_canon hne1 i1, ?_⟩
  unfold absSub
  rw [stripLeadingZeros_val, i2]
  simp

/-- On canonical magnitudes with `val b ≤ val a`. -/
theorem absSub_canon {a b : List Char} (ha : CanonMag a) (hb : CanonMag b) (hv : val b ≤ val a) :
    CanonMag (absSub a b) ∧ val (absSub a b) = val a - val b :=
  absSub_spec ha.2.1 hb.2.1 ha.1 (canon_length_le hb ha hv) hv

/-! ## BigInt: normalisation, sign and addition -/

namespace BigInt

theorem toInt_removeLeadingZeros (x : BigInt) : toInt (removeLeadingZeros x) = toInt x := by
  have hv := stripLeadingZeros_val x.value
  unfold removeLeadingZeros toInt
  by_cases h : stripLeadingZeros x.value = ['0']
  · have h0 : val x.value = 0 := by rw [← hv, h]; rfl
    simp only [h, if_true, h0]
    simp [val, digitOf]
  · simp only [h, if_false, hv]

theorem removeLeadingZeros_canonical {x : BigInt} (hne : x.value ≠ []) (hd : IsDigits x.value) :
    Canonical (removeLeadingZeros x) := by
  refine ⟨stripLeadingZeros_canon hne hd, ?_⟩
  intro h
  simp only [removeLeadingZeros] at h ⊢
  simp [h]

theorem removeLeadingZeros_of_canonical {x : BigInt} (h : Canonical x) :
    removeLeadingZeros x = x := by
  obtain ⟨hm, hz⟩ := h
  unfold removeLeadingZeros
  rw [stripLeadingZeros_of_canon hm]
  by_cases h0 : x.value = ['0']
  · simp only [h0, if_true]
    cases x with
    | mk v n =>
      simp only at h0 hz ⊢
      rw [hz h0, h0]
  · simp only [h0, if_false]

theorem Canonical.digits {x : BigInt} (h : Canonical x) : IsDigits x.value := h.1.2.1

theorem Canonical.ne_nil {x : BigInt} (h : Canonical x) : x.value ≠ [] := h.1.1

theorem Canonical.mag_nonneg {x : BigInt} (h : Canonical x) : 0 ≤ val x.value :=
  PyInterp.val_nonneg h.digits

/-- A canonical negative number has a positive magnitude. -/
theorem Canonical.val_pos_of_neg {x : BigInt} (h : Canonical x) (hn : x.negative = true) :
    0 < val x.value := by
  apply canon_val_pos h.1
  intro h0
  have := h.2 h0
  rw [hn] at this
  exact Bool.noConfusion this

theorem canonical_zero : Canonical zero := by decide

theorem toInt_zero : toInt zero = 0 := by decide

/-- Canonical representations are unique: equal denotations force equal representations. -/
theorem canonical_inj {x y : BigInt} (hx : Canonical x) (hy : Canonical y)
    (h : toInt x = toInt y) : x = y := by
  have hx0 := hx.mag_nonneg
  have hy0 := hy.mag_nonneg
  cases x with
  | mk xv xn =>
  cases y with
  | mk yv yn =>
  simp only [toInt] at h hx0 hy0
  cases xn <;> cases yn
  · simp only [Bool.false_eq_true, if_false] at h
    have : xv = yv := canon_inj hx.1 hy.1 h
    rw [this]
  · have := hy.val_pos_of_neg rfl
    simp only [Bool.false_eq_true, if_false, if_true] at h this
    omega
  · have := hx.val_pos_of_neg rfl
    simp only [Bool.false_eq_true, if_false, if_true] at h this
    omega
  · simp only [if_true] at h
    have : xv = yv := canon_inj hx.1 hy.1 (show val xv = val yv by omega)
    rw [this]

theorem neg_spec {x : BigInt} (h : Canonical x) :
    Canonical (neg x) ∧ toInt (neg x) = - toInt x := by
  unfold neg
  by_cases h0 : x.value = ['0']
  · simp only [h0, ne_eq, not_true_eq_false, if_false]
    refine ⟨h, ?_⟩
    simp [toInt, h0, val, digitOf]
  · simp only [h0, ne_eq, not_false_eq_true, if_true]
    refine ⟨⟨h.1, fun hz => absurd hz h0⟩, ?_⟩
    simp only [toInt]
    cases x.negative <;> simp

theorem add_spec {x y : BigInt} (hx : Canonical x) (hy : Canonical y) :
    Canonical (add x y) ∧ toInt (add x y) = toInt x + toInt y := by
  unfold add
  split
  · next hs =>
    obtain ⟨i1, i2, i3⟩ := absAdd_spec hx.digits hy.digits
    have hne : absAdd x.value y.value ≠ [] := by
      intro h
      rw [h] at i3
      exact hx.ne_nil (List.eq_nil_of_length_eq_zero (by simpa using i3))
    refine ⟨removeLeadingZeros_canonical hne i1, ?_⟩
    rw [toInt_removeLeadingZeros]
    simp only [toInt, i2, ← hs]
    split <;> ring
  · next hs =>
    split
    · next hg =>
      have hlt := (absGreater_iff hx.1 hy.1).1 hg
      obtain ⟨j1, j2⟩ := absSub_canon hx.1 hy.1 hlt.le
      refine ⟨removeLeadingZeros_canonical j1.1 j1.2.1, ?_⟩
      rw [toInt_removeLeadingZeros]
      simp only [toInt, j2]
      cases hxn : x.negative <;> cases hyn : y.negative <;> simp_all <;> ring
    · next hg =>
      split
      · next he =>
        refine ⟨canonical_zero, ?_⟩
        rw [toInt_zero]
        simp only [toInt, he]
        cases hxn : x.negative <;> cases hyn : y.negative <;> simp_all
      · next he =>
        have hle := (absGreater_false_iff hx.1 hy.1).1 (by simpa using hg)
        obtain ⟨j1, j2⟩ := absSub_canon hy.1 hx.1 hle
        refine ⟨removeLeadingZeros_canonical j1.1 j1.2.1, ?_⟩
        rw [toInt_removeLeadingZeros]
        simp only [toInt, j2]
        cases hxn : x.negative <;> cases hyn : y.negative <;> simp_all <;> ring

theorem sub_spec {x y : BigInt} (hx : Canonical x) (hy : Canonical y) :
    Canonical (sub x y) ∧ toInt (sub x y) = toInt x - toInt y := by
  obtain ⟨n1, n2⟩ := neg_spec hy
  obtain ⟨a1, a2⟩ := add_spec hx n1
  refine ⟨a1, ?_⟩
  unfold sub
  rw [a2, n2]; ring

end BigInt

/-! ## Magnitude multiplication -/

theorem foldl_cellVal (r : List Int) (acc : Int) :
    r.foldl (fun acc x => 10 * acc + x) acc = acc * 10 ^ r.length + cellVal r := by
  induction r generalizing acc with
  | nil => simp [cellVal]
  | cons x r ih =>
    have h1 : cellVal (x :: r) = (10 * 0 + x) * 10 ^ r.length + cellVal r := ih _
    rw [List.foldl_cons, ih, h1, List.length_cons]
    ring

theorem cellVal_cons (x : Int) (r : List Int) :
    cellVal (x :: r) = x * 10 ^ r.length + cellVal r := by
  have h : cellVal (x :: r) = (10 * 0 + x) * 10 ^ r.length + cellVal r := foldl_cellVal r _
  rw [h]; ring

theorem cellVal_replicate_zero (n : Nat) : cellVal (List.replicate n 0) = 0 := by
  induction n with
  | zero => rfl
  | succ n ih => rw [List.replicate_succ, cellVal_cons, ih]; simp

theorem cellVal_set : ∀ (r : List Int) (k : Nat) (v : Int) (e : Nat), r.length = k + 1 + e →
    cellVal (r.set k v) = cellVal r + (v - r.getD k 0) * 10 ^ e
  | [], k, v, e, h => by simp only [List.length_nil] at h; omega
  | x :: r, 0, v, e, h => by
    have he : r.length = e := by simp only [List.length_cons] at h; omega
    rw [List.set_cons_zero, cellVal_cons, cellVal_cons, List.getD_cons_zero, he]
    ring
  | x :: r, k + 1, v, e, h => by
    have he : r.length = k + 1 + e := by simp only [List.length_cons] at h; omega
    rw [List.set_cons_succ, cellVal_cons, cellVal_cons, List.getD_cons_succ, List.length_set,
      cellVal_set r k v e he]
    ring

theorem getD_set_self {r : List Int} {k : Nat} (v : Int) (h : k < r.length) :
    (r.set k v).getD k 0 = v := by
  rw [List.getD_eq_getElem?_getD, List.getElem?_set]
  simp [h]

theorem getD_set_ne {r : List Int} {k k1 : Nat} (v : Int) (h : k ≠ k1) :
    (r.set k v).getD k1 0 = r.getD k1 0 := by
  rw [List.getD_eq_getElem?_getD, List.getElem?_set, List.getD_eq_getElem?_getD]
  simp [h]

/-- One run of the inner loop adds `a[i] * b` at the weight of row `i`. -/
theorem absMulInner_val (ai : Int) (i : Nat) : ∀ (rb : List Char) (result : List Int) (e : Nat),
    result.length = i + rb.length + 1 + e →
    cellVal (absMulInner ai i rb result) = cellVal result + ai * val rb.reverse * 10 ^ e ∧
    (absMulInner ai i rb result).length = result.length
  | [], result, e, _ => by simp [absMulInner]
  | y :: rb, result, e, h => by
    simp only [List.length_cons] at h
    simp only [absMulInner]
    have hl2 : ((result.set (i + rb.length + 1)
        (Int.tmod (ai * digitOf y + result.getD (i + rb.length + 1) 0) 10)).set (i + rb.length)
        ((result.set (i + rb.length + 1)
          (Int.tmod (ai * digitOf y + result.getD (i + rb.length + 1) 0) 10)).getD
            (i + rb.length) 0
          + Int.tdiv (ai * digitOf y + result.getD (i + rb.length + 1) 0) 10)).length
        = i + rb.length + 1 + (e + 1) := by
      rw [List.length_set, List.length_set]; omega
    obtain ⟨ih1, ih2⟩ := absMulInner_val ai i rb _ (e + 1) hl2
    refine ⟨?_, ?_⟩
    · rw [ih1, cellVal_set _ (i + rb.length) _ (e + 1) (by rw [List.length_set]; omega),
        cellVal_set _ (i + rb.length + 1) _ e (by omega), List.reverse_cons, val_snoc]
      have key := Int.tdiv_add_tmod (ai * digitOf y + result.getD (i + rb.length + 1) 0) 10
      rw [pow_succ]
      linear_combination (10 ^ e : Int) * key
    · rw [ih2, List.length_set, List.length_set]

/-- The outer loop accumulates the product. -/
theorem absMulOuter_val (b : List Char) : ∀ (ra : List Char) (result : List Int) (e : Nat),
    result.length = ra.length + b.length + e →
    cellVal (absMulOuter b ra result) = cellVal result + val ra.reverse * val b * 10 ^ e ∧
    (absMulOuter b ra result).length = result.length
  | [], result, e, _ => by simp [absMulOuter]
  | x :: ra, result, e, h => by
    simp only [List.length_cons] at h
    simp only [absMulOuter]
    obtain ⟨i1, i2⟩ := absMulInner_val (digitOf x) ra.length b.reverse result e
      (by rw [List.length_reverse]; omega)
    obtain ⟨o1, o2⟩ := absMulOuter_val b ra _ (e + 1) (by rw [i2]; omega)
    refine ⟨?_, by rw [o2, i2]⟩
    rw [o1, i1, List.reverse_reverse, List.reverse_cons, val_snoc, pow_succ]
    ring
/-- Cell bounds kept by one run of the inner loop of `absMul`. -/
theorem absMulInner_bound {ai : Int} (i : Nat) (hai0 : 0 ≤ ai) (hai9 : ai ≤ 9) :
    ∀ (rb : List Char) (result : List Int), IsDigits rb →
    i + rb.length + 1 ≤ result.length →
    (∀ k, k ≠ i + rb.length → 0 ≤ result.getD k 0 ∧ result.getD k 0 ≤ 9) →
    (0 ≤ result.getD (i + rb.length) 0 ∧ result.getD (i + rb.length) 0 ≤ 18) →
    (∀ k, k < i → result.getD k 0 = 0) →
    (1 ≤ rb.length → result.getD i 0 = 0) →
    (rb.length = 0 → result.getD i 0 ≤ 9) →
    (∀ k, 0 ≤ (absMulInner ai i rb result).getD k 0 ∧ (absMulInner ai i rb result).getD k 0 ≤ 9) ∧
    (∀ k, k < i → (absMulInner ai i rb result).getD k 0 = 0)
  | [], result, _, _, ha, hb, hc, _, he => by
    simp only [absMulInner, List.length_nil, Nat.add_zero] at *
    refine ⟨fun k => ?_, hc⟩
    by_cases hk : k = i
    · subst hk; exact ⟨hb.1, he trivial⟩
    · exact ha k hk
  | y :: rb, result, hd, hl, ha, hb, hc, hdz, _ => by
    simp only [List.length_cons] at hl ha hb hdz
    have hy0 := digitOf_nonneg hd.head
    have hy9 := digitOf_le hd.head
    have hp0 : 0 ≤ ai * digitOf y := mul_nonneg hai0 hy0
    have hp81 : ai * digitOf y ≤ 81 := by nlinarith
    have hb' : 0 ≤ result.getD (i + rb.length + 1) 0 ∧ result.getD (i + rb.length + 1) 0 ≤ 18 := hb
    have hs0 : 0 ≤ ai * digitOf y + result.getD (i + rb.length + 1) 0 := by omega
    have hdv := Int.tdiv_eq_ediv hs0 (show (0:Int) ≤ 10 by norm_num)
    have hmd := Int.tmod_eq_emod hs0 (show (0:Int) ≤ 10 by norm_num)
    simp only [absMulInner, hdv, hmd]
    generalize hS : ai * digitOf y + result.getD (i + rb.length + 1) 0 = S at *
    have hS99 : S ≤ 99 := by omega
    have hp1 := ha (i + rb.length) (by omega)
    have hr1p1 : (result.set (i + rb.length + 1) (S % 10)).getD (i + rb.length) 0
        = result.getD (i + rb.length) 0 := getD_set_ne _ (by omega)
    rw [hr1p1]
    have hri : result.getD i 0 = 0 := hdz (by omega)
    apply absMulInner_bound i hai0 hai9 rb _ hd.tail
    · rw [List.length_set, List.length_set]; omega
    · intro k hk
      rw [getD_set_ne _ (Ne.symm hk)]
      by_cases hk2 : k = i + rb.length + 1
      · subst hk2
        rw [getD_set_self _ (by omega)]
        omega
      · rw [getD_set_ne _ (Ne.symm hk2)]
        exact ha k hk2
    · rw [getD_set_self _ (by rw [List.length_set]; omega)]
      omega
    · intro k hk
      rw [getD_set_ne _ (by omega), getD_set_ne _ (by omega)]
      exact hc k hk
    · intro h1
      rw [getD_set_ne _ (by omega), getD_set_ne _ (by omega)]
      exact hri
    · intro h0
      have : i + rb.length = i := by omega
      rw [this] at hp1 ⊢
      rw [getD_set_self _ (by rw [List.length_set]; omega)]
      omega
theorem absMulInner_length (ai : Int) (i : Nat) : ∀ (rb : List Char) (result : List Int),
    (absMulInner ai i rb result).length = result.length
  | [], _ => rfl
  | y :: rb, result => by
    simp only [absMulInner]
    rw [absMulInner_length ai i rb, List.length_set, List.length_set]

/-- Cell bounds kept by the outer loop of `absMul`. -/
theorem absMulOuter_bound {b : List Char} (hb : IsDigits b) :
    ∀ (ra : List Char) (result : List Int), IsDigits ra →
    ra.length + b.length ≤ result.length →
    (∀ k, 0 ≤ result.getD k 0 ∧ result.getD k 0 ≤ 9) →
    (∀ k, k < ra.length → result.getD k 0 = 0) →
    ∀ k, 0 ≤ (absMulOuter b ra result).getD k 0 ∧ (absMulOuter b ra result).getD k 0 ≤ 9
  | [], result, _, _, h, _ => by simpa [absMulOuter] using h
  | x :: ra, result, ha, hl, h, hz => by
    simp only [List.length_cons] at hl hz
    simp only [absMulOuter]
    obtain ⟨i1, i2⟩ := absMulInner_bound ra.length (digitOf_nonneg ha.head) (digitOf_le ha.head)
      b.reverse result hb.reverse (by rw [List.length_reverse]; omega)
      (fun k _ => h k) ⟨(h _).1, by have := (h (ra.length + b.reverse.length)).2; omega⟩
      (fun k hk => hz k (by omega)) (fun _ => hz _ (by omega))
      (fun _ => by rw [hz _ (Nat.lt_succ_self _)]; norm_num)
    exact absMulOuter_bound hb ra _ ha.tail (by rw [absMulInner_length]; omega) i1 i2

theorem cellsOk_of_getD {r : List Int} (h : ∀ k, 0 ≤ r.getD k 0 ∧ r.getD k 0 ≤ 9) : CellsOk r := by
  intro x hx
  obtain ⟨n, hn, rfl⟩ := List.mem_iff_getElem.1 hx
  have := h n
  rwa [List.getD_eq_getElem _ _ hn] at this

theorem getD_replicate_zero (n k : Nat) : (List.replicate n (0 : Int)).getD k 0 = 0 := by
  rw [List.getD_eq_getElem?_getD, List.getElem?_replicate]
  split <;> rfl

theorem absMulEmit_false {r : List Int} (h : CellsOk r) :
    IsDigits (absMulEmit r false) ∧ val (absMulEmit r false) = cellVal r ∧
    (absMulEmit r false).length = r.length := by
  induction r with
  | nil => exact ⟨isDigits_nil, rfl, rfl⟩
  | cons x r ih =>
    obtain ⟨i1, i2, i3⟩ := ih (fun y hy => h y (List.mem_cons_of_mem _ hy))
    obtain ⟨hx0, hx9⟩ := h x (List.mem_cons_self _ _)
    have : absMulEmit (x :: r) false = charOf x :: absMulEmit r false := by
      simp [absMulEmit]
    rw [this]
    refine ⟨IsDigits.cons (charOf_isDigit hx0 hx9) i1, ?_, by simp [i3]⟩
    rw [val_cons, cellVal_cons, digitOf_charOf hx0 hx9, i2, i3]

theorem absMulEmit_true {r : List Int} (h : CellsOk r) :
    IsDigits (absMulEmit r true) ∧ val (absMulEmit r true) = cellVal r ∧
    (absMulEmit r true).head? ≠ some '0' := by
  induction r with
  | nil => exact ⟨isDigits_nil, rfl, by simp [absMulEmit]⟩
  | cons x r ih =>
    have hr : CellsOk r := fun y hy => h y (List.mem_cons_of_mem _ hy)
    obtain ⟨hx0, hx9⟩ := h x (List.mem_cons_self _ _)
    by_cases hx : x = 0
    · subst hx
      have : absMulEmit (0 :: r) true = absMulEmit r true := by simp [absMulEmit]
      rw [this, cellVal_cons]
      obtain ⟨i1, i2, i3⟩ := ih hr
      exact ⟨i1, by rw [i2]; ring, i3⟩
    · have : absMulEmit (x :: r) true = charOf x :: absMulEmit r false := by
        simp [absMulEmit, hx]
      rw [this]
      obtain ⟨i1, i2, i3⟩ := absMulEmit_false hr
      refine ⟨IsDigits.cons (charOf_isDigit hx0 hx9) i1, ?_, ?_⟩
      · rw [val_cons, cellVal_cons, digitOf_charOf hx0 hx9, i2, i3]
      · simp only [List.head?_cons, ne_eq, Option.some.injEq]
        intro hc
        have := digitOf_charOf hx0 hx9
        rw [hc] at this
        exact hx (this.symm.trans (by decide))

/-- Embeds `absMul` on digit strings yields the canonical magnitude of the product. -/
theorem absMul_spec {a b : List Char} (ha : IsDigits a) (hb : IsDigits b) :
    CanonMag (absMul a b) ∧ val (absMul a b) = val a * val b := by
  unfold absMul
  split
  · next h =>
    refine ⟨canon_zero, ?_⟩
    rcases h with h | h <;> subst h <;> simp [val, digitOf]
  · obtain ⟨v1, v2⟩ := absMulOuter_val b a.reverse (List.replicate (a.length + b.length) 0) 0
      (by simp)
    have hcells := cellsOk_of_getD (absMulOuter_bound hb a.reverse
      (List.replicate (a.length + b.length) 0) ha.reverse (by simp)
      (fun k => by rw [getD_replicate_zero]; norm_num)
      (fun k _ => getD_replicate_zero _ _))
    obtain ⟨e1, e2, e3⟩ := absMulEmit_true hcells
    rw [cellVal_replicate_zero, List.reverse_reverse] at v1
    simp only [pow_zero, mul_one, zero_add] at v1
    simp only []
    split
    · next hemp =>
      refine ⟨canon_zero, ?_⟩
      rw [← v1, ← e2, List.isEmpty_iff.1 hemp]
      rfl
    · next hemp =>
      refine ⟨⟨fun h => hemp (by rw [h]; rfl), e1, fun _ => e3⟩, ?_⟩
      rw [e2, v1]

/-! ## Long division of magnitudes -/

theorem absDivInner_cond {b r : List Char} (hb : CanonMag b) (hr : CanonMag r) :
    (absGreater r b = true ∨ r = b) ↔ val b ≤ val r := by
  rw [absGreater_iff hr hb, canon_eq_iff hr hb]
  omega

/-- The repeated-subtraction loop: when the remainder is below `(k + 1) * b`, `k`
body executions suffice, and the loop returns the reduced remainder and the
count raised by their number. -/
theorem absDivInner_spec {b : List Char} (hb : CanonMag b) :
    ∀ (k fuel : Nat) (r : List Char) (count : Int), CanonMag r → k ≤ fuel →
    val r < (k + 1) * val b →
    ∃ r1 count1, absDivInner b fuel r count = some (r1, count1) ∧ CanonMag r1 ∧
      val r1 < val b ∧ val r = (count1 - count) * val b + val r1 ∧
      count ≤ count1 ∧ count1 ≤ count + k
  | k, fuel, r, count, hr, hk, hv => by
    by_cases hc : val b ≤ val r
    · have hcond := (absDivInner_cond hb hr).2 hc
      cases k with
      | zero =>
        simp only [Nat.cast_zero, zero_add, one_mul] at hv
        omega
      | succ k =>
        obtain ⟨fuel1, rfl⟩ : ∃ f, fuel = f + 1 := ⟨fuel - 1, by omega⟩
        obtain ⟨s1, s2⟩ := absSub_canon hr hb hc
        obtain ⟨r1, c1, e1, e2, e3, e4, e5, e6⟩ :=
          absDivInner_spec hb k fuel1 (absSub r b) (count + 1) s1 (by omega)
            (by rw [s2]; push_cast at hv ⊢; linarith)
        refine ⟨r1, c1, ?_, e2, e3, ?_, by omega, by push_cast; omega⟩
        · rw [absDivInner.eq_def]
          simp only [hcond, if_true]
          exact e1
        · rw [s2] at e4
          linarith
    · have hcond : ¬ (absGreater r b = true ∨ r = b) := fun h => hc ((absDivInner_cond hb hr).1 h)
      refine ⟨r, count, ?_, hr, by omega, by ring, le_rfl, by omega⟩
      rw [absDivInner.eq_def]
      simp only [hcond, if_false]

/-- The digit loop of the long division keeps `processed = quotient * b + remainder`
with `remainder < b`, and with fuel 9 every run of the inner loop returns. -/
theorem absDivLoop_spec {b : List Char} (hb : CanonMag b) (hb0 : 0 < val b) {fuel : Nat}
    (hf : 9 ≤ fuel) :
    ∀ (rest quotient remainder : List Char), IsDigits rest → IsDigits quotient →
    IsDigits remainder → val remainder < val b →
    ∃ q r, absDivLoop fuel b rest quotient remainder = some (q, r) ∧ IsDigits q ∧ IsDigits r ∧
      (rest ≠ [] → CanonMag r) ∧ val r < val b ∧ q.length = quotient.length + rest.length ∧
      val q * val b + val r
        = (val quotient * val b + val remainder) * 10 ^ rest.length + val rest
  | [], quotient, remainder, _, hq, hr, hv => by
    refine ⟨quotient, remainder, rfl, hq, hr, fun h => absurd rfl h, hv, by simp, by simp⟩
  | digit :: rest, quotient, remainder, hrest, hq, hr, hv => by
    have hd0 := digitOf_nonneg hrest.head
    have hd9 := digitOf_le hrest.head
    have hr0 := val_nonneg hr
    have hdig : IsDigits (remainder ++ [digit]) :=
      hr.append (IsDigits.cons hrest.head isDigits_nil)
    have hcan : CanonMag (stripLeadingZeros (remainder ++ [digit])) :=
      stripLeadingZeros_canon (by simp) hdig
    have hval : val (stripLeadingZeros (remainder ++ [digit])) = val remainder * 10 + digitOf digit := by
      rw [stripLeadingZeros_val, val_snoc]
    obtain ⟨r1, c1, e1, e2, e3, e4, e5, e6⟩ :=
      absDivInner_spec hb 9 fuel (stripLeadingZeros (remainder ++ [digit])) 0 hcan hf
        (by rw [hval]; push_cast; linarith)
    simp only [zero_add, sub_zero] at e4 e6
    have hc9 : c1 ≤ 9 := by exact_mod_cast e6
    obtain ⟨q, r, l1, l2, l3, l4, l5, l6, l7⟩ :=
      absDivLoop_spec hb hb0 hf rest (quotient ++ [charOf c1]) r1 hrest.tail
        (hq.append (IsDigits.cons (charOf_isDigit e5 hc9) isDigits_nil)) e2.2.1 e3
    refine ⟨q, r, ?_, l2, l3, ?_, l5, ?_, ?_⟩
    · rw [absDivLoop, e1]
      exact l1
    · intro _
      cases rest with
      | nil =>
        rw [absDivLoop] at l1
        have : r = r1 := by simpa using (congrArg (fun o => o.map Prod.snd) l1).symm
        rw [this]; exact e2
      | cons c rest' => exact l4 (by simp)
    · rw [l6]; simp only [List.length_append, List.length_cons, List.length_nil]; omega
    · rw [l7, val_snoc, digitOf_charOf e5 hc9, val_cons, List.length_cons, pow_succ]
      rw [hval] at e4
      linear_combination (-(10 ^ rest.length : Int)) * e4

/-- Embeds `absDiv` on canonical magnitudes with a nonzero divisor: with fuel 9 it returns the
canonical quotient and remainder of the Euclidean division. -/
theorem absDiv_spec {a b : List Char} (ha : CanonMag a) (hb : CanonMag b) (hb0 : b ≠ ['0'])
    {fuel : Nat} (hf : 9 ≤ fuel) :
    ∃ q r, absDiv fuel a b = .ok (q, r) ∧ CanonMag q ∧ CanonMag r ∧
      val a = val b * val q + val r ∧ 0 ≤ val r ∧ val r < val b := by
  have hbpos := canon_val_pos hb hb0
  unfold absDiv
  simp only [hb0, if_false]
  split
  · next h =>
    have hlt : val a < val b := by
      have h1 := (absGreater_false_iff ha hb).1 (by simpa using h.1)
      have h2 : val a ≠ val b := fun e => h.2 (canon_inj ha hb e)
      omega
    exact ⟨['0'], a, rfl, canon_zero, ha, by simp [val, digitOf], val_nonneg ha.2.1, hlt⟩
  · split
    · next h =>
      subst h
      exact ⟨['1'], ['0'], rfl, by decide, canon_zero, by simp [val, digitOf], by decide, hbpos⟩
    · next h =>
      obtain ⟨q, r, l1, l2, l3, l4, l5, l6, l7⟩ :=
        absDivLoop_spec hb hbpos hf a [] [] ha.2.1 isDigits_nil isDigits_nil (by simpa using hbpos)
      have hrc : CanonMag r := l4 ha.1
      have hqne : q ≠ [] := by
        intro hq
        rw [hq] at l6
        simp only [List.length_nil, zero_add] at l6
        exact ha.1 (List.eq_nil_of_length_eq_zero l6.symm)
      have hrne : r.isEmpty = false := by
        cases r with
        | nil => exact absurd rfl hrc.1
        | cons _ _ => rfl
      refine ⟨stripLeadingZeros q, r, ?_, stripLeadingZeros_canon hqne l2, hrc, ?_,
        val_nonneg l3, l5⟩
      · rw [l1]
        simp [hrne]
      · rw [stripLeadingZeros_val]
        simp only [val_nil, zero_mul, add_zero, zero_add] at l7
        linarith

/-! ## BigInt: multiplication, floor division and modulo -/

namespace BigInt

theorem canonical_mk_false {v : List Char} (h : CanonMag v) :
    Canonical { value := v, negative := false } := ⟨h, fun _ => rfl⟩

theorem canonical_mk_of_ne {v : List Char} (h : CanonMag v) (h0 : v ≠ ['0']) (n : Bool) :
    Canonical { value := v, negative := n } := ⟨h, fun hz => absurd hz h0⟩

theorem mul_spec {x y : BigInt} (hx : Canonical x) (hy : Canonical y) :
    Canonical (mul x y) ∧ toInt (mul x y) = toInt x * toInt y := by
  obtain ⟨m1, m2⟩ := absMul_spec hx.digits hy.digits
  unfold mul
  refine ⟨removeLeadingZeros_canonical m1.1 m1.2.1, ?_⟩
  rw [toInt_removeLeadingZeros]
  simp only [toInt, m2]
  by_cases h0 : absMul x.value y.value = ['0']
  · have hz : val x.value * val y.value = 0 := by rw [← m2, h0]; rfl
    simp only [h0, ne_eq, not_true_eq_false, decide_False, Bool.and_false, Bool.false_eq_true,
      if_false]
    cases x.negative <;> cases y.negative <;> simp [hz]
  · simp only [h0, ne_eq, not_false_eq_true, decide_True, Bool.and_true]
    cases x.negative <;> cases y.negative <;> simp

theorem ofString_of_canon {s : List Char} (h : CanonMag s) :
    ofString s = { value := s, negative := false } := by
  have hcan := h
  obtain ⟨hne, hd, _⟩ := h
  cases s with
  | nil => exact absurd rfl hne
  | cons c s =>
    have hc : c ≠ '-' := by
      rintro rfl
      exact absurd (hd '-' (List.mem_cons_self _ _)) (by decide)
    have h1 : ¬ ((c :: s).isEmpty = true ∨ c :: s = ['-']) := by
      simp [hc]
    have h2 : decide ((c :: s).head? = some '-') = false := by simp [hc]
    unfold ofString
    rw [if_neg h1]
    simp only [h2, Bool.false_eq_true, if_false]
    exact removeLeadingZeros_of_canonical (canonical_mk_false hcan)

theorem ofLongLong_one : ofLongLong 1 = { value := ['1'], negative := false } := by decide

theorem div_of_absDiv {x y : BigInt} {fuel : Nat}
    {qs rs : List Char} (h : absDiv fuel x.value y.value = .ok (qs, rs)) (hq : CanonMag qs) :
    ∃ q, div fuel x y = .ok q ∧ Canonical q ∧
      toInt q = (if x.negative = y.negative then val qs
                 else if rs = ['0'] then - val qs else - val qs - 1) := by
  unfold div
  rw [h]
  simp only [Res.bind]
  refine ⟨_, rfl, ?_⟩
  have hq0 := val_nonneg hq.2.1
  by_cases hs : x.negative = y.negative
  · have hres : Canonical { value := qs, negative := false } := canonical_mk_false hq
    simp only [hs, ne_eq, not_true_eq_false, decide_False, Bool.false_and, false_and, if_false,
      if_true]
    rw [removeLeadingZeros_of_canonical hres]
    exact ⟨hres, by simp [toInt]⟩
  · have hres : Canonical { value := qs, negative := decide (qs ≠ ['0']) } :=
      ⟨hq, fun hz => by simp only at hz; simp [hz]⟩
    have hresv : toInt { value := qs, negative := decide (qs ≠ ['0']) } = - val qs := by
      by_cases hz : qs = ['0']
      · subst hz; decide
      · simp [toInt, hz]
    simp only [hs, ne_eq, not_false_eq_true, decide_True, Bool.true_and, true_and, if_false]
    by_cases hr0 : rs = ['0']
    · simp only [hr0, not_true_eq_false, if_false, if_true]
      rw [removeLeadingZeros_of_canonical hres]
      exact ⟨hres, hresv⟩
    · simp only [hr0, not_false_eq_true, if_true, if_false]
      have h1 : Canonical (ofLongLong 1) := by decide
      obtain ⟨s1, s2⟩ := sub_spec hres h1
      rw [removeLeadingZeros_of_canonical s1]
      refine ⟨s1, ?_⟩
      rw [s2, hresv]
      have : toInt (ofLongLong 1) = 1 := by decide
      rw [this]

theorem mod_of_absDiv {x y : BigInt} (hy : Canonical y) {fuel : Nat}
    {qs rs : List Char} (h : absDiv fuel x.value y.value = .ok (qs, rs))
    (hr : CanonMag rs) :
    ∃ m, mod fuel x y = .ok m ∧ Canonical m ∧
      toInt m = (if rs = ['0'] then 0
                 else if x.negative = true ∧ y.negative = false then val y.value - val rs
                 else if x.negative = false ∧ y.negative = true then val rs - val y.value
                 else if x.negative = true ∧ y.negative = true then - val rs
                 else val rs) := by
  unfold mod
  rw [h]
  simp only [Res.bind]
  refine ⟨_, rfl, ?_⟩
  by_cases hr0 : rs = ['0']
  · simp only [hr0, ne_eq, not_true_eq_false, if_false, if_true]
    exact ⟨by decide, by decide⟩
  · have hrs : Canonical (ofString rs) := by
      rw [ofString_of_canon hr]; exact canonical_mk_false hr
    have hrv : toInt (ofString rs) = val rs := by
      rw [ofString_of_canon hr]; simp [toInt]
    simp only [hr0, ne_eq, not_false_eq_true, if_true, if_false]
    cases hxn : x.negative <;> cases hyn : y.negative
    · simp only [Bool.false_eq_true, false_and, and_false, and_self, if_false, Bool.not_false,
        Bool.not_true]
      have hc := canonical_mk_false hr
      rw [removeLeadingZeros_of_canonical hc]
      exact ⟨hc, by simp [toInt]⟩
    · simp only [Bool.false_eq_true, false_and, and_false, and_self, if_false, Bool.not_false,
        Bool.not_true, if_true, and_true, true_and]
      obtain ⟨a1, a2⟩ := add_spec hrs hy
      rw [removeLeadingZeros_of_canonical a1]
      refine ⟨a1, ?_⟩
      rw [a2, hrv]
      simp only [toInt, hyn, if_true]
      ring
    · simp only [Bool.false_eq_true, false_and, and_false, and_self, if_false, Bool.not_false,
        Bool.not_true, if_true, and_true, true_and]
      obtain ⟨s1, s2⟩ := sub_spec hy hrs
      rw [removeLeadingZeros_of_canonical s1]
      refine ⟨s1, ?_⟩
      rw [s2, hrv]
      simp [toInt, hyn]
    · simp only [Bool.false_eq_true, false_and, and_false, and_self, if_false, Bool.not_false,
        Bool.not_true, if_true, and_true, true_and]
      have hc := canonical_mk_of_ne hr hr0 true
      rw [removeLeadingZeros_of_canonical hc]
      exact ⟨hc, by simp [toInt]⟩

/-- Floor division and modulo of canonical operands with a nonzero divisor: both return
(fuel 9 is enough), canonically, and satisfy the floor-division identity with the
remainder carrying the sign of the divisor. -/
theorem divmod_spec {x y : BigInt} (hx : Canonical x) (hy : Canonical y)
    (hy0 : y.value ≠ ['0']) {fuel : Nat} (hf : 9 ≤ fuel) :
    ∃ q m, div fuel x y = .ok q ∧ mod fuel x y = .ok m ∧ Canonical q ∧ Canonical m ∧
      toInt x = toInt y * toInt q + toInt m ∧
      (0 < toInt y → 0 ≤ toInt m ∧ toInt m < toInt y) ∧
      (toInt y < 0 → toInt y < toInt m ∧ toInt m ≤ 0) := by
  obtain ⟨qs, rs, e, cq, cr, hid, hr0, hrb⟩ := absDiv_spec hx.1 hy.1 hy0 hf
  obtain ⟨q, dq, cq1, vq⟩ := div_of_absDiv e cq
  obtain ⟨m, dm, cm1, vm⟩ := mod_of_absDiv hy e cr
  refine ⟨q, m, dq, dm, cq1, cm1, ?_⟩
  have hrz := canon_val_eq_zero cr
  rw [vq, vm]
  simp only [toInt]
  cases hxn : x.negative <;> cases hyn : y.negative <;> by_cases hz : rs = ['0'] <;>
    simp only [hz, if_true, if_false, Bool.false_eq_true, and_self, and_false, false_and,
      true_and, and_true, reduceCtorEq] <;>
    (have hz1 := hz; rw [← hrz] at hz1) <;>
    refine ⟨by nlinarith, fun _ => ⟨by omega, by omega⟩, fun _ => ⟨by omega, by omega⟩⟩

end BigInt

/-! ## BigInt: comparisons and decimal text -/

namespace BigInt

theorem lt_iff {x y : BigInt} (hx : Canonical x) (hy : Canonical y) :
    lt x y = true ↔ toInt x < toInt y := by
  have hx0 := hx.mag_nonneg
  have hy0 := hy.mag_nonneg
  unfold lt toInt
  cases hxn : x.negative <;> cases hyn : y.negative
  · simp only [ne_eq, not_true_eq_false, if_false, Bool.false_eq_true, Bool.and_eq_true,
      Bool.not_eq_true', decide_eq_true_eq]
    rw [absGreater_false_iff hx.1 hy.1, canon_eq_iff hx.1 hy.1]
    omega
  · have := hy.val_pos_of_neg hyn
    simp only [ne_eq, Bool.false_eq_true, not_false_eq_true, if_true, if_false, false_iff]
    omega
  · have := hx.val_pos_of_neg hxn
    simp only [ne_eq, Bool.true_eq_false, not_false_eq_true, if_true, Bool.false_eq_true,
      if_false, true_iff]
    omega
  · simp only [ne_eq, not_true_eq_false, if_false, if_true]
    rw [absGreater_iff hx.1 hy.1]
    omega

theorem eq_iff {x y : BigInt} (hx : Canonical x) (hy : Canonical y) :
    eq x y = true ↔ toInt x = toInt y := by
  constructor
  · intro h
    simp only [eq, Bool.and_eq_true, decide_eq_true_eq] at h
    have : x = y := by
      cases x; cases y; simp only at h; rw [h.1, h.2]
    rw [this]
  · intro h
    have := canonical_inj hx hy h
    subst this
    simp [eq]

end BigInt

theorem dropWhile_zero_cons_ne {c : Char} (hc : c ≠ '0') (s : List Char) :
    (c :: s).dropWhile (· == '0') = c :: s := by
  have hb : (c == '0') = false := by simp [hc]
  rw [List.dropWhile_cons]
  simp only [hb, Bool.false_eq_true, if_false]

theorem dropWhile_zero_cons_zero (s : List Char) :
    ('0' :: s).dropWhile (· == '0') = s.dropWhile (· == '0') := by
  rw [List.dropWhile_cons]
  simp

theorem stripLeadingZeros_eq_dropWhile : ∀ {s : List Char}, s ≠ [] →
    stripLeadingZeros s
      = if (s.dropWhile (· == '0')).isEmpty then ['0'] else s.dropWhile (· == '0')
  | [], h => absurd rfl h
  | [c], _ => by
    by_cases hc : c = '0'
    · subst hc; rfl
    · rw [dropWhile_zero_cons_ne hc]; rfl
  | c :: d :: rest, _ => by
    by_cases hc : c = '0'
    · subst hc
      have ih := stripLeadingZeros_eq_dropWhile (s := d :: rest) (by simp)
      simp only [stripLeadingZeros, if_true]
      rw [ih, dropWhile_zero_cons_zero]
    · rw [dropWhile_zero_cons_ne hc]
      simp [stripLeadingZeros, hc]

theorem dropWhile_zero_ne (s : List Char) : s.dropWhile (· == '0') ≠ ['0'] := by
  induction s with
  | nil => simp
  | cons c s ih =>
    by_cases hc : c = '0'
    · subst hc; rw [dropWhile_zero_cons_zero]; exact ih
    · rw [dropWhile_zero_cons_ne hc]
      intro h
      exact hc (List.cons.inj h).1

namespace BigInt

/-- Formatting after parsing yields the canonical text, for every text. -/
theorem toString_ofString (n : List Char) : toString (ofString n) = canonicalText n := by
  unfold ofString canonicalText
  by_cases h1 : n.isEmpty = true ∨ n = ['-']
  · rw [if_pos h1]
    rcases h1 with h | h
    · rw [List.isEmpty_iff.1 h]; rfl
    · subst h; rfl
  · rw [if_neg h1]
    push_neg at h1
    obtain ⟨hne, hdash⟩ := h1
    have hne1 : n ≠ [] := fun h => hne (by rw [h]; rfl)
    by_cases hneg : n.head? = some '-'
    · obtain ⟨t, rfl⟩ : ∃ t, n = '-' :: t := by
        cases n with
        | nil => simp at hneg
        | cons c t => simp only [List.head?_cons, Option.some.injEq] at hneg; exact ⟨t, by rw [hneg]⟩
      have ht : t ≠ [] := fun h => hdash (by rw [h])
      simp only [List.head?_cons, decide_True, if_true, List.drop_one, List.tail_cons,
        removeLeadingZeros, toString]
      rw [stripLeadingZeros_eq_dropWhile ht]
      by_cases he : (t.dropWhile (· == '0')).isEmpty = true
      · simp [he]
      · simp [he, dropWhile_zero_ne]
    · simp only [hneg, decide_False, Bool.false_eq_true, if_false, removeLeadingZeros, toString]
      rw [stripLeadingZeros_eq_dropWhile hne1]
      by_cases he : (n.dropWhile (· == '0')).isEmpty = true
      · simp [he]
      · simp [he]

/-- Parsing an optionally signed, non-empty digit text. -/
theorem ofString_signed (sgn : Bool) {ds : List Char} (hne : ds ≠ []) (hd : IsDigits ds) :
    ofString ((if sgn then ['-'] else []) ++ ds)
      = removeLeadingZeros { value := ds, negative := sgn } := by
  unfold ofString
  cases sgn
  · obtain ⟨c, t, rfl⟩ : ∃ c t, ds = c :: t := by
      cases ds with
      | nil => exact absurd rfl hne
      | cons c t => exact ⟨c, t, rfl⟩
    have hc : c ≠ '-' := by
      rintro rfl
      exact absurd (hd '-' (List.mem_cons_self _ _)) (by decide)
    simp [hc]
  · have h1 : ¬ ((['-'] ++ ds).isEmpty = true ∨ ['-'] ++ ds = ['-']) := by simp [hne]
    simp only [if_true] at h1 ⊢
    rw [if_neg h1]
    simp

end BigInt

/-! ## Auxiliary facts for the claims -/

namespace BigInt

theorem Canonical.of_nonneg {r : BigInt} (h : Canonical r) (h0 : 0 ≤ toInt r) :
    r.negative = false ∧ val r.value = toInt r := by
  cases hn : r.negative
  · simp [toInt, hn]
  · have := h.val_pos_of_neg hn
    simp only [toInt, hn, if_true] at h0
    omega

theorem Canonical.of_neg {r : BigInt} (h : Canonical r) (h0 : toInt r < 0) :
    r.negative = true ∧ val r.value = - toInt r := by
  cases hn : r.negative
  · have := h.mag_nonneg
    simp only [toInt, hn, Bool.false_eq_true, if_false] at h0
    omega
  · simp [toInt, hn]

theorem strLt_irrefl (s : List Char) : strLt s s = false := by
  induction s with
  | nil => rfl
  | cons c s ih => simp [strLt, ih]

theorem absGreater_irrefl (s : List Char) : absGreater s s = false := by
  simp [absGreater, strLt_irrefl]

theorem sub_self (x : BigInt) : sub x x = zero := by
  unfold sub neg
  by_cases h0 : x.value = ['0']
  · simp only [h0, ne_eq, not_true_eq_false, if_false]
    unfold add
    simp only [if_true, h0]
    cases x.negative <;> decide
  · simp only [h0, ne_eq, not_false_eq_true, if_true]
    unfold add
    have hs : ¬ (x.negative = !x.negative) := by cases x.negative <;> simp
    simp only [hs, if_false, absGreater_irrefl, Bool.false_eq_true, if_true]

theorem absDivInner_mono (b : List Char) : ∀ (fuel fuel1 : Nat) (r : List Char) (count : Int)
    (out : List Char × Int), fuel ≤ fuel1 → absDivInner b fuel r count = some out →
    absDivInner b fuel1 r count = some out
  | fuel, fuel1, r, count, out, hf, h => by
    rw [absDivInner.eq_def] at h ⊢
    by_cases hc : absGreater r b = true ∨ r = b
    · simp only [hc, if_true] at h ⊢
      cases fuel with
      | zero => simp at h
      | succ f =>
        obtain ⟨f1, rfl⟩ : ∃ f1, fuel1 = f1 + 1 := ⟨fuel1 - 1, by omega⟩
        simp only at h ⊢
        exact absDivInner_mono b f f1 _ _ out (by omega) h
    · simp only [hc, if_false] at h ⊢
      exact h

theorem absDivLoop_mono (b : List Char) {fuel fuel1 : Nat} (hf : fuel ≤ fuel1) :
    ∀ (rest quotient remainder : List Char) (out : List Char × List Char),
    absDivLoop fuel b rest quotient remainder = some out →
    absDivLoop fuel1 b rest quotient remainder = some out
  | [], _, _, _, h => by simpa [absDivLoop] using h
  | digit :: rest, quotient, remainder, out, h => by
    rw [absDivLoop] at h ⊢
    cases hi : absDivInner b fuel (stripLeadingZeros (remainder ++ [digit])) 0 with
    | none => rw [hi] at h; simp at h
    | some p =>
      rw [hi] at h
      rw [absDivInner_mono b fuel fuel1 _ _ p hf hi]
      exact absDivLoop_mono b hf rest _ _ out h

theorem absDiv_mono {fuel fuel1 : Nat} (hf : fuel ≤ fuel1) {a b : List Char}
    {out : List Char × List Char} (h : absDiv fuel a b = .ok out) :
    absDiv fuel1 a b = .ok out := by
  unfold absDiv at h ⊢
  split
  · next hb => simp [hb] at h
  · next hb =>
    simp only [hb, if_false] at h
    split
    · next hc => simpa [hc] using h
    · next hc =>
      simp only [hc, if_false] at h
      split
      · next he => simpa [he] using h
      · next he =>
        simp only [he, if_false] at h
        cases hl : absDivLoop fuel b a [] [] with
        | none => rw [hl] at h; simp at h
        | some p =>
          rw [hl] at h
          rw [absDivLoop_mono b hf a [] [] p hl]
          exact h

theorem div_mono {fuel fuel1 : Nat} (hf : fuel ≤ fuel1) {x y q : BigInt}
    (h : div fuel x y = .ok q) : div fuel1 x y = .ok q := by
  unfold div at h ⊢
  cases ha : absDiv fuel x.value y.value with
  | ok qr => rw [absDiv_mono hf ha]; rw [ha] at h; exact h
  | throw m => rw [ha] at h; simp [Res.bind] at h
  | outOfFuel => rw [ha] at h; simp [Res.bind] at h

theorem mod_mono {fuel fuel1 : Nat} (hf : fuel ≤ fuel1) {x y m : BigInt}
    (h : mod fuel x y = .ok m) : mod fuel1 x y = .ok m := by
  unfold mod at h ⊢
  cases ha : absDiv fuel x.value y.value with
  | ok qr => rw [absDiv_mono hf ha]; rw [ha] at h; exact h
  | throw m => rw [ha] at h; simp [Res.bind] at h
  | outOfFuel => rw [ha] at h; simp [Res.bind] at h

/-- Embeds `absDiv` throws exactly for the divisor `"0"`, whatever the fuel. -/
theorem absDiv_throw_iff (fuel : Nat) (a b : List Char) :
    (∃ msg, absDiv fuel a b = .throw msg) ↔ b = ['0'] := by
  unfold absDiv
  constructor
  · rintro ⟨msg, h⟩
    by_contra hb
    simp only [hb, if_false] at h
    split at h
    · simp at h
    · split at h
      · simp at h
      · split at h <;> simp at h
  · intro hb
    exact ⟨"Division by zero", by simp [hb]⟩

theorem div_throw_iff (fuel : Nat) (x y : BigInt) :
    (∃ msg, div fuel x y = .throw msg) ↔ y.value = ['0'] := by
  rw [← absDiv_throw_iff fuel x.value y.value]
  unfold div
  cases absDiv fuel x.value y.value <;> simp [Res.bind]

theorem mod_throw_iff (fuel : Nat) (x y : BigInt) :
    (∃ msg, mod fuel x y = .throw msg) ↔ y.value = ['0'] := by
  rw [← absDiv_throw_iff fuel x.value y.value]
  unfold mod
  cases absDiv fuel x.value y.value <;> simp [Res.bind]

theorem Canonical.value_zero_iff {x : BigInt} (h : Canonical x) :
    x.value = ['0'] ↔ toInt x = 0 := by
  rw [← canon_val_eq_zero h.1]
  unfold toInt
  split <;> omega

end BigInt

namespace BigInt

/-- Explicit representation of a product of canonical operands. -/
theorem mul_repr {x y : BigInt} (hx : Canonical x) (hy : Canonical y) :
    mul x y = { value := absMul x.value y.value,
                negative := xor x.negative y.negative
                  && decide (val x.value * val y.value ≠ 0) } := by
  obtain ⟨m1, m2⟩ := absMul_spec hx.digits hy.digits
  have hz := canon_val_eq_zero m1
  rw [m2] at hz
  unfold mul removeLeadingZeros
  simp only [stripLeadingZeros_of_canon m1]
  by_cases h0 : absMul x.value y.value = ['0']
  · have := hz.2 h0
    simp [h0, this]
  · have : ¬ (val x.value * val y.value = 0) := fun h => h0 (hz.1 h)
    simp only [h0, if_false, ne_eq, not_false_eq_true, decide_True, Bool.and_true, this]
    cases x.negative <;> cases y.negative <;> rfl

end BigInt

/-! ## The call protocol -/

theorem mapFind_mapSet {α : Type} (m : List (String × α)) (k : String) (v : α) (q : String) :
    mapFind (mapSet m k v) q = if k = q then some v else mapFind m q := by
  induction m with
  | nil =>
    simp only [mapSet, mapFind]
  | cons kv m ih =>
    obtain ⟨k1, w⟩ := kv
    simp only [mapSet]
    by_cases h1 : k1 = k
    · subst h1
      simp only [if_true, mapFind]
      by_cases h2 : k1 = q <;> simp [h2]
    · simp only [h1, if_false, mapFind, ih]
      by_cases h2 : k1 = q
      · subst h2
        simp [h1, Ne.symm h1]
      · simp [h2]

/-- The map obtained by the assignments `m[k] = v` for the pairs of `bs` in order. -/
theorem mapFind_foldl_mapSet {α : Type} (bs : List (String × α)) :
    ∀ (m : List (String × α)), (bs.map Prod.fst).Nodup →
    (∀ k v, (k, v) ∈ bs → mapFind (bs.foldl (fun acc b => mapSet acc b.1 b.2) m) k = some v) ∧
    (∀ q, q ∉ bs.map Prod.fst →
      mapFind (bs.foldl (fun acc b => mapSet acc b.1 b.2) m) q = mapFind m q) := by
  induction bs with
  | nil =>
    intro m _
    exact ⟨fun k v h => absurd h (List.not_mem_nil _), fun q _ => rfl⟩
  | cons b bs ih =>
    intro m hnd
    obtain ⟨k0, v0⟩ := b
    simp only [List.map_cons, List.nodup_cons] at hnd
    obtain ⟨i1, i2⟩ := ih (mapSet m k0 v0) hnd.2
    simp only [List.foldl_cons]
    constructor
    · intro k v hkv
      rcases List.mem_cons.1 hkv with h | h
      · obtain ⟨rfl, rfl⟩ := Prod.mk.inj h
        rw [i2 k hnd.1, mapFind_mapSet]
        simp
      · exact i1 k v h
    · intro q hq
      simp only [List.map_cons, List.mem_cons, not_or] at hq
      rw [i2 q hq.2, mapFind_mapSet]
      simp [Ne.symm hq.1]

theorem visitCallArgs_spec {F : Type} [HostFloat F] (funcName : String)
    (func : FunctionDef F) :
    ∀ (args : List Argument) (vals : List (Value F)) (fuel idx : Nat)
      (passed : List (String × Value F)) (st stN : EvalVisitor F),
    mapFind st.functions funcName = some func →
    ArgsEvaluateTo fuel st args vals stN → idx + positionalCount args ≤ func.params.length →
    visitCallArgs fuel funcName args idx passed st
      = .ok ((specBindings func.params args vals idx).foldl
          (fun acc b => mapSet acc b.1 b.2) passed) stN ∧
    stN.functions = st.functions := by
  intro args
  induction args with
  | nil =>
    intro vals fuel idx passed st stN _ h _
    cases fuel with
    | zero => cases vals <;> simp [ArgsEvaluateTo] at h
    | succ fuel =>
      cases vals with
      | nil =>
        simp only [ArgsEvaluateTo] at h
        subst h
        simp [visitCallArgs, specBindings]
      | cons v vals => simp [ArgsEvaluateTo] at h
  | cons arg rest ih =>
    intro vals fuel idx passed st stN hfunc h hc
    have hparams : paramsOf st funcName = func.params := by simp [paramsOf, hfunc]
    obtain ⟨test0, text0, test1⟩ := arg
    cases fuel with
    | zero => cases vals <;> cases test1 <;> simp [ArgsEvaluateTo] at h
    | succ fuel =>
      cases vals with
      | nil => cases test1 <;> simp [ArgsEvaluateTo] at h
      | cons v vals =>
        cases test1 with
        | none =>
          simp only [ArgsEvaluateTo] at h
          obtain ⟨st1, h1, h2, h3⟩ := h
          simp only [positionalCount] at hc
          have hidx : idx < func.params.length := by omega
          have hget : func.params[idx]? = some (func.params[idx]) := List.getElem?_eq_getElem hidx
          simp only [visitCallArgs, hparams, hget, h1, Exec.bind, specBindings,
            List.singleton_append, List.foldl_cons]
          obtain ⟨i1, i2⟩ := ih vals fuel (idx + 1) (mapSet passed func.params[idx] v) st1 stN
            (by rw [h2]; exact hfunc) h3 (by omega)
          exact ⟨i1, i2.trans h2⟩
        | some t1 =>
          simp only [ArgsEvaluateTo] at h
          obtain ⟨st1, h1, h2, h3⟩ := h
          simp only [positionalCount] at hc
          simp only [visitCallArgs, h1, Exec.bind, specBindings, List.foldl_cons]
          obtain ⟨i1, i2⟩ := ih vals fuel idx (mapSet passed text0 v) st1 stN
            (by rw [h2]; exact hfunc) h3 hc
          exact ⟨i1, i2.trans h2⟩

/-! ## Scope stack: lookup, assignment, push and pop -/

namespace EvalVisitor

variable {F : Type}

theorem lookupScopes_first (name : String) (v : Value F) :
    ∀ (pre : List (List (String × Value F))) (scope : List (String × Value F))
      (post : List (List (String × Value F))),
    (∀ s ∈ pre, mapFind s name = none) → mapFind scope name = some v →
    lookupScopes (pre ++ scope :: post) name = v := by
  intro pre
  induction pre with
  | nil =>
    intro scope post _ h
    simp [lookupScopes, h]
  | cons s pre ih =>
    intro scope post hpre h
    have hs := hpre s (List.mem_cons_self _ _)
    simp only [List.cons_append, lookupScopes, hs]
    exact ih scope post (fun t ht => hpre t (List.mem_cons_of_mem _ ht)) h

theorem lookupScopes_none (name : String) :
    ∀ (scopes : List (List (String × Value F))),
    (∀ s ∈ scopes, mapFind s name = none) → lookupScopes scopes name = Value.none := by
  intro scopes
  induction scopes with
  | nil => intro _; rfl
  | cons s rest ih =>
    intro h
    have hs := h s (List.mem_cons_self _ _)
    simp only [lookupScopes, hs]
    exact ih (fun t ht => h t (List.mem_cons_of_mem _ ht))

theorem popScope_scopes (st : EvalVisitor F) :
    (1 < st.scopes.length → st.popScope.scopes = st.scopes.tail) ∧
    (¬ 1 < st.scopes.length → st.popScope.scopes = st.scopes) := by
  unfold popScope
  constructor
  · intro h; simp [h]
  · intro h; simp [h]

theorem setVariable_scopes (st : EvalVisitor F) (name : String) (v : Value F)
    (top : List (String × Value F)) (below : List (List (String × Value F)))
    (h : st.scopes = top :: below) :
    st.setVariable name v
      = { scopes := mapSet top name v :: below, functions := st.functions,
          output := st.output } := by
  cases st with
  | mk sc fn out =>
    simp only at h
    subst h
    rfl

end EvalVisitor

theorem applyOp_ne_nil {F : Type} (st : EvalVisitor F) (op : ScopeOp F)
    (h : st.scopes ≠ []) : (applyOp st op).scopes ≠ [] := by
  cases op with
  | push => simp [applyOp, EvalVisitor.pushScope]
  | pop =>
    simp only [applyOp, EvalVisitor.popScope]
    split
    · next hl =>
      simp only
      intro ht
      have := congrArg List.length ht
      simp only [List.length_tail, List.length_nil] at this
      omega
    · exact h
  | assign name val =>
    simp only [applyOp, EvalVisitor.setVariable]
    split
    · next he => exact absurd he h
    · simp
  | lookup name => exact h

theorem applyOps_ne_nil {F : Type} (ops : List (ScopeOp F)) :
    ∀ (st : EvalVisitor F), st.scopes ≠ [] → (applyOps st ops).scopes ≠ [] := by
  induction ops with
  | nil => intro st h; exact h
  | cons op ops ih =>
    intro st h
    exact ih (applyOp st op) (applyOp_ne_nil st op h)

/-! ## Claims about the integer kernel -/

section BigIntClaims

open BigInt

/-- C1: for canonical `a` and `b` with `b` nonzero, floor division and modulo both return
(nine body executions of the subtraction loop per digit are enough), and their results
`q = a // b` and `m = a % b` satisfy `a = b*q + m` over the integers with
`0 ≤ sign(b)*m < |b|`; `-7 // 2` is `-4` and `-7 % 2` is `1`. -/
theorem C1_floor_division_identity (a b : BigInt) (fuel : Nat) (ha : a.Canonical)
    (hb : b.Canonical) (hb0 : b.toInt ≠ 0) (hf : 9 ≤ fuel) :
    (∃ q m, BigInt.div fuel a b = .ok q ∧ BigInt.mod fuel a b = .ok m ∧
      a.toInt = b.toInt * q.toInt + m.toInt ∧
      0 ≤ Int.sign b.toInt * m.toInt ∧ Int.sign b.toInt * m.toInt < |b.toInt|) ∧
    (BigInt.div 9 (BigInt.neg (BigInt.ofString ['7'])) (BigInt.ofString ['2'])).bind
        (fun q => .ok q.toString) = .ok ['-', '4'] ∧
    (BigInt.mod 9 (BigInt.neg (BigInt.ofString ['7'])) (BigInt.ofString ['2'])).bind
        (fun m => .ok m.toString) = .ok ['1'] := by
  refine ⟨?_, by decide, by decide⟩
  have hbv : b.value ≠ ['0'] := fun h => hb0 (hb.value_zero_iff.1 h)
  obtain ⟨q, m, dq, dm, _, _, hid, hpos, hneg⟩ := divmod_spec ha hb hbv hf
  refine ⟨q, m, dq, dm, hid, ?_⟩
  rcases lt_or_gt_of_ne hb0 with h | h
  · obtain ⟨h1, h2⟩ := hneg h
    rw [Int.sign_eq_neg_one_of_neg h, abs_of_neg h]
    constructor <;> omega
  · obtain ⟨h1, h2⟩ := hpos h
    rw [Int.sign_eq_one_of_pos h, abs_of_pos h]
    constructor <;> omega

/-- Witness of C1 at `a = -17`, `b = 5`, fuel 9. -/
theorem C1_floor_division_identity_witness :
    (∃ q m, BigInt.div 9 ⟨['1', '7'], true⟩ ⟨['5'], false⟩ = .ok q ∧
      BigInt.mod 9 ⟨['1', '7'], true⟩ ⟨['5'], false⟩ = .ok m ∧
      BigInt.toInt ⟨['1', '7'], true⟩ = BigInt.toInt ⟨['5'], false⟩ * q.toInt + m.toInt ∧
      0 ≤ Int.sign (BigInt.toInt ⟨['5'], false⟩) * m.toInt ∧
      Int.sign (BigInt.toInt ⟨['5'], false⟩) * m.toInt < |BigInt.toInt ⟨['5'], false⟩|) ∧
    (BigInt.div 9 (BigInt.neg (BigInt.ofString ['7'])) (BigInt.ofString ['2'])).bind
        (fun q => .ok q.toString) = .ok ['-', '4'] ∧
    (BigInt.mod 9 (BigInt.neg (BigInt.ofString ['7'])) (BigInt.ofString ['2'])).bind
        (fun m => .ok m.toString) = .ok ['1'] :=
  C1_floor_division_identity ⟨['1', '7'], true⟩ ⟨['5'], false⟩ 9 (by decide) (by decide)
    (by decide) (by decide)

set_option maxRecDepth 100000 in
/-- C2: for canonical `a` and `b`, `a * b` denotes the product of the denoted integers: its
magnitude is a canonical digit string (decimal digits only, no leading zeros) whose value
is the product of the magnitudes, and its sign is the xor of the operand signs, non-negative
when the product is zero; `10^20 * 10^20` formats as `1` followed by 40 zeros. -/
theorem C2_mul_denotes_product (a b : BigInt) (ha : a.Canonical) (hb : b.Canonical) :
    (BigInt.mul a b).toInt = a.toInt * b.toInt ∧
    CanonMag (BigInt.mul a b).value ∧
    val (BigInt.mul a b).value = val a.value * val b.value ∧
    (BigInt.mul a b).negative
      = (xor a.negative b.negative && decide (val a.value * val b.value ≠ 0)) ∧
    (BigInt.mul (BigInt.ofString "100000000000000000000".toList)
        (BigInt.ofString "100000000000000000000".toList)).toString
      = "10000000000000000000000000000000000000000".toList := by
  obtain ⟨_, m2⟩ := mul_spec ha hb
  obtain ⟨c1, c2⟩ := absMul_spec ha.digits hb.digits
  rw [mul_repr ha hb]
  rw [mul_repr ha hb] at m2
  exact ⟨m2, c1, c2, rfl, by decide⟩

/-- Witness of C2 at `a = -12`, `b = 34`. -/
theorem C2_mul_denotes_product_witness :
    (BigInt.mul ⟨['1', '2'], true⟩ ⟨['3', '4'], false⟩).toInt
      = BigInt.toInt ⟨['1', '2'], true⟩ * BigInt.toInt ⟨['3', '4'], false⟩ ∧
    CanonMag (BigInt.mul ⟨['1', '2'], true⟩ ⟨['3', '4'], false⟩).value ∧
    val (BigInt.mul ⟨['1', '2'], true⟩ ⟨['3', '4'], false⟩).value
      = val ['1', '2'] * val ['3', '4'] ∧
    (BigInt.mul ⟨['1', '2'], true⟩ ⟨['3', '4'], false⟩).negative
      = (xor true false && decide (val ['1', '2'] * val ['3', '4'] ≠ 0)) ∧
    (BigInt.mul (BigInt.ofString "100000000000000000000".toList)
        (BigInt.ofString "100000000000000000000".toList)).toString
      = "10000000000000000000000000000000000000000".toList :=
  C2_mul_denotes_product ⟨['1', '2'], true⟩ ⟨['3', '4'], false⟩ (by decide) (by decide)

/-- C3: for canonical `a` and `b`, `a + b` denotes the sum of the denoted integers; with
equal signs the magnitudes are added and the sign is kept, with different signs the smaller
magnitude is subtracted from the larger and the sign is that of the operand of larger
magnitude, and equal magnitudes of different signs give zero. -/
theorem C3_add_denotes_sum (a b : BigInt) (ha : a.Canonical) (hb : b.Canonical) :
    (BigInt.add a b).toInt = a.toInt + b.toInt ∧
    (a.negative = b.negative →
      val (BigInt.add a b).value = val a.value + val b.value ∧
      (BigInt.add a b).negative = a.negative) ∧
    (a.negative ≠ b.negative → val b.value < val a.value →
      val (BigInt.add a b).value = val a.value - val b.value ∧
      (BigInt.add a b).negative = a.negative) ∧
    (a.negative ≠ b.negative → val a.value < val b.value →
      val (BigInt.add a b).value = val b.value - val a.value ∧
      (BigInt.add a b).negative = b.negative) ∧
    (a.negative ≠ b.negative → val a.value = val b.value → BigInt.add a b = BigInt.zero) := by
  obtain ⟨s1, s2⟩ := add_spec ha hb
  have ha0 := ha.mag_nonneg
  have hb0 := hb.mag_nonneg
  have hs2 := s2
  simp only [toInt] at hs2
  refine ⟨s2, ?_, ?_, ?_, ?_⟩
  · intro hs
    cases hxn : a.negative
    · have hyn : b.negative = false := by rw [← hs, hxn]
      rw [hxn, hyn] at hs2
      simp only [Bool.false_eq_true, if_false] at hs2
      obtain ⟨n1, n2⟩ := s1.of_nonneg (by rw [s2]; simp only [toInt, hxn, hyn, Bool.false_eq_true, if_true, if_false]; omega)
      exact ⟨by rw [n2, s2]; simp only [toInt, hxn, hyn, Bool.false_eq_true, if_false], n1⟩
    · have hyn : b.negative = true := by rw [← hs, hxn]
      have hap := ha.val_pos_of_neg hxn
      obtain ⟨n1, n2⟩ := s1.of_neg (by rw [s2]; simp only [toInt, hxn, hyn, Bool.false_eq_true, if_true, if_false]; omega)
      exact ⟨by rw [n2, s2]; simp only [toInt, hxn, hyn, Bool.false_eq_true, if_true, if_false]; omega, n1⟩
  · intro hs hlt
    cases hxn : a.negative
    · have hyn : b.negative = true := by
        cases h : b.negative
        · exact absurd (hxn.trans h.symm) hs
        · rfl
      obtain ⟨n1, n2⟩ := s1.of_nonneg (by rw [s2]; simp only [toInt, hxn, hyn, Bool.false_eq_true, if_true, if_false]; omega)
      exact ⟨by rw [n2, s2]; simp only [toInt, hxn, hyn, Bool.false_eq_true, if_true, if_false]; omega, n1⟩
    · have hyn : b.negative = false := by
        cases h : b.negative
        · rfl
        · exact absurd (hxn.trans h.symm) hs
      obtain ⟨n1, n2⟩ := s1.of_neg (by rw [s2]; simp only [toInt, hxn, hyn, Bool.false_eq_true, if_true, if_false]; omega)
      exact ⟨by rw [n2, s2]; simp only [toInt, hxn, hyn, Bool.false_eq_true, if_true, if_false]; omega, n1⟩
  · intro hs hlt
    cases hxn : a.negative
    · have hyn : b.negative = true := by
        cases h : b.negative
        · exact absurd (hxn.trans h.symm) hs
        · rfl
      obtain ⟨n1, n2⟩ := s1.of_neg (by rw [s2]; simp only [toInt, hxn, hyn, Bool.false_eq_true, if_true, if_false]; omega)
      exact ⟨by rw [n2, s2]; simp only [toInt, hxn, hyn, Bool.false_eq_true, if_true, if_false]; omega, by rw [n1, hyn]⟩
    · have hyn : b.negative = false := by
        cases h : b.negative
        · rfl
        · exact absurd (hxn.trans h.symm) hs
      obtain ⟨n1, n2⟩ := s1.of_nonneg (by rw [s2]; simp only [toInt, hxn, hyn, Bool.false_eq_true, if_true, if_false]; omega)
      exact ⟨by rw [n2, s2]; simp only [toInt, hxn, hyn, Bool.false_eq_true, if_true, if_false]; omega, by rw [n1, hyn]⟩
  · intro hs he
    apply canonical_inj s1 canonical_zero
    rw [s2, toInt_zero]
    simp only [toInt]
    cases hxn : a.negative <;> cases hyn : b.negative <;> simp_all

/-- Witness of C3 at `a = -95`, `b = 7`. -/
theorem C3_add_denotes_sum_witness :
    (BigInt.add ⟨['9', '5'], true⟩ ⟨['7'], false⟩).toInt
      = BigInt.toInt ⟨['9', '5'], true⟩ + BigInt.toInt ⟨['7'], false⟩ ∧
    (true = false →
      val (BigInt.add ⟨['9', '5'], true⟩ ⟨['7'], false⟩).value = val ['9', '5'] + val ['7'] ∧
      (BigInt.add ⟨['9', '5'], true⟩ ⟨['7'], false⟩).negative = true) ∧
    (true ≠ false → val ['7'] < val ['9', '5'] →
      val (BigInt.add ⟨['9', '5'], true⟩ ⟨['7'], false⟩).value = val ['9', '5'] - val ['7'] ∧
      (BigInt.add ⟨['9', '5'], true⟩ ⟨['7'], false⟩).negative = true) ∧
    (true ≠ false → val ['9', '5'] < val ['7'] →
      val (BigInt.add ⟨['9', '5'], true⟩ ⟨['7'], false⟩).value = val ['7'] - val ['9', '5'] ∧
      (BigInt.add ⟨['9', '5'], true⟩ ⟨['7'], false⟩).negative = false) ∧
    (true ≠ false → val ['9', '5'] = val ['7'] →
      BigInt.add ⟨['9', '5'], true⟩ ⟨['7'], false⟩ = BigInt.zero) :=
  C3_add_denotes_sum ⟨['9', '5'], true⟩ ⟨['7'], false⟩ (by decide) (by decide)

end BigIntClaims

section BigIntClaims2

open BigInt

/-- C4: for a text made of an optional leading `-` and one or more decimal digits,
formatting the parsed BigInt gives the canonical form of the text: the digits without
leading zeros (a canonical magnitude of the same value, a suffix of the digits unless they
are all zeros), preceded by `-` iff the text began with `-` and the number is nonzero; this
is the specification's `canonicalText`, and the empty text and the lone `-` give `"0"`. -/
theorem C4_parse_format_roundtrip (sgn : Bool) (ds : List Char) (hne : ds ≠ [])
    (hd : IsDigits ds) :
    (∃ m, CanonMag m ∧ val m = val ds ∧ (m = ['0'] ∨ m <:+ ds) ∧
      (BigInt.ofString ((if sgn then ['-'] else []) ++ ds)).toString
        = (if sgn = true ∧ val ds ≠ 0 then ['-'] else []) ++ m) ∧
    (BigInt.ofString ((if sgn then ['-'] else []) ++ ds)).toString
      = canonicalText ((if sgn then ['-'] else []) ++ ds) ∧
    (BigInt.ofString []).toString = ['0'] ∧
    (BigInt.ofString ['-']).toString = ['0'] := by
  refine ⟨⟨stripLeadingZeros ds, stripLeadingZeros_canon hne hd, stripLeadingZeros_val ds, ?_, ?_⟩,
    toString_ofString _, by decide, by decide⟩
  · rw [stripLeadingZeros_eq_dropWhile hne]
    split
    · exact Or.inl rfl
    · exact Or.inr (List.dropWhile_suffix _)
  · have hz := canon_val_eq_zero (stripLeadingZeros_canon hne hd)
    rw [stripLeadingZeros_val] at hz
    rw [ofString_signed sgn hne hd]
    unfold removeLeadingZeros BigInt.toString
    by_cases h0 : stripLeadingZeros ds = ['0']
    · have hv := hz.2 h0
      simp [h0, hv]
    · have hv : ¬ (val ds = 0) := fun h => h0 (hz.1 h)
      simp only [h0, if_false, ne_eq, hv, not_false_eq_true, and_true]

/-- Witness of C4 at the text `-007`. -/
theorem C4_parse_format_roundtrip_witness :
    (∃ m, CanonMag m ∧ val m = val ['0', '0', '7'] ∧ (m = ['0'] ∨ m <:+ ['0', '0', '7']) ∧
      (BigInt.ofString ((if true then ['-'] else []) ++ ['0', '0', '7'])).toString
        = (if true = true ∧ val ['0', '0', '7'] ≠ 0 then ['-'] else []) ++ m) ∧
    (BigInt.ofString ((if true then ['-'] else []) ++ ['0', '0', '7'])).toString
      = canonicalText ((if true then ['-'] else []) ++ ['0', '0', '7']) ∧
    (BigInt.ofString []).toString = ['0'] ∧
    (BigInt.ofString ['-']).toString = ['0'] :=
  C4_parse_format_roundtrip true ['0', '0', '7'] (by decide) (by decide)

/-- C5: canonical form is invariant: the BigInt parsed from an optionally signed decimal
literal is canonical, and so is every result of `+`, binary `-`, `*`, unary `-`, `//` and
`%` on canonical operands (for a nonzero divisor `//` and `%` do return, fuel 9 being
enough, and whatever they return is canonical); a canonical BigInt has a non-empty
magnitude of decimal digits without leading zeros, is non-negative when its magnitude is
`"0"`, and never formats as `"-0"`. -/
theorem C5_canonical_invariant (a b : BigInt) (sgn : Bool) (ds : List Char) (fuel : Nat)
    (ha : a.Canonical) (hb : b.Canonical) (hne : ds ≠ []) (hd : IsDigits ds) :
    (BigInt.ofString ((if sgn then ['-'] else []) ++ ds)).Canonical ∧
    (BigInt.add a b).Canonical ∧ (BigInt.sub a b).Canonical ∧ (BigInt.mul a b).Canonical ∧
    (BigInt.neg a).Canonical ∧
    (b.value ≠ ['0'] → 9 ≤ fuel →
      ∃ q m, BigInt.div fuel a b = .ok q ∧ BigInt.mod fuel a b = .ok m) ∧
    (∀ q, BigInt.div fuel a b = .ok q → q.Canonical) ∧
    (∀ m, BigInt.mod fuel a b = .ok m → m.Canonical) ∧
    (∀ x : BigInt, x.Canonical →
      x.value ≠ [] ∧ (∀ c ∈ x.value, '0' ≤ c ∧ c ≤ '9') ∧
      (1 < x.value.length → x.value.head? ≠ some '0') ∧
      (x.value = ['0'] → x.negative = false) ∧ x.toString ≠ ['-', '0']) := by
  have hdivmod : ∀ f, b.value ≠ ['0'] → (∀ q, BigInt.div f a b = .ok q → q.Canonical) ∧
      (∀ m, BigInt.mod f a b = .ok m → m.Canonical) := by
    intro f hb0
    obtain ⟨q, m, dq, dm, cq, cm, _⟩ := divmod_spec ha hb hb0 (le_max_right f 9)
    constructor
    · intro q1 h1
      have := div_mono (le_max_left f 9) h1
      rw [dq] at this
      rw [← Res.ok.inj this]; exact cq
    · intro m1 h1
      have := mod_mono (le_max_left f 9) h1
      rw [dm] at this
      rw [← Res.ok.inj this]; exact cm
  refine ⟨?_, (add_spec ha hb).1, (sub_spec ha hb).1, (mul_spec ha hb).1, (neg_spec ha).1,
    ?_, ?_, ?_, ?_⟩
  · rw [ofString_signed sgn hne hd]
    exact removeLeadingZeros_canonical hne hd
  · intro hb0 hf
    obtain ⟨q, m, dq, dm, _⟩ := divmod_spec ha hb hb0 hf
    exact ⟨q, m, dq, dm⟩
  · by_cases hb0 : b.value = ['0']
    · intro q hq
      obtain ⟨msg, hm⟩ := (div_throw_iff fuel a b).2 hb0
      rw [hm] at hq
      exact Res.noConfusion hq
    · exact (hdivmod fuel hb0).1
  · by_cases hb0 : b.value = ['0']
    · intro q hq
      obtain ⟨msg, hm⟩ := (mod_throw_iff fuel a b).2 hb0
      rw [hm] at hq
      exact Res.noConfusion hq
    · exact (hdivmod fuel hb0).2
  · intro x hx
    refine ⟨hx.ne_nil, ?_, hx.1.2.2, hx.2, ?_⟩
    · intro c hc
      have := (isDigit_iff c).1 (hx.digits c hc)
      constructor
      · show ('0' : Char).val ≤ c.val
        exact UInt32.le_def.2 (Fin.le_def.2 this.1)
      · show c.val ≤ ('9' : Char).val
        exact UInt32.le_def.2 (Fin.le_def.2 this.2)
    · intro h
      unfold BigInt.toString at h
      cases hn : x.negative
      · rw [hn] at h
        simp only [Bool.false_eq_true, if_false, List.nil_append] at h
        have := hx.digits '-' (by rw [h]; simp)
        exact absurd this (by decide)
      · rw [hn] at h
        simp only [if_true, List.singleton_append, List.cons.injEq, true_and] at h
        have := hx.2 h
        rw [hn] at this
        exact Bool.noConfusion this

/-- Witness of C5 at `a = -12`, `b = 5`, the literal `-007`, fuel 9. -/
theorem C5_canonical_invariant_witness :
    (BigInt.ofString ((if true then ['-'] else []) ++ ['0', '0', '7'])).Canonical ∧
    (BigInt.add ⟨['1', '2'], true⟩ ⟨['5'], false⟩).Canonical ∧
    (BigInt.sub ⟨['1', '2'], true⟩ ⟨['5'], false⟩).Canonical ∧
    (BigInt.mul ⟨['1', '2'], true⟩ ⟨['5'], false⟩).Canonical ∧
    (BigInt.neg ⟨['1', '2'], true⟩).Canonical ∧
    ((['5'] : List Char) ≠ ['0'] → 9 ≤ 9 →
      ∃ q m, BigInt.div 9 ⟨['1', '2'], true⟩ ⟨['5'], false⟩ = .ok q ∧
        BigInt.mod 9 ⟨['1', '2'], true⟩ ⟨['5'], false⟩ = .ok m) ∧
    (∀ q, BigInt.div 9 ⟨['1', '2'], true⟩ ⟨['5'], false⟩ = .ok q → q.Canonical) ∧
    (∀ m, BigInt.mod 9 ⟨['1', '2'], true⟩ ⟨['5'], false⟩ = .ok m → m.Canonical) ∧
    (∀ x : BigInt, x.Canonical →
      x.value ≠ [] ∧ (∀ c ∈ x.value, '0' ≤ c ∧ c ≤ '9') ∧
      (1 < x.value.length → x.value.head? ≠ some '0') ∧
      (x.value = ['0'] → x.negative = false) ∧ x.toString ≠ ['-', '0']) :=
  C5_canonical_invariant ⟨['1', '2'], true⟩ ⟨['5'], false⟩ true ['0', '0', '7'] 9
    (by decide) (by decide) (by decide) (by decide)

end BigIntClaims2

section BigIntClaims3

open BigInt

/-- C7: for canonical `a` and `b` the six comparison operators agree with the order of the
denoted integers, and exactly one of `a < b`, `a == b`, `a > b` holds. -/
theorem C7_comparisons_agree (a b : BigInt) (ha : a.Canonical) (hb : b.Canonical) :
    (BigInt.lt a b = true ↔ a.toInt < b.toInt) ∧
    (BigInt.gt a b = true ↔ a.toInt > b.toInt) ∧
    (BigInt.le a b = true ↔ a.toInt ≤ b.toInt) ∧
    (BigInt.ge a b = true ↔ a.toInt ≥ b.toInt) ∧
    (BigInt.eq a b = true ↔ a.toInt = b.toInt) ∧
    (BigInt.ne a b = true ↔ a.toInt ≠ b.toInt) ∧
    ((BigInt.lt a b = true ∧ BigInt.eq a b = false ∧ BigInt.gt a b = false) ∨
     (BigInt.lt a b = false ∧ BigInt.eq a b = true ∧ BigInt.gt a b = false) ∨
     (BigInt.lt a b = false ∧ BigInt.eq a b = false ∧ BigInt.gt a b = true)) := by
  have hlt := lt_iff ha hb
  have hgt : BigInt.gt a b = true ↔ a.toInt > b.toInt := lt_iff hb ha
  have heq := eq_iff ha hb
  have hle : BigInt.le a b = true ↔ a.toInt ≤ b.toInt := by
    unfold BigInt.le
    rw [Bool.not_eq_true', ← Bool.not_eq_true, hgt]
    omega
  have hge : BigInt.ge a b = true ↔ a.toInt ≥ b.toInt := by
    unfold BigInt.ge
    rw [Bool.not_eq_true', ← Bool.not_eq_true, hlt]
    omega
  have hne : BigInt.ne a b = true ↔ a.toInt ≠ b.toInt := by
    unfold BigInt.ne
    rw [Bool.not_eq_true', ← Bool.not_eq_true, heq]
  refine ⟨hlt, hgt, hle, hge, heq, hne, ?_⟩
  rcases lt_trichotomy a.toInt b.toInt with h | h | h
  · refine Or.inl ⟨hlt.2 h, ?_, ?_⟩
    · rw [← Bool.not_eq_true, heq]; omega
    · rw [← Bool.not_eq_true, hgt]; omega
  · refine Or.inr (Or.inl ⟨?_, heq.2 h, ?_⟩)
    · rw [← Bool.not_eq_true, hlt]; omega
    · rw [← Bool.not_eq_true, hgt]; omega
  · refine Or.inr (Or.inr ⟨?_, ?_, hgt.2 h⟩)
    · rw [← Bool.not_eq_true, hlt]; omega
    · rw [← Bool.not_eq_true, heq]; omega

/-- Witness of C7 at `a = -10`, `b = 9`. -/
theorem C7_comparisons_agree_witness :
    (BigInt.lt ⟨['1', '0'], true⟩ ⟨['9'], false⟩ = true ↔
      BigInt.toInt ⟨['1', '0'], true⟩ < BigInt.toInt ⟨['9'], false⟩) ∧
    (BigInt.gt ⟨['1', '0'], true⟩ ⟨['9'], false⟩ = true ↔
      BigInt.toInt ⟨['1', '0'], true⟩ > BigInt.toInt ⟨['9'], false⟩) ∧
    (BigInt.le ⟨['1', '0'], true⟩ ⟨['9'], false⟩ = true ↔
      BigInt.toInt ⟨['1', '0'], true⟩ ≤ BigInt.toInt ⟨['9'], false⟩) ∧
    (BigInt.ge ⟨['1', '0'], true⟩ ⟨['9'], false⟩ = true ↔
      BigInt.toInt ⟨['1', '0'], true⟩ ≥ BigInt.toInt ⟨['9'], false⟩) ∧
    (BigInt.eq ⟨['1', '0'], true⟩ ⟨['9'], false⟩ = true ↔
      BigInt.toInt ⟨['1', '0'], true⟩ = BigInt.toInt ⟨['9'], false⟩) ∧
    (BigInt.ne ⟨['1', '0'], true⟩ ⟨['9'], false⟩ = true ↔
      BigInt.toInt ⟨['1', '0'], true⟩ ≠ BigInt.toInt ⟨['9'], false⟩) ∧
    ((BigInt.lt ⟨['1', '0'], true⟩ ⟨['9'], false⟩ = true ∧
        BigInt.eq ⟨['1', '0'], true⟩ ⟨['9'], false⟩ = false ∧
        BigInt.gt ⟨['1', '0'], true⟩ ⟨['9'], false⟩ = false) ∨
     (BigInt.lt ⟨['1', '0'], true⟩ ⟨['9'], false⟩ = false ∧
        BigInt.eq ⟨['1', '0'], true⟩ ⟨['9'], false⟩ = true ∧
        BigInt.gt ⟨['1', '0'], true⟩ ⟨['9'], false⟩ = false) ∨
     (BigInt.lt ⟨['1', '0'], true⟩ ⟨['9'], false⟩ = false ∧
        BigInt.eq ⟨['1', '0'], true⟩ ⟨['9'], false⟩ = false ∧
        BigInt.gt ⟨['1', '0'], true⟩ ⟨['9'], false⟩ = true)) :=
  C7_comparisons_agree ⟨['1', '0'], true⟩ ⟨['9'], false⟩ (by decide) (by decide)

/-- C8: on canonical values BigInt addition is commutative and associative as equality of
representations (the same magnitude string and sign flag, hence also equal under the
`==` operator). -/
theorem C8_add_comm_assoc (a b c : BigInt) (ha : a.Canonical) (hb : b.Canonical)
    (hc : c.Canonical) :
    BigInt.add a b = BigInt.add b a ∧
    BigInt.add (BigInt.add a b) c = BigInt.add a (BigInt.add b c) ∧
    BigInt.eq (BigInt.add a b) (BigInt.add b a) = true ∧
    BigInt.eq (BigInt.add (BigInt.add a b) c) (BigInt.add a (BigInt.add b c)) = true := by
  obtain ⟨ab1, ab2⟩ := add_spec ha hb
  obtain ⟨ba1, ba2⟩ := add_spec hb ha
  obtain ⟨bc1, bc2⟩ := add_spec hb hc
  obtain ⟨l1, l2⟩ := add_spec ab1 hc
  obtain ⟨r1, r2⟩ := add_spec ha bc1
  have hcomm : BigInt.add a b = BigInt.add b a :=
    canonical_inj ab1 ba1 (by rw [ab2, ba2]; ring)
  have hassoc : BigInt.add (BigInt.add a b) c = BigInt.add a (BigInt.add b c) :=
    canonical_inj l1 r1 (by rw [l2, r2, ab2, bc2]; ring)
  refine ⟨hcomm, hassoc, ?_, ?_⟩
  · rw [← hcomm]; simp [BigInt.eq]
  · rw [← hassoc]; simp [BigInt.eq]

/-- Witness of C8 at `a = -95`, `b = 7`, `c = 100`. -/
theorem C8_add_comm_assoc_witness :
    BigInt.add ⟨['9', '5'], true⟩ ⟨['7'], false⟩
      = BigInt.add ⟨['7'], false⟩ ⟨['9', '5'], true⟩ ∧
    BigInt.add (BigInt.add ⟨['9', '5'], true⟩ ⟨['7'], false⟩) ⟨['1', '0', '0'], false⟩
      = BigInt.add ⟨['9', '5'], true⟩ (BigInt.add ⟨['7'], false⟩ ⟨['1', '0', '0'], false⟩) ∧
    BigInt.eq (BigInt.add ⟨['9', '5'], true⟩ ⟨['7'], false⟩)
      (BigInt.add ⟨['7'], false⟩ ⟨['9', '5'], true⟩) = true ∧
    BigInt.eq (BigInt.add (BigInt.add ⟨['9', '5'], true⟩ ⟨['7'], false⟩) ⟨['1', '0', '0'], false⟩)
      (BigInt.add ⟨['9', '5'], true⟩ (BigInt.add ⟨['7'], false⟩ ⟨['1', '0', '0'], false⟩))
      = true :=
  C8_add_comm_assoc ⟨['9', '5'], true⟩ ⟨['7'], false⟩ ⟨['1', '0', '0'], false⟩ (by decide)
    (by decide) (by decide)

/-- C9: subtraction is addition of the negation, and `a - a` is the canonical zero
(magnitude `"0"`, non-negative) for every BigInt `a`, in particular for every canonical one,
zero and the negatives included. -/
theorem C9_sub_is_add_neg (a b : BigInt) :
    BigInt.sub a b = BigInt.add a (BigInt.neg b) ∧
    BigInt.sub a a = { value := ['0'], negative := false } ∧
    (BigInt.sub a a).Canonical :=
  ⟨rfl, sub_self a, by rw [sub_self a]; exact canonical_zero⟩

end BigIntClaims3

section DivisionByZero

open BigInt

/-- C6: integer division by zero fails and nothing else does: for canonical `a` and `b`
and whatever the fuel, each of `a // b`, `a % b`, `Value::floordiv` and `Value::operator%`
on the int values of `a` and `b` throws a runtime error iff `b` is zero, and the error is
`Division by zero`; for a nonzero `b` all four return a value (fuel 9 is enough). -/
theorem C6_division_by_zero_iff {F : Type} [HostFloat F] (a b : BigInt) (fuel : Nat)
    (ha : a.Canonical) (hb : b.Canonical) :
    ((∃ msg, BigInt.div fuel a b = .throw msg) ↔ b.toInt = 0) ∧
    ((∃ msg, BigInt.mod fuel a b = .throw msg) ↔ b.toInt = 0) ∧
    ((∃ msg, Value.floordiv fuel (Value.int a : Value F) (Value.int b) = .throw msg)
      ↔ b.toInt = 0) ∧
    ((∃ msg, Value.mod fuel (Value.int a : Value F) (Value.int b) = .throw msg)
      ↔ b.toInt = 0) ∧
    (b.toInt = 0 →
      BigInt.div fuel a b = .throw "Division by zero" ∧
      BigInt.mod fuel a b = .throw "Division by zero" ∧
      Value.floordiv fuel (Value.int a : Value F) (Value.int b) = .throw "Division by zero" ∧
      Value.mod fuel (Value.int a : Value F) (Value.int b) = .throw "Division by zero") ∧
    (b.toInt ≠ 0 → 9 ≤ fuel →
      ∃ q m, BigInt.div fuel a b = .ok q ∧ BigInt.mod fuel a b = .ok m ∧
        Value.floordiv fuel (Value.int a : Value F) (Value.int b) = .ok (Value.int q) ∧
        Value.mod fuel (Value.int a : Value F) (Value.int b) = .ok (Value.int m)) := by
  have hz := hb.value_zero_iff
  have hfd : ∀ r : Res BigInt, (∃ msg, (r.bind fun q => (.ok (Value.int q) : Res (Value F)))
      = .throw msg) ↔ ∃ msg, r = .throw msg := by
    intro r; cases r <;> simp [Res.bind]
  refine ⟨by rw [div_throw_iff, hz], by rw [mod_throw_iff, hz], ?_, ?_, ?_, ?_⟩
  · show (∃ msg, ((BigInt.div fuel a b).bind fun r => .ok (Value.int r)) = .throw msg) ↔ _
    rw [hfd, div_throw_iff, hz]
  · show (∃ msg, ((BigInt.mod fuel a b).bind fun r => .ok (Value.int r)) = .throw msg) ↔ _
    rw [hfd, mod_throw_iff, hz]
  · intro h0
    have hv := hz.2 h0
    have hd : BigInt.div fuel a b = .throw "Division by zero" := by
      simp [BigInt.div, absDiv, hv, Res.bind]
    have hm : BigInt.mod fuel a b = .throw "Division by zero" := by
      simp [BigInt.mod, absDiv, hv, Res.bind]
    refine ⟨hd, hm, ?_, ?_⟩
    · show ((BigInt.div fuel a b).bind fun r => .ok (Value.int r)) = _
      rw [hd]; rfl
    · show ((BigInt.mod fuel a b).bind fun r => .ok (Value.int r)) = _
      rw [hm]; rfl
  · intro h0 hf
    have hv : b.value ≠ ['0'] := fun h => h0 (hz.1 h)
    obtain ⟨q, m, dq, dm, _⟩ := divmod_spec ha hb hv hf
    refine ⟨q, m, dq, dm, ?_, ?_⟩
    · show ((BigInt.div fuel a b).bind fun r => .ok (Value.int r)) = _
      rw [dq]; rfl
    · show ((BigInt.mod fuel a b).bind fun r => .ok (Value.int r)) = _
      rw [dm]; rfl

/-- Witness of C6 at `a = 7`, `b = 0`, fuel 9. -/
theorem C6_division_by_zero_iff_witness :
    ((∃ msg, BigInt.div 9 ⟨['7'], false⟩ ⟨['0'], false⟩ = .throw msg)
      ↔ BigInt.toInt ⟨['0'], false⟩ = 0) ∧
    ((∃ msg, BigInt.mod 9 ⟨['7'], false⟩ ⟨['0'], false⟩ = .throw msg)
      ↔ BigInt.toInt ⟨['0'], false⟩ = 0) ∧
    ((∃ msg, Value.floordiv 9 (Value.int ⟨['7'], false⟩ : Value NoFloat)
        (Value.int ⟨['0'], false⟩) = .throw msg) ↔ BigInt.toInt ⟨['0'], false⟩ = 0) ∧
    ((∃ msg, Value.mod 9 (Value.int ⟨['7'], false⟩ : Value NoFloat)
        (Value.int ⟨['0'], false⟩) = .throw msg) ↔ BigInt.toInt ⟨['0'], false⟩ = 0) ∧
    (BigInt.toInt ⟨['0'], false⟩ = 0 →
      BigInt.div 9 ⟨['7'], false⟩ ⟨['0'], false⟩ = .throw "Division by zero" ∧
      BigInt.mod 9 ⟨['7'], false⟩ ⟨['0'], false⟩ = .throw "Division by zero" ∧
      Value.floordiv 9 (Value.int ⟨['7'], false⟩ : Value NoFloat) (Value.int ⟨['0'], false⟩)
        = .throw "Division by zero" ∧
      Value.mod 9 (Value.int ⟨['7'], false⟩ : Value NoFloat) (Value.int ⟨['0'], false⟩)
        = .throw "Division by zero") ∧
    (BigInt.toInt ⟨['0'], false⟩ ≠ 0 → 9 ≤ 9 →
      ∃ q m, BigInt.div 9 ⟨['7'], false⟩ ⟨['0'], false⟩ = .ok q ∧
        BigInt.mod 9 ⟨['7'], false⟩ ⟨['0'], false⟩ = .ok m ∧
        Value.floordiv 9 (Value.int ⟨['7'], false⟩ : Value NoFloat) (Value.int ⟨['0'], false⟩)
          = .ok (Value.int q) ∧
        Value.mod 9 (Value.int ⟨['7'], false⟩ : Value NoFloat) (Value.int ⟨['0'], false⟩)
          = .ok (Value.int m)) :=
  C6_division_by_zero_iff ⟨['7'], false⟩ ⟨['0'], false⟩ 9 (by decide) (by decide)

end DivisionByZero

theorem bindParameters_spec {F : Type} (passedArgs defaults : List (String × Value F)) :
    ∀ (params : List String) (top : List (String × Value F))
      (below : List (List (String × Value F))) (fns : List (String × FunctionDef F))
      (out : List Char),
    ∃ scope, bindParameters passedArgs defaults params
        { scopes := top :: below, functions := fns, output := out }
        = { scopes := scope :: below, functions := fns, output := out } ∧
      ∀ q, mapFind scope q
        = if q ∈ params then
            some (match mapFind passedArgs q with
              | some a => a
              | none => specDefault defaults q)
          else mapFind top q := by
  intro params
  induction params with
  | nil =>
    intro top below fns out
    exact ⟨top, rfl, fun q => by simp⟩
  | cons param rest ih =>
    intro top below fns out
    obtain ⟨scope, h1, h2⟩ := ih (mapSet top param
      (match mapFind passedArgs param with
        | some a => a
        | none => specDefault defaults param)) below fns out
    refine ⟨scope, ?_, ?_⟩
    · rw [← h1]
      simp only [bindParameters, EvalVisitor.setVariable, specDefault]
    · intro q
      rw [h2 q, mapFind_mapSet]
      by_cases hq : q ∈ rest
      · simp [hq]
      · by_cases hp : param = q
        · subst hp; simp
        · simp [hq, hp, Ne.symm hp]

section CallClaim

/-- C10: in a call of a user function whose arguments evaluate (in order, in the freshly
pushed scope) leaving the scope stack and the function table as they were, the body runs
in one fresh scope in which the k-th positional argument is bound to the k-th parameter,
every keyword argument is bound to the parameter it names, every parameter left unbound is
bound to its default if it has one and to `None` otherwise, and nothing else is bound; the
result of the call is the value of a return signal of the body, else `None`.  With
`def f(x, y=3): return x + y` the calls `f(1)`, `f(1, 2)` and `f(y=10, x=5)` give `4`, `3`
and `15`. -/
theorem C10_call_binding {F : Type} [HostFloat F] (st stN : EvalVisitor F) (funcName : String)
    (func : FunctionDef F) (args : List Argument) (vals : List (Value F)) (fuel : Nat)
    (hname : funcName ∉ ["print", "int", "float", "str", "bool"])
    (hfunc : mapFind st.functions funcName = some func)
    (hargs : ArgsEvaluateTo fuel st.pushScope args vals stN)
    (hscopes : stN.scopes = [] :: st.scopes)
    (hcount : positionalCount args ≤ func.params.length)
    (hnodup : ((specBindings func.params args vals 0).map Prod.fst).Nodup) :
    (∃ scope : List (String × Value F),
      visitAtomExpr (fuel + 1) (.mk (.name funcName) (some (.mk (some args)))) st
        = finishCall (visitSuite fuel func.suite
            { scopes := scope :: st.scopes, functions := st.functions, output := stN.output }) ∧
      (∀ p v, (p, v) ∈ specBindings func.params args vals 0 → p ∈ func.params →
        mapFind scope p = some v) ∧
      (∀ p, p ∈ func.params → p ∉ (specBindings func.params args vals 0).map Prod.fst →
        mapFind scope p = some (specDefault func.defaults p)) ∧
      (∀ q, q ∉ func.params → mapFind scope q = none)) ∧
    ((stateAfter 40 [progDefF] : Option (EvalVisitor NoFloat)).bind
        (fun s => shownResult (visitTest 40 callF1 s)) = some ['4'] ∧
     (stateAfter 40 [progDefF] : Option (EvalVisitor NoFloat)).bind
        (fun s => shownResult (visitTest 40 callF12 s)) = some ['3'] ∧
     (stateAfter 40 [progDefF] : Option (EvalVisitor NoFloat)).bind
        (fun s => shownResult (visitTest 40 callFkw s)) = some ['1', '5']) := by
  refine ⟨?_, by decide, by decide, by decide⟩
  obtain ⟨hargs1, hfns⟩ := visitCallArgs_spec funcName func args vals fuel 0 [] st.pushScope stN
    hfunc hargs (by omega)
  obtain ⟨scope, hb1, hb2⟩ := bindParameters_spec
    ((specBindings func.params args vals 0).foldl (fun acc b => mapSet acc b.1 b.2) [])
    func.defaults func.params [] st.scopes st.functions stN.output
  obtain ⟨hf1, hf2⟩ := mapFind_foldl_mapSet (specBindings func.params args vals 0) [] hnodup
  simp only [List.mem_cons, List.mem_singleton, List.not_mem_nil, or_false, not_or] at hname
  obtain ⟨n1, n2, n3, n4, n5⟩ := hname
  have hstN : stN = ⟨[] :: st.scopes, st.functions, stN.output⟩ := by
    cases stN with
    | mk sc fn out =>
      simp only at hscopes hfns
      have hfns1 : fn = st.functions := hfns
      rw [hscopes, hfns1]
  refine ⟨scope, ?_, ?_, ?_, ?_⟩
  · have hsome : (mapFind st.functions funcName).isSome = true := by rw [hfunc]; rfl
    have hfunc1 : mapFind stN.functions funcName = some func := by rw [hfns]; exact hfunc
    rw [visitAtomExpr]
    simp only [n1, n2, n3, n4, n5, if_false, hsome, if_true, hargs1, Exec.bind, hfunc1]
    rw [← hb1, ← hstN]
  · intro p v hpv hp
    rw [hb2 p]
    simp only [hp, if_true, hf1 p v hpv]
  · intro p hp hnot
    rw [hb2 p]
    have : mapFind ((specBindings func.params args vals 0).foldl
        (fun acc b => mapSet acc b.1 b.2) []) p = none := by
      rw [hf2 p hnot]; rfl
    simp only [hp, if_true, this]
  · intro q hq
    rw [hb2 q]
    simp only [hq, if_false]
    rfl

/-- Witness of C10 at the call `f(1, y=10)` in the state where `f` is
`def f(x, y=3): return x + y`. -/
theorem C10_call_binding_witness :
    (∃ scope : List (String × Value NoFloat),
      visitAtomExpr (20 + 1) (.mk (.name "f") (some (.mk (some argsOneAndY)))) stateWithF
        = finishCall (visitSuite 20 funcF.suite
            { scopes := scope :: stateWithF.scopes, functions := stateWithF.functions,
              output := stateWithF.pushScope.output }) ∧
      (∀ p v, (p, v) ∈ specBindings funcF.params argsOneAndY valsOneAndY 0 → p ∈ funcF.params →
        mapFind scope p = some v) ∧
      (∀ p, p ∈ funcF.params →
        p ∉ (specBindings funcF.params argsOneAndY valsOneAndY 0).map Prod.fst →
        mapFind scope p = some (specDefault funcF.defaults p)) ∧
      (∀ q, q ∉ funcF.params → mapFind scope q = none)) ∧
    ((stateAfter 40 [progDefF] : Option (EvalVisitor NoFloat)).bind
        (fun s => shownResult (visitTest 40 callF1 s)) = some ['4'] ∧
     (stateAfter 40 [progDefF] : Option (EvalVisitor NoFloat)).bind
        (fun s => shownResult (visitTest 40 callF12 s)) = some ['3'] ∧
     (stateAfter 40 [progDefF] : Option (EvalVisitor NoFloat)).bind
        (fun s => shownResult (visitTest 40 callFkw s)) = some ['1', '5']) :=
  C10_call_binding stateWithF stateWithF.pushScope "f" funcF argsOneAndY valsOneAndY 20
    (by decide) rfl ⟨_, rfl, rfl, _, rfl, rfl, rfl⟩ rfl (by decide) (by decide)

end CallClaim

section ScopeClaims

/-- C13: lookup of a name scans the scope stack from the innermost scope to the global
scope and returns the value bound in the first scope that holds the name; a name bound in
no scope yields `None`, and visiting a name never fails: it returns the looked-up value and
leaves the state as it is. -/
theorem C13_lookup_first_match {F : Type} [HostFloat F] (st : EvalVisitor F) (name : String) :
    (∀ pre scope post v, st.scopes = pre ++ scope :: post →
      (∀ s ∈ pre, mapFind s name = none) → mapFind scope name = some v →
      st.getVariable name = v) ∧
    ((∀ s ∈ st.scopes, mapFind s name = none) → st.getVariable name = Value.none) ∧
    (∀ fuel, visitAtom (fuel + 1) (.name name) st = .ok (st.getVariable name) st) := by
  refine ⟨?_, ?_, fun fuel => rfl⟩
  · intro pre scope post v hsc hpre hv
    unfold EvalVisitor.getVariable
    rw [hsc]
    exact EvalVisitor.lookupScopes_first name v pre scope post hpre hv
  · intro h
    exact EvalVisitor.lookupScopes_none name st.scopes h

/-- Witness of C13: the name `x`, bound to 2 in the second of three scopes and to 1 in the
global scope. -/
theorem C13_lookup_first_match_witness :
    (EvalVisitor.getVariable
      ({ scopes := [[("y", intValue "7")], [("x", intValue "2")], [("x", intValue "1")]],
         functions := [], output := [] } : EvalVisitor NoFloat) "x") = intValue "2" :=
  (C13_lookup_first_match
    ({ scopes := [[("y", intValue "7")], [("x", intValue "2")], [("x", intValue "1")]],
       functions := [], output := [] } : EvalVisitor NoFloat) "x").1
    [[("y", intValue "7")]] [("x", intValue "2")] [[("x", intValue "1")]] (intValue "2")
    rfl (by decide) (by decide)

/-- C14: an assignment `name = expr` writes only to the top (innermost) scope of the state
in which `expr` has been evaluated, creating the binding if absent: the new top scope binds
the name to the value, lookup of the name returns it, every other binding of the top scope
and every scope below are unchanged, and so are the function table and the output; in
particular the global scope below a function's scope is not rebound. -/
theorem C14_assignment_top_scope {F : Type} [HostFloat F] (fuel : Nat)
    (st st1 : EvalVisitor F) (lhs rhs : Testlist) (name : String) (v : Value F)
    (top : List (String × Value F)) (below : List (List (String × Value F)))
    (hlhs : testlistTarget lhs = name) (hname : name ≠ "")
    (hrhs : visitTestlist fuel rhs st = .ok v st1) (hsc : st1.scopes = top :: below) :
    visitStmt (fuel + 1) (.exprStmt lhs [rhs] none) st
      = .ok () { scopes := mapSet top name v :: below, functions := st1.functions,
                 output := st1.output } ∧
    mapFind (mapSet top name v) name = some v ∧
    EvalVisitor.getVariable
      ({ scopes := mapSet top name v :: below, functions := st1.functions,
         output := st1.output } : EvalVisitor F) name = v ∧
    (∀ other, other ≠ name → mapFind (mapSet top name v) other = mapFind top other) ∧
    (∀ other, other ≠ name →
      EvalVisitor.getVariable
        ({ scopes := mapSet top name v :: below, functions := st1.functions,
           output := st1.output } : EvalVisitor F) other = st1.getVariable other) ∧
    scopesOf (visitFileInput 40 progShadow (EvalVisitor.init : EvalVisitor NoFloat))
      = some [[("x", intValue "1"), ("r", intValue "2")]] := by
  have hfind : mapFind (mapSet top name v) name = some v := by
    rw [mapFind_mapSet]; simp
  have hother : ∀ other, other ≠ name →
      mapFind (mapSet top name v) other = mapFind top other := by
    intro other ho
    rw [mapFind_mapSet]
    simp [Ne.symm ho]
  refine ⟨?_, hfind, ?_, hother, ?_, by decide⟩
  · rw [visitStmt]
    simp only [List.getLast_singleton, List.dropLast_single, List.reverse_cons,
      List.reverse_nil, List.nil_append, hrhs, Exec.bind, assignTargets, hlhs, hname,
      ne_eq, not_false_eq_true, if_true]
    rw [EvalVisitor.setVariable_scopes st1 name v top below hsc]
  · simp [EvalVisitor.getVariable, EvalVisitor.lookupScopes, hfind]
  · intro other ho
    simp only [EvalVisitor.getVariable, EvalVisitor.lookupScopes, hother other ho, hsc]

/-- Witness of C14: `x = 2` executed in a function scope above a global scope binding `x`. -/
theorem C14_assignment_top_scope_witness :
    visitStmt (20 + 1)
        (.exprStmt (Testlist.single (Test.name "x")) [Testlist.single (Test.number "2")] none)
        stateInCall
      = .ok () { scopes := mapSet [] "x" (intValue "2") :: [[("x", intValue "1")]],
                 functions := stateInCall.functions, output := stateInCall.output } ∧
    mapFind (mapSet ([] : List (String × Value NoFloat)) "x" (intValue "2")) "x"
      = some (intValue "2") ∧
    EvalVisitor.getVariable
      ({ scopes := mapSet [] "x" (intValue "2") :: [[("x", intValue "1")]],
         functions := stateInCall.functions, output := stateInCall.output }
        : EvalVisitor NoFloat) "x" = intValue "2" ∧
    (∀ other, other ≠ "x" →
      mapFind (mapSet ([] : List (String × Value NoFloat)) "x" (intValue "2")) other
        = mapFind [] other) ∧
    (∀ other, other ≠ "x" →
      EvalVisitor.getVariable
        ({ scopes := mapSet [] "x" (intValue "2") :: [[("x", intValue "1")]],
           functions := stateInCall.functions, output := stateInCall.output }
          : EvalVisitor NoFloat) other = stateInCall.getVariable other) ∧
    scopesOf (visitFileInput 40 progShadow (EvalVisitor.init : EvalVisitor NoFloat))
      = some [[("x", intValue "1"), ("r", intValue "2")]] :=
  C14_assignment_top_scope 20 stateInCall stateInCall (Testlist.single (Test.name "x"))
    (Testlist.single (Test.number "2")) "x" (intValue "2") [] [[("x", intValue "1")]]
    rfl (by decide) rfl rfl

/-- C15: the scope stack is never empty: construction leaves the global scope alone on the
stack, `pushScope` puts one empty scope on top, `popScope` removes the top iff the stack
holds more than one scope, and so after any sequence of push, pop, assignment and lookup
the stack is non-empty and still ends with a global scope (which only an assignment made
while it is the single scope can alter). -/
theorem C15_scope_stack_nonempty {F : Type} (ops : List (ScopeOp F)) (st : EvalVisitor F)
    (hst : st.scopes ≠ []) :
    (EvalVisitor.init : EvalVisitor F).scopes = [[]] ∧
    st.pushScope.scopes = [] :: st.scopes ∧
    (1 < st.scopes.length → st.popScope.scopes = st.scopes.tail) ∧
    (¬ 1 < st.scopes.length → st.popScope.scopes = st.scopes) ∧
    (applyOps (EvalVisitor.init : EvalVisitor F) ops).scopes ≠ [] ∧
    (applyOps st ops).scopes ≠ [] ∧
    (∀ op : ScopeOp F, (applyOp st op).scopes ≠ [] ∧
      (1 < st.scopes.length → (applyOp st op).scopes.getLast? = st.scopes.getLast?) ∧
      ((∀ name val, op ≠ .assign name val) →
        (applyOp st op).scopes.getLast? = st.scopes.getLast?)) := by
  refine ⟨rfl, rfl, (EvalVisitor.popScope_scopes st).1, (EvalVisitor.popScope_scopes st).2,
    applyOps_ne_nil ops _ (by simp [EvalVisitor.init]), applyOps_ne_nil ops st hst, ?_⟩
  intro op
  refine ⟨applyOp_ne_nil st op hst, ?_, ?_⟩
  · intro hlen
    obtain ⟨top, below, hsc⟩ : ∃ top below, st.scopes = top :: below := by
      cases h : st.scopes with
      | nil => exact absurd h hst
      | cons a b => exact ⟨a, b, rfl⟩
    obtain ⟨c, d, hb⟩ : ∃ c d, below = c :: d := by
      cases below with
      | nil => rw [hsc] at hlen; simp at hlen
      | cons c d => exact ⟨c, d, rfl⟩
    subst hb
    cases op with
    | push => simp [applyOp, EvalVisitor.pushScope, hsc]
    | pop =>
      have hl2 : (top :: c :: d).length > 1 := by simp
      simp only [applyOp, EvalVisitor.popScope, hsc, hl2, if_true, List.tail_cons,
        List.getLast?_cons_cons]
    | assign name val =>
      simp only [applyOp]
      rw [EvalVisitor.setVariable_scopes st name val top (c :: d) hsc, hsc]
      simp only [List.getLast?_cons_cons]
    | lookup name => rfl
  · intro hop
    cases op with
    | push =>
      simp only [applyOp, EvalVisitor.pushScope]
      cases h : st.scopes with
      | nil => exact absurd h hst
      | cons a b => simp
    | pop =>
      simp only [applyOp, EvalVisitor.popScope]
      split
      · next hl =>
        cases h : st.scopes with
        | nil => exact absurd h hst
        | cons a b =>
          cases b with
          | nil => rw [h] at hl; simp at hl
          | cons c d => simp
      · rfl
    | assign name val => exact absurd rfl (hop name val)
    | lookup name => rfl

/-- Witness of C15: push, assign, then three pops from the initial state. -/
theorem C15_scope_stack_nonempty_witness :
    (EvalVisitor.init : EvalVisitor NoFloat).scopes = [[]] ∧
    (EvalVisitor.init : EvalVisitor NoFloat).pushScope.scopes
      = [] :: (EvalVisitor.init : EvalVisitor NoFloat).scopes ∧
    (1 < (EvalVisitor.init : EvalVisitor NoFloat).scopes.length →
      (EvalVisitor.init : EvalVisitor NoFloat).popScope.scopes
        = (EvalVisitor.init : EvalVisitor NoFloat).scopes.tail) ∧
    (¬ 1 < (EvalVisitor.init : EvalVisitor NoFloat).scopes.length →
      (EvalVisitor.init : EvalVisitor NoFloat).popScope.scopes
        = (EvalVisitor.init : EvalVisitor NoFloat).scopes) ∧
    (applyOps (EvalVisitor.init : EvalVisitor NoFloat)
      [.push, .assign "a" (intValue "1"), .pop, .pop, .pop]).scopes ≠ [] ∧
    (applyOps (EvalVisitor.init : EvalVisitor NoFloat)
      [.push, .assign "a" (intValue "1"), .pop, .pop, .pop]).scopes ≠ [] ∧
    (∀ op : ScopeOp NoFloat, (applyOp (EvalVisitor.init : EvalVisitor NoFloat) op).scopes ≠ [] ∧
      (1 < (EvalVisitor.init : EvalVisitor NoFloat).scopes.length →
        (applyOp (EvalVisitor.init : EvalVisitor NoFloat) op).scopes.getLast?
          = (EvalVisitor.init : EvalVisitor NoFloat).scopes.getLast?) ∧
      ((∀ name val, op ≠ .assign name val) →
        (applyOp (EvalVisitor.init : EvalVisitor NoFloat) op).scopes.getLast?
          = (EvalVisitor.init : EvalVisitor NoFloat).scopes.getLast?)) :=
  C15_scope_stack_nonempty [.push, .assign "a" (intValue "1"), .pop, .pop, .pop]
    (EvalVisitor.init : EvalVisitor NoFloat) (by decide)

/-- Counterexample to C16 as stated: `x += 1` executed in an empty function scope above a
global scope that binds `x` to 1 creates `x = 2` in the function scope and leaves the
global binding at 1, whereas a write to the innermost scope holding `x` would give the
stack `[[], [x = 2]]`; run as a program, `x = 1; def f(): x += 1; return x; r = f()` ends
with the global `x` still 1. -/
theorem C16_counterexample :
    scopesOf (visitStmt 21 (Stmt.augAssign "x" "+=" (Test.number "1")) stateInCall)
      = some [[("x", intValue "2")], [("x", intValue "1")]] ∧
    specWriteHolding stateInCall.scopes "x" (intValue "2") = [[], [("x", intValue "2")]] ∧
    scopesOf (visitStmt 21 (Stmt.augAssign "x" "+=" (Test.number "1")) stateInCall)
      ≠ some (specWriteHolding stateInCall.scopes "x" (intValue "2")) ∧
    scopesOf (visitFileInput 40 progAugShadow (EvalVisitor.init : EvalVisitor NoFloat))
      = some [[("x", intValue "1"), ("r", intValue "2")]] := by
  refine ⟨by decide, by decide, by decide, by decide⟩

/-- C16 (amended): an augmented assignment `x op= expr` with a plain-name target looks `x`
up first, evaluates `expr`, computes `new = old op value` with the binary operator of `op`
(`+`, `-`, `*`, `/`, `//`, `%`) and writes `new` to the top (innermost) scope of the state
reached, creating the binding there even when an outer scope holds `x`; every other
binding of the top scope, every scope below, the function table and the output are
unchanged. -/
theorem C16_augassign_top_scope {F : Type} [HostFloat F] (fuel : Nat)
    (st st1 : EvalVisitor F) (lhs rhs : Testlist) (op name : String) (v newVal : Value F)
    (top : List (String × Value F)) (below : List (List (String × Value F)))
    (hlhs : testlistTarget lhs = name) (hname : name ≠ "")
    (hrhs : visitTestlist fuel rhs st = .ok v st1)
    (hop : augOp fuel op (st.getVariable name) v = .ok newVal)
    (hsc : st1.scopes = top :: below) :
    visitStmt (fuel + 1) (.exprStmt lhs [rhs] (some op)) st
      = .ok () { scopes := mapSet top name newVal :: below, functions := st1.functions,
                 output := st1.output } ∧
    mapFind (mapSet top name newVal) name = some newVal ∧
    (∀ other, other ≠ name → mapFind (mapSet top name newVal) other = mapFind top other) ∧
    (∀ a b : Value F,
      augOp fuel "+=" a b = .ok (a.add b) ∧ augOp fuel "-=" a b = .ok (a.sub b) ∧
      augOp fuel "*=" a b = .ok (a.mul b) ∧ augOp fuel "/=" a b = .ok (a.div b) ∧
      augOp fuel "//=" a b = a.floordiv fuel b ∧ augOp fuel "%=" a b = a.mod fuel b) := by
  refine ⟨?_, ?_, ?_, ?_⟩
  · rw [visitStmt]
    simp only [hlhs, hname, ne_eq, not_false_eq_true, if_true, hrhs, Exec.bind, hop,
      Exec.ofRes]
    rw [EvalVisitor.setVariable_scopes st1 name newVal top below hsc]
  · rw [mapFind_mapSet]; simp
  · intro other ho
    rw [mapFind_mapSet]
    simp [Ne.symm ho]
  · intro a b
    refine ⟨rfl, rfl, rfl, rfl, rfl, rfl⟩

/-- Witness of C16 (amended): `x += 1` in an empty function scope above the global `x = 1`. -/
theorem C16_augassign_top_scope_witness :
    visitStmt (20 + 1)
        (.exprStmt (Testlist.single (Test.name "x")) [Testlist.single (Test.number "1")]
          (some "+=")) stateInCall
      = .ok () { scopes := mapSet [] "x" (intValue "2") :: [[("x", intValue "1")]],
                 functions := stateInCall.functions, output := stateInCall.output } ∧
    mapFind (mapSet ([] : List (String × Value NoFloat)) "x" (intValue "2")) "x"
      = some (intValue "2") ∧
    (∀ other, other ≠ "x" →
      mapFind (mapSet ([] : List (String × Value NoFloat)) "x" (intValue "2")) other
        = mapFind [] other) ∧
    (∀ a b : Value NoFloat,
      augOp 20 "+=" a b = .ok (a.add b) ∧ augOp 20 "-=" a b = .ok (a.sub b) ∧
      augOp 20 "*=" a b = .ok (a.mul b) ∧ augOp 20 "/=" a b = .ok (a.div b) ∧
      augOp 20 "//=" a b = a.floordiv 20 b ∧ augOp 20 "%=" a b = a.mod 20 b) :=
  C16_augassign_top_scope 20 stateInCall stateInCall (Testlist.single (Test.name "x"))
    (Testlist.single (Test.number "1")) "+=" "x" (intValue "1") (intValue "2") []
    [[("x", intValue "1")]] rfl (by decide) rfl (by decide) rfl

end ScopeClaims

/-! ## Short-circuit operators -/

theorem visitOrRest_trace {F : Type} [HostFloat F] (t : AndTest) (post : List AndTest)
    (v : Value F) (stN : EvalVisitor F) (hlast : v.toBool = true ∨ post = []) :
    ∀ (pre : List AndTest) (pvals : List (Value F)) (g : Nat) (st stk : EvalVisitor F)
      (result : Value F),
    result.toBool = false → OperandsEvaluateTo visitAndTest g st pre pvals stk →
    (∀ u ∈ pvals, u.toBool = false) → visitAndTest (g - pre.length) t stk = .ok v stN →
    visitOrRest (g + 1) (pre ++ t :: post) result st = .ok v stN := by
  intro pre
  induction pre with
  | nil =>
    intro pvals g st stk result hres hpre _ ht
    cases pvals with
    | cons u us => cases g <;> simp [OperandsEvaluateTo] at hpre
    | nil =>
      have hst : stk = st := by cases g <;> simpa [OperandsEvaluateTo] using hpre
      subst hst
      simp only [List.length_nil, Nat.sub_zero] at ht
      obtain ⟨g1, rfl⟩ : ∃ g1, g = g1 + 1 := by
        cases g with
        | zero => simp [visitAndTest] at ht
        | succ g1 => exact ⟨g1, rfl⟩
      simp only [List.nil_append, visitOrRest, hres, Bool.false_eq_true, if_false, ht, Exec.bind]
      rcases hlast with h | h
      · cases post with
        | nil => simp [visitOrRest]
        | cons p ps => simp [visitOrRest, h]
      · subst h; simp [visitOrRest]
  | cons x xs ih =>
    intro pvals g st stk result hres hpre hfalsy ht
    cases pvals with
    | nil => cases g <;> simp [OperandsEvaluateTo] at hpre
    | cons u us =>
      cases g with
      | zero => simp [OperandsEvaluateTo] at hpre
      | succ g1 =>
        simp only [OperandsEvaluateTo] at hpre
        obtain ⟨st1, h1, h2⟩ := hpre
        simp only [List.cons_append, visitOrRest, hres, Bool.false_eq_true, if_false, h1,
          Exec.bind]
        apply ih us g1 st1 stk u (hfalsy u (List.mem_cons_self _ _)) h2
          (fun w hw => hfalsy w (List.mem_cons_of_mem _ hw))
        simpa using ht

theorem visitAndRest_trace {F : Type} [HostFloat F] (t : NotTest) (post : List NotTest)
    (v : Value F) (stN : EvalVisitor F) (hlast : v.toBool = false ∨ post = []) :
    ∀ (pre : List NotTest) (pvals : List (Value F)) (g : Nat) (st stk : EvalVisitor F)
      (result : Value F),
    result.toBool = true → OperandsEvaluateTo visitNotTest g st pre pvals stk →
    (∀ u ∈ pvals, u.toBool = true) → visitNotTest (g - pre.length) t stk = .ok v stN →
    visitAndRest (g + 1) (pre ++ t :: post) result st = .ok v stN := by
  intro pre
  induction pre with
  | nil =>
    intro pvals g st stk result hres hpre _ ht
    cases pvals with
    | cons u us => cases g <;> simp [OperandsEvaluateTo] at hpre
    | nil =>
      have hst : stk = st := by cases g <;> simpa [OperandsEvaluateTo] using hpre
      subst hst
      simp only [List.length_nil, Nat.sub_zero] at ht
      obtain ⟨g1, rfl⟩ : ∃ g1, g = g1 + 1 := by
        cases g with
        | zero => simp [visitNotTest] at ht
        | succ g1 => exact ⟨g1, rfl⟩
      simp only [List.nil_append, visitAndRest, hres, Bool.not_true, Bool.false_eq_true,
        if_false, ht, Exec.bind]
      rcases hlast with h | h
      · cases post with
        | nil => simp [visitAndRest]
        | cons p ps => simp [visitAndRest, h]
      · subst h; simp [visitAndRest]
  | cons x xs ih =>
    intro pvals g st stk result hres hpre htruthy ht
    cases pvals with
    | nil => cases g <;> simp [OperandsEvaluateTo] at hpre
    | cons u us =>
      cases g with
      | zero => simp [OperandsEvaluateTo] at hpre
      | succ g1 =>
        simp only [OperandsEvaluateTo] at hpre
        obtain ⟨st1, h1, h2⟩ := hpre
        simp only [List.cons_append, visitAndRest, hres, Bool.not_true, Bool.false_eq_true,
          if_false, h1, Exec.bind]
        apply ih us g1 st1 stk u (htruthy u (List.mem_cons_self _ _)) h2
          (fun w hw => htruthy w (List.mem_cons_of_mem _ hw))
        simpa using ht

section ShortCircuitClaims

/-- C17: an or-expression visits its operands left to right: when the operands before `t`
evaluate to falsy values and `t` evaluates to `v`, where `v` is truthy or `t` is the last
operand, the expression returns `v` itself (not coerced to bool) in the state reached after
`t`, whatever the operands after `t` are: they are not visited.  With `f`, `g`, `z`
printing and returning 1, 2, 0, `f() or g()` is 1 and prints only `1`, and `z() or g()` is
2 after printing `0` and `2`. -/
theorem C17_or_short_circuit {F : Type} [HostFloat F] (fuel : Nat)
    (st stk stN : EvalVisitor F) (first : AndTest) (rest pre : List AndTest) (t : AndTest)
    (post : List AndTest) (pvals : List (Value F)) (v : Value F)
    (hops : first :: rest = pre ++ t :: post)
    (hpre : OperandsEvaluateTo visitAndTest fuel st pre pvals stk)
    (hfalsy : ∀ u ∈ pvals, u.toBool = false)
    (ht : visitAndTest (fuel - pre.length) t stk = .ok v stN)
    (hlast : v.toBool = true ∨ post = []) :
    visitOrTest (fuel + 1) (.mk first rest) st = .ok v stN ∧
    valueAndOutput 40 progPrinters testFOrG = some (intValue "1", ['1', '\n']) ∧
    valueAndOutput 40 progPrinters testZOrG = some (intValue "2", ['0', '\n', '2', '\n']) := by
  refine ⟨?_, by decide, by decide⟩
  cases pre with
  | nil =>
    cases pvals with
    | cons u us => cases fuel <;> simp [OperandsEvaluateTo] at hpre
    | nil =>
      have hst : stk = st := by cases fuel <;> simpa [OperandsEvaluateTo] using hpre
      subst hst
      simp only [List.nil_append, List.cons.injEq] at hops
      obtain ⟨rfl, rfl⟩ := hops
      simp only [List.length_nil, Nat.sub_zero] at ht
      obtain ⟨g1, rfl⟩ : ∃ g1, fuel = g1 + 1 := by
        cases fuel with
        | zero => simp [visitAndTest] at ht
        | succ g1 => exact ⟨g1, rfl⟩
      simp only [visitOrTest, ht, Exec.bind]
      rcases hlast with h | h
      · cases rest with
        | nil => simp [visitOrRest]
        | cons p ps => simp [visitOrRest, h]
      · subst h; simp [visitOrRest]
  | cons x xs =>
    simp only [List.cons_append, List.cons.injEq] at hops
    obtain ⟨rfl, rfl⟩ := hops
    cases pvals with
    | nil => cases fuel <;> simp [OperandsEvaluateTo] at hpre
    | cons u us =>
      cases fuel with
      | zero => simp [OperandsEvaluateTo] at hpre
      | succ g1 =>
        simp only [OperandsEvaluateTo] at hpre
        obtain ⟨st1, h1, h2⟩ := hpre
        simp only [visitOrTest, h1, Exec.bind]
        apply visitOrRest_trace t post v stN hlast xs us g1 st1 stk u
          (hfalsy u (List.mem_cons_self _ _)) h2
          (fun w hw => hfalsy w (List.mem_cons_of_mem _ hw))
        simpa using ht

/-- C18: an and-expression visits its operands left to right: when the operands before `t`
evaluate to truthy values and `t` evaluates to `v`, where `v` is falsy or `t` is the last
operand, the expression returns `v` itself (not coerced to bool) in the state reached
after `t`, whatever the operands after `t` are: they are not visited.  With `f`, `g`, `z`
as in C17, `z() and g()` is 0 and prints only `0`, and `f() and g()` is 2 after printing
`1` and `2`. -/
theorem C18_and_short_circuit {F : Type} [HostFloat F] (fuel : Nat)
    (st stk stN : EvalVisitor F) (first : NotTest) (rest pre : List NotTest) (t : NotTest)
    (post : List NotTest) (pvals : List (Value F)) (v : Value F)
    (hops : first :: rest = pre ++ t :: post)
    (hpre : OperandsEvaluateTo visitNotTest fuel st pre pvals stk)
    (htruthy : ∀ u ∈ pvals, u.toBool = true)
    (ht : visitNotTest (fuel - pre.length) t stk = .ok v stN)
    (hlast : v.toBool = false ∨ post = []) :
    visitAndTest (fuel + 1) (.mk first rest) st = .ok v stN ∧
    valueAndOutput 40 progPrinters testZAndG = some (intValue "0", ['0', '\n']) ∧
    valueAndOutput 40 progPrinters testFAndG = some (intValue "2", ['1', '\n', '2', '\n']) := by
  refine ⟨?_, by decide, by decide⟩
  cases pre with
  | nil =>
    cases pvals with
    | cons u us => cases fuel <;> simp [OperandsEvaluateTo] at hpre
    | nil =>
      have hst : stk = st := by cases fuel <;> simpa [OperandsEvaluateTo] using hpre
      subst hst
      simp only [List.nil_append, List.cons.injEq] at hops
      obtain ⟨rfl, rfl⟩ := hops
      simp only [List.length_nil, Nat.sub_zero] at ht
      obtain ⟨g1, rfl⟩ : ∃ g1, fuel = g1 + 1 := by
        cases fuel with
        | zero => simp [visitNotTest] at ht
        | succ g1 => exact ⟨g1, rfl⟩
      simp only [visitAndTest, ht, Exec.bind]
      rcases hlast with h | h
      · cases rest with
        | nil => simp [visitAndRest]
        | cons p ps => simp [visitAndRest, h]
      · subst h; simp [visitAndRest]
  | cons x xs =>
    simp only [List.cons_append, List.cons.injEq] at hops
    obtain ⟨rfl, rfl⟩ := hops
    cases pvals with
    | nil => cases fuel <;> simp [OperandsEvaluateTo] at hpre
    | cons u us =>
      cases fuel with
      | zero => simp [OperandsEvaluateTo] at hpre
      | succ g1 =>
        simp only [OperandsEvaluateTo] at hpre
        obtain ⟨st1, h1, h2⟩ := hpre
        simp only [visitAndTest, h1, Exec.bind]
        apply visitAndRest_trace t post v stN hlast xs us g1 st1 stk u
          (htruthy u (List.mem_cons_self _ _)) h2
          (fun w hw => htruthy w (List.mem_cons_of_mem _ hw))
        simpa using ht

/-- Witness of C17: `z() or f() or g()` returns the value 1 of `f()` after the outputs of
`z` and `f` only. -/
theorem C17_or_short_circuit_witness :
    visitOrTest (40 + 1) (.mk (AndTest.call0 "z") [AndTest.call0 "f", AndTest.call0 "g"])
        (statePrinters [])
      = .ok (intValue "1") (statePrinters ['0', '\n', '1', '\n']) ∧
    valueAndOutput 40 progPrinters testFOrG = some (intValue "1", ['1', '\n']) ∧
    valueAndOutput 40 progPrinters testZOrG = some (intValue "2", ['0', '\n', '2', '\n']) :=
  C17_or_short_circuit 40 (statePrinters []) (statePrinters ['0', '\n'])
    (statePrinters ['0', '\n', '1', '\n']) (AndTest.call0 "z")
    [AndTest.call0 "f", AndTest.call0 "g"] [AndTest.call0 "z"] (AndTest.call0 "f")
    [AndTest.call0 "g"] [intValue "0"] (intValue "1") rfl
    ⟨statePrinters ['0', '\n'], rfl, rfl⟩ (by decide) rfl
    (Or.inl (by decide))

/-- Witness of C18: `f() and z() and g()` returns the value 0 of `z()` after the outputs
of `f` and `z` only. -/
theorem C18_and_short_circuit_witness :
    visitAndTest (40 + 1)
        (.mk (NotTest.ofComparison (ArithExpr.call0 "f") [])
          [NotTest.ofComparison (ArithExpr.call0 "z") [],
           NotTest.ofComparison (ArithExpr.call0 "g") []])
        (statePrinters [])
      = .ok (intValue "0") (statePrinters ['1', '\n', '0', '\n']) ∧
    valueAndOutput 40 progPrinters testZAndG = some (intValue "0", ['0', '\n']) ∧
    valueAndOutput 40 progPrinters testFAndG = some (intValue "2", ['1', '\n', '2', '\n']) :=
  C18_and_short_circuit 40 (statePrinters []) (statePrinters ['1', '\n'])
    (statePrinters ['1', '\n', '0', '\n']) (NotTest.ofComparison (ArithExpr.call0 "f") [])
    [NotTest.ofComparison (ArithExpr.call0 "z") [], NotTest.ofComparison (ArithExpr.call0 "g") []]
    [NotTest.ofComparison (ArithExpr.call0 "f") []] (NotTest.ofComparison (ArithExpr.call0 "z") [])
    [NotTest.ofComparison (ArithExpr.call0 "g") []] [intValue "1"] (intValue "0") rfl
    ⟨statePrinters ['1', '\n'], rfl, rfl⟩ (by decide) rfl (Or.inl (by decide))

end ShortCircuitClaims

/-! ## Chained comparisons -/

theorem visitComparisonRest_hold {F : Type} [HostFloat F] :
    ∀ (pre : List (String × ArithExpr)) (g : Nat) (st stk : EvalVisitor F) (left last : Value F),
    ComparisonsHold g st left pre last stk →
    visitComparisonRest (g + 1) pre left st = .ok (.bool true) stk := by
  intro pre
  induction pre with
  | nil =>
    intro g st stk left last h
    have hst : stk = st := by cases g <;> exact (by simpa [ComparisonsHold] using h : _ ∧ _).1
    subst hst
    simp [visitComparisonRest]
  | cons x xs ih =>
    intro g st stk left last h
    obtain ⟨op, e⟩ := x
    cases g with
    | zero => simp [ComparisonsHold] at h
    | succ g1 =>
      simp only [ComparisonsHold] at h
      obtain ⟨v, st1, h1, h2, h3⟩ := h
      simp only [visitComparisonRest, h1, Exec.bind, h2, Bool.not_true, Bool.false_eq_true,
        if_false]
      exact ih g1 st1 stk v last h3

theorem visitComparisonRest_stop {F : Type} [HostFloat F] (op : String) (e : ArithExpr)
    (post : List (String × ArithExpr)) (c : Value F) (stN : EvalVisitor F) :
    ∀ (pre : List (String × ArithExpr)) (g : Nat) (st stk : EvalVisitor F) (left last : Value F),
    ComparisonsHold g st left pre last stk →
    visitArithExpr (g - pre.length) e stk = .ok c stN → compareOp op last c = false →
    visitComparisonRest (g + 1) (pre ++ (op, e) :: post) left st = .ok (.bool false) stN := by
  intro pre
  induction pre with
  | nil =>
    intro g st stk left last h he hc
    obtain ⟨hst, hl⟩ : stk = st ∧ last = left := by
      cases g <;> simpa [ComparisonsHold] using h
    subst hst; subst hl
    simp only [List.length_nil, Nat.sub_zero] at he
    simp [visitComparisonRest, he, Exec.bind, hc]
  | cons x xs ih =>
    intro g st stk left last h he hc
    obtain ⟨op1, e1⟩ := x
    cases g with
    | zero => simp [ComparisonsHold] at h
    | succ g1 =>
      simp only [ComparisonsHold] at h
      obtain ⟨v, st1, h1, h2, h3⟩ := h
      simp only [List.cons_append, visitComparisonRest, h1, Exec.bind, h2, Bool.not_true,
        Bool.false_eq_true, if_false]
      apply ih g1 st1 stk v last h3 _ hc
      simpa using he

theorem visitComparisonRest_bool {F : Type} [HostFloat F] :
    ∀ (g : Nat) (rest : List (String × ArithExpr)) (left : Value F) (st stN : EvalVisitor F)
      (v : Value F),
    visitComparisonRest g rest left st = .ok v stN → ∃ b : Bool, v = .bool b := by
  intro g
  induction g with
  | zero => intro rest left st stN v h; simp [visitComparisonRest] at h
  | succ g1 ih =>
    intro rest left st stN v h
    cases rest with
    | nil =>
      simp only [visitComparisonRest, Exec.ok.injEq] at h
      exact ⟨true, h.1.symm⟩
    | cons x xs =>
      obtain ⟨op, e⟩ := x
      simp only [visitComparisonRest] at h
      cases he : visitArithExpr g1 e st with
      | ok r st1 =>
        rw [he] at h
        simp only [Exec.bind] at h
        by_cases hc : compareOp op left r = true
        · simp only [hc, Bool.not_true, Bool.false_eq_true, if_false] at h
          exact ih xs r st1 stN v h
        · simp only [Bool.not_eq_true] at hc
          simp only [hc, Bool.not_false, if_true, Exec.ok.injEq] at h
          exact ⟨false, h.1.symm⟩
      | breakSignal s => rw [he] at h; simp [Exec.bind] at h
      | continueSignal s => rw [he] at h; simp [Exec.bind] at h
      | returnSignal r s => rw [he] at h; simp [Exec.bind] at h
      | error m => rw [he] at h; simp [Exec.bind] at h
      | outOfFuel => rw [he] at h; simp [Exec.bind] at h

theorem chain_one_x_ten {F : Type} [HostFloat F] (st : EvalVisitor F) :
    visitTest 20 chainOneXTen st = visitTest 20 andOneXTen st := by
  have h1 : ('.' ∈ ['1']) = False := by simp
  have h2 : ('.' ∈ ['1', '0']) = False := by simp
  simp only [chainOneXTen, andOneXTen, Test.ofChain, Test.andOfChains, NotTest.ofComparison,
    ArithExpr.ofAtom, Term.ofFactor, Factor.ofAtom, visitTest, visitOrTest, visitOrRest,
    visitAndTest, visitAndRest, visitNotTest, visitComparison, visitComparisonRest,
    visitArithExpr, visitArithRest, visitTerm, visitTermRest, visitFactor, visitAtomExpr,
    visitAtom, Exec.bind, h1, h2, if_false, List.isEmpty_cons, Bool.false_eq_true]
  cases compareOp "<" (Value.int (BigInt.ofString ['1'])) (st.getVariable "x") <;>
    simp only [Bool.not_true, Bool.not_false, if_true, if_false, Bool.false_eq_true, Value.toBool]

section ChainClaims

/-- C19: a comparison chain `first op1 e1 op2 e2 …` with at least one operator visits
`first`, then the right operands one by one in source order, each once, threading the
state.  When the comparisons of the operands `pre` all hold (each between the values of two
neighbouring operands) and either `pre` is the whole chain (`r = true`) or the next
comparison is false (`r = false`), `visitComparison` returns the bool `r` in the state
reached after the last operand visited: the operands after a false comparison are not
visited.  Every value a chain returns is a bool.  For every state `1 < x < 10` evaluates as
`1 < x and x < 10`; with `f`, `g` printing and returning 1, 2, `0 < f() < 2` is true and
prints `1` once while `0 < f() and f() < 2` prints it twice, and `2 < f() < g()` is false
without the output of `g`. -/
theorem C19_chained_comparison {F : Type} [HostFloat F] (fuel : Nat)
    (st st0 stk stN : EvalVisitor F) (first : ArithExpr)
    (rest pre tail : List (String × ArithExpr)) (a b : Value F) (r : Bool)
    (hne : rest ≠ [])
    (hops : rest = pre ++ tail)
    (ha : visitArithExpr fuel first st = .ok a st0)
    (hpre : ComparisonsHold (fuel - 1) st0 a pre b stk)
    (hend : (tail = [] ∧ stN = stk ∧ r = true) ∨
      (∃ op e post c, tail = (op, e) :: post ∧
        visitArithExpr (fuel - 1 - pre.length) e stk = .ok c stN ∧
        compareOp op b c = false ∧ r = false)) :
    visitComparison (fuel + 1) (.mk first rest) st = .ok (.bool r) stN ∧
    (∀ (g : Nat) (v : Value F) (st2 : EvalVisitor F),
      visitComparison g (.mk first rest) st = .ok v st2 → ∃ b2 : Bool, v = .bool b2) ∧
    (∀ s : EvalVisitor F, visitTest 20 chainOneXTen s = visitTest 20 andOneXTen s) ∧
    valueAndOutput 40 progPrinters chainCallF = some (.bool true, ['1', '\n']) ∧
    valueAndOutput 40 progPrinters andCallF = some (.bool true, ['1', '\n', '1', '\n']) ∧
    valueAndOutput 40 progPrinters chainStops = some (.bool false, ['1', '\n']) := by
  refine ⟨?_, ?_, chain_one_x_ten, by decide, by decide, by decide⟩
  · obtain ⟨g1, rfl⟩ : ∃ g1, fuel = g1 + 1 := by
      cases fuel with
      | zero => simp [visitArithExpr] at ha
      | succ g1 => exact ⟨g1, rfl⟩
    have hempty : rest.isEmpty = false := by
      cases rest with
      | nil => exact absurd rfl hne
      | cons x xs => rfl
    simp only [Nat.add_sub_cancel] at hpre hend
    simp only [visitComparison, ha, Exec.bind, hempty, Bool.false_eq_true, if_false]
    rcases hend with ⟨h1, h2, h3⟩ | ⟨op, e, post, c, h1, h2, h3, h4⟩
    · subst h1; subst h2; subst h3
      rw [hops, List.append_nil]
      exact visitComparisonRest_hold pre g1 st0 stN a b hpre
    · subst h1; subst h4
      rw [hops]
      exact visitComparisonRest_stop op e post c stN pre g1 st0 stk a b hpre h2 h3
  · intro g v st2 h
    cases g with
    | zero => simp [visitComparison] at h
    | succ g1 =>
      have hempty : rest.isEmpty = false := by
        cases rest with
        | nil => exact absurd rfl hne
        | cons x xs => rfl
      simp only [visitComparison, hempty, Bool.false_eq_true, if_false] at h
      cases he : visitArithExpr g1 first st with
      | ok w s1 =>
        rw [he] at h
        exact visitComparisonRest_bool g1 rest w s1 st2 v h
      | breakSignal s => rw [he] at h; simp [Exec.bind] at h
      | continueSignal s => rw [he] at h; simp [Exec.bind] at h
      | returnSignal w s => rw [he] at h; simp [Exec.bind] at h
      | error m => rw [he] at h; simp [Exec.bind] at h
      | outOfFuel => rw [he] at h; simp [Exec.bind] at h

/-- Witness of C19: `0 < f() < z() < g()` is false after the outputs of `f` and `z` only:
`0 < 1` holds, `1 < 0` does not, and `g()` is not visited. -/
theorem C19_chained_comparison_witness :
    visitComparison (40 + 1)
        (.mk (ArithExpr.ofAtom (.number ['0']))
          [("<", ArithExpr.call0 "f"), ("<", ArithExpr.call0 "z"), ("<", ArithExpr.call0 "g")])
        (statePrinters [])
      = .ok (.bool false) (statePrinters ['1', '\n', '0', '\n']) :=
  (C19_chained_comparison 40 (statePrinters []) (statePrinters [])
    (statePrinters ['1', '\n']) (statePrinters ['1', '\n', '0', '\n'])
    (ArithExpr.ofAtom (.number ['0']))
    [("<", ArithExpr.call0 "f"), ("<", ArithExpr.call0 "z"), ("<", ArithExpr.call0 "g")]
    [("<", ArithExpr.call0 "f")] [("<", ArithExpr.call0 "z"), ("<", ArithExpr.call0 "g")]
    (intValue "0") (intValue "1") false (by simp) rfl rfl
    ⟨intValue "1", statePrinters ['1', '\n'], rfl, by decide, rfl, rfl⟩
    (Or.inr ⟨"<", ArithExpr.call0 "z", [("<", ArithExpr.call0 "g")], intValue "0", rfl, rfl,
      by decide, rfl⟩)).1

end ChainClaims

/-! ## While loops -/

theorem visitWhile_turns {F : Type} [HostFloat F] (test : Test) (suite : Suite) :
    ∀ (n g : Nat) (st stk : EvalVisitor F), LoopTurns test suite g st n stk →
    visitWhile (g + 1) test suite st = visitWhile (g - n + 1) test suite stk := by
  intro n
  induction n with
  | zero =>
    intro g st stk h
    have hst : stk = st := by cases g <;> simpa [LoopTurns] using h
    subst hst
    rfl
  | succ m ih =>
    intro g st stk h
    cases g with
    | zero => simp [LoopTurns] at h
    | succ g1 =>
      simp only [LoopTurns] at h
      obtain ⟨c, st1, st2, h1, h2, h3, h4⟩ := h
      have hstep : visitWhile (g1 + 1 + 1) test suite st = visitWhile (g1 + 1) test suite st2 := by
        rw [visitWhile]
        simp only [h1, Exec.bind, h2, Bool.not_true, Bool.false_eq_true, if_false]
        rcases h3 with h3 | h3 <;> rw [h3]
      rw [hstep, ih g1 st2 stk h4, Nat.add_sub_add_right]

theorem visitWhile_break_from_test {F : Type} [HostFloat F] (test : Test) (suite : Suite) :
    ∀ (g : Nat) (s s2 : EvalVisitor F), visitWhile g test suite s = .breakSignal s2 →
    ∃ g1 s1, visitTest g1 test s1 = .breakSignal s2 := by
  intro g
  induction g with
  | zero => intro s s2 h; simp [visitWhile] at h
  | succ g1 ih =>
    intro s s2 h
    rw [visitWhile] at h
    cases ht : visitTest g1 test s with
    | ok c st1 =>
      rw [ht] at h
      simp only [Exec.bind] at h
      by_cases hc : c.toBool = true
      · simp only [hc, Bool.not_true, Bool.false_eq_true, if_false] at h
        cases hb : visitSuite g1 suite st1 with
        | ok u st2 => rw [hb] at h; exact ih st2 s2 h
        | continueSignal st2 => rw [hb] at h; exact ih st2 s2 h
        | breakSignal st2 => rw [hb] at h; simp at h
        | returnSignal w st2 => rw [hb] at h; simp at h
        | error m => rw [hb] at h; simp at h
        | outOfFuel => rw [hb] at h; simp at h
      · simp only [Bool.not_eq_true] at hc
        simp [hc] at h
    | breakSignal st1 =>
      rw [ht] at h
      simp only [Exec.bind, Exec.breakSignal.injEq] at h
      exact ⟨g1, s, by rw [ht, h]⟩
    | continueSignal st1 => rw [ht] at h; simp [Exec.bind] at h
    | returnSignal w st1 => rw [ht] at h; simp [Exec.bind] at h
    | error m => rw [ht] at h; simp [Exec.bind] at h
    | outOfFuel => rw [ht] at h; simp [Exec.bind] at h

theorem visitWhile_continue_from_test {F : Type} [HostFloat F] (test : Test) (suite : Suite) :
    ∀ (g : Nat) (s s2 : EvalVisitor F), visitWhile g test suite s = .continueSignal s2 →
    ∃ g1 s1, visitTest g1 test s1 = .continueSignal s2 := by
  intro g
  induction g with
  | zero => intro s s2 h; simp [visitWhile] at h
  | succ g1 ih =>
    intro s s2 h
    rw [visitWhile] at h
    cases ht : visitTest g1 test s with
    | ok c st1 =>
      rw [ht] at h
      simp only [Exec.bind] at h
      by_cases hc : c.toBool = true
      · simp only [hc, Bool.not_true, Bool.false_eq_true, if_false] at h
        cases hb : visitSuite g1 suite st1 with
        | ok u st2 => rw [hb] at h; exact ih st2 s2 h
        | continueSignal st2 => rw [hb] at h; exact ih st2 s2 h
        | breakSignal st2 => rw [hb] at h; simp at h
        | returnSignal w st2 => rw [hb] at h; simp at h
        | error m => rw [hb] at h; simp at h
        | outOfFuel => rw [hb] at h; simp at h
      · simp only [Bool.not_eq_true] at hc
        simp [hc] at h
    | continueSignal st1 =>
      rw [ht] at h
      simp only [Exec.bind, Exec.continueSignal.injEq] at h
      exact ⟨g1, s, by rw [ht, h]⟩
    | breakSignal st1 => rw [ht] at h; simp [Exec.bind] at h
    | returnSignal w st1 => rw [ht] at h; simp [Exec.bind] at h
    | error m => rw [ht] at h; simp [Exec.bind] at h
    | outOfFuel => rw [ht] at h; simp [Exec.bind] at h

theorem progFactorial_output :
    outputOf (visitFileInput 40 progFactorial (EvalVisitor.init : EvalVisitor NoFloat)) =
      some ['1', '2', '0', '\n'] := by decide

theorem progFactorial_scopes :
    scopesOf (visitFileInput 40 progFactorial (EvalVisitor.init : EvalVisitor NoFloat)) =
      some [[("n", intValue "0"), ("acc", intValue "120")]] := by decide

theorem progBreakContinue_output :
    outputOf (visitFileInput 40 progBreakContinue (EvalVisitor.init : EvalVisitor NoFloat)) =
      some ['1', '3', '\n', '6', '\n'] := by decide

section LoopClaims

/-- C20: a while statement visits its test before every turn.  When the loop makes `n`
turns (test truthy, then the body ends normally or with a continue signal, which goes on
to the next visit of the test) and then either the test is falsy or the test is truthy and
the body raises a break signal, `visitWhile` completes normally in the state reached there:
a break ends the loop at once.  A break or continue signal that leaves `visitWhile` was
raised by a visit of the test, never by the body.  The program `n = 5`, `acc = 1`,
`while n > 0: acc *= n; n -= 1`, `print(acc)` prints `120` and ends with `n = 0`,
`acc = 120`; a loop with `break` and `continue` in its body adds 1, 3, 4, 5 and stops at
`i = 6`. -/
theorem C20_while_loop {F : Type} [HostFloat F] (fuel n : Nat) (test : Test) (suite : Suite)
    (st stk st1 stN : EvalVisitor F) (c : Value F)
    (hturns : LoopTurns test suite fuel st n stk)
    (hc : visitTest (fuel - n) test stk = .ok c st1)
    (hend : (c.toBool = false ∧ stN = st1) ∨
      (c.toBool = true ∧ visitSuite (fuel - n) suite st1 = .breakSignal stN)) :
    visitWhile (fuel + 1) test suite st = .ok () stN ∧
    visitStmt (fuel + 2) (.whileStmt test suite) st = .ok () stN ∧
    (∀ (g : Nat) (s s2 : EvalVisitor F), visitWhile g test suite s = .breakSignal s2 →
      ∃ g1 s1, visitTest g1 test s1 = .breakSignal s2) ∧
    (∀ (g : Nat) (s s2 : EvalVisitor F), visitWhile g test suite s = .continueSignal s2 →
      ∃ g1 s1, visitTest g1 test s1 = .continueSignal s2) ∧
    outputOf (visitFileInput 40 progFactorial (EvalVisitor.init : EvalVisitor NoFloat)) =
      some ['1', '2', '0', '\n'] ∧
    scopesOf (visitFileInput 40 progFactorial (EvalVisitor.init : EvalVisitor NoFloat)) =
      some [[("n", intValue "0"), ("acc", intValue "120")]] ∧
    outputOf (visitFileInput 40 progBreakContinue (EvalVisitor.init : EvalVisitor NoFloat)) =
      some ['1', '3', '\n', '6', '\n'] := by
  have hmain : visitWhile (fuel + 1) test suite st = .ok () stN := by
    rw [visitWhile_turns test suite n fuel st stk hturns, visitWhile]
    simp only [hc, Exec.bind]
    rcases hend with ⟨h1, h2⟩ | ⟨h1, h2⟩
    · simp [h1, h2]
    · simp [h1, h2]
  refine ⟨hmain, ?_, visitWhile_break_from_test test suite,
    visitWhile_continue_from_test test suite, progFactorial_output, progFactorial_scopes,
    progBreakContinue_output⟩
  rw [visitStmt]
  exact hmain

/-- Witness of C20: from `n = 2` the loop `while n: n -= 1` makes two turns, and ends at
the third visit of the test with `n = 0`. -/
theorem C20_while_loop_witness :
    visitWhile (40 + 1) (Test.name "n")
        (.simple (Stmt.augAssign "n" "-=" (Test.number "1"))) (stateN "2")
      = .ok () (stateN "0") :=
  (C20_while_loop 40 2 (Test.name "n") (.simple (Stmt.augAssign "n" "-=" (Test.number "1")))
    (stateN "2") (stateN "0") (stateN "0") (stateN "0") (intValue "0")
    ⟨intValue "2", stateN "2", stateN "1", rfl, by decide, Or.inl rfl,
      intValue "1", stateN "1", stateN "0", rfl, by decide, Or.inl rfl, rfl⟩
    rfl (Or.inl ⟨by decide, rfl⟩)).1

end LoopClaims

/-! ## Default values -/

theorem visitDefaults_spec {F : Type} [HostFloat F] :
    ∀ (tests : List Test) (names : List String) (vals : List (Value F)) (g : Nat)
      (acc : List (String × Value F)) (st stN : EvalVisitor F),
    names.length = tests.length → OperandsEvaluateTo visitTest g st tests vals stN →
    visitDefaults (g + 1) names tests acc st
      = .ok ((names.zip vals).foldl (fun acc b => mapSet acc b.1 b.2) acc) stN := by
  intro tests
  induction tests with
  | nil =>
    intro names vals g acc st stN hlen h
    cases vals with
    | cons v vs => cases g <;> simp [OperandsEvaluateTo] at h
    | nil =>
      have hst : stN = st := by cases g <;> simpa [OperandsEvaluateTo] using h
      subst hst
      cases names with
      | nil => simp [visitDefaults]
      | cons n ns => simp at hlen
  | cons t ts ih =>
    intro names vals g acc st stN hlen h
    cases names with
    | nil => simp at hlen
    | cons n ns =>
      cases vals with
      | nil => cases g <;> simp [OperandsEvaluateTo] at h
      | cons v vs =>
        cases g with
        | zero => simp [OperandsEvaluateTo] at h
        | succ g1 =>
          simp only [OperandsEvaluateTo] at h
          obtain ⟨st1, h1, h2⟩ := h
          simp only [List.length_cons, Nat.add_right_cancel_iff] at hlen
          simp only [visitDefaults, h1, Exec.bind, List.zip_cons_cons, List.foldl_cons]
          exact ih ns vs g1 (mapSet acc n v) st1 stN hlen h2

theorem mapFind_foldl_mapSet_of_not_mem {α : Type} (bs : List (String × α)) :
    ∀ (m : List (String × α)) (q : String), q ∉ bs.map Prod.fst →
    mapFind (bs.foldl (fun acc b => mapSet acc b.1 b.2) m) q = mapFind m q := by
  induction bs with
  | nil => intro m q _; rfl
  | cons b bs ih =>
    intro m q hq
    simp only [List.map_cons, List.mem_cons, not_or] at hq
    simp only [List.foldl_cons]
    rw [ih (mapSet m b.1 b.2) q hq.2, mapFind_mapSet]
    simp [Ne.symm hq.1]

theorem map_fst_zip_sublist {α : Type} :
    ∀ (names : List String) (vals : List α),
    List.Sublist ((names.zip vals).map Prod.fst) names := by
  intro names
  induction names with
  | nil => intro vals; simp
  | cons n ns ih =>
    intro vals
    cases vals with
    | nil => simp
    | cons v vs =>
      simp only [List.zip_cons_cons, List.map_cons]
      exact (ih vs).cons₂ n

theorem mapFind_storedDefaults {F : Type} (names : List String) (vals : List (Value F))
    (hnd : names.Nodup) (i : Nat) (p : String) (v : Value F)
    (hp : names[i]? = some p) (hv : vals[i]? = some v) :
    mapFind (storedDefaults names vals) p = some v := by
  have hmem : (p, v) ∈ names.zip vals := by
    have : (names.zip vals)[i]? = some (p, v) := by
      rw [List.getElem?_zip_eq_some]
      exact ⟨hp, hv⟩
    exact List.mem_iff_getElem?.2 ⟨i, this⟩
  have hnd2 : ((names.zip vals).map Prod.fst).Nodup := by
    exact (map_fst_zip_sublist names vals).nodup hnd
  exact (mapFind_foldl_mapSet (names.zip vals) [] hnd2).1 p v hmem

theorem call_scope_spec {F : Type} [HostFloat F] (st stN : EvalVisitor F) (funcName : String)
    (func : FunctionDef F) (arglist : Option (List Argument)) (vals : List (Value F))
    (fuel : Nat)
    (hname : funcName ∉ ["print", "int", "float", "str", "bool"])
    (hfunc : mapFind st.functions funcName = some func)
    (hargs : ArgsEvaluateTo fuel st.pushScope (argsOf arglist) vals stN)
    (hscopes : stN.scopes = [] :: st.scopes)
    (hcount : positionalCount (argsOf arglist) ≤ func.params.length) :
    ∃ scope : List (String × Value F),
      visitAtomExpr (fuel + 1) (.mk (.name funcName) (some (.mk arglist))) st
        = finishCall (visitSuite fuel func.suite
            { scopes := scope :: st.scopes, functions := st.functions, output := stN.output }) ∧
      ∀ q, mapFind scope q
        = if q ∈ func.params then
            some (match mapFind ((specBindings func.params (argsOf arglist) vals 0).foldl
                (fun acc b => mapSet acc b.1 b.2) []) q with
              | some a => a
              | none => specDefault func.defaults q)
          else none := by
  obtain ⟨hargs1, hfns⟩ := visitCallArgs_spec funcName func (argsOf arglist) vals fuel 0 []
    st.pushScope stN hfunc hargs (by omega)
  obtain ⟨scope, hb1, hb2⟩ := bindParameters_spec
    ((specBindings func.params (argsOf arglist) vals 0).foldl
      (fun acc b => mapSet acc b.1 b.2) [])
    func.defaults func.params [] st.scopes st.functions stN.output
  simp only [List.mem_cons, List.mem_singleton, List.not_mem_nil, or_false, not_or] at hname
  obtain ⟨n1, n2, n3, n4, n5⟩ := hname
  have hstN : stN = ⟨[] :: st.scopes, st.functions, stN.output⟩ := by
    cases stN with
    | mk sc fn out =>
      simp only at hscopes hfns
      have hfns1 : fn = st.functions := hfns
      rw [hscopes, hfns1]
  refine ⟨scope, ?_, ?_⟩
  · have hsome : (mapFind st.functions funcName).isSome = true := by rw [hfunc]; rfl
    have hfunc1 : mapFind stN.functions funcName = some func := by rw [hfns]; exact hfunc
    cases arglist with
    | some args =>
      simp only [argsOf] at hargs1 hb1
      simp only [visitAtomExpr, n1, n2, n3, n4, n5, if_false, hsome, if_true, hargs1,
        Exec.bind, hfunc1]
      rw [← hb1, ← hstN]
    | none =>
      have hv : vals = [] ∧ stN = st.pushScope := by
        cases vals with
        | nil =>
          cases fuel with
          | zero => simp [argsOf, ArgsEvaluateTo] at hargs
          | succ g => exact ⟨rfl, by simpa [argsOf, ArgsEvaluateTo] using hargs⟩
        | cons v vs => cases fuel <;> simp [argsOf, ArgsEvaluateTo] at hargs
      have hfunc2 : mapFind st.pushScope.functions funcName = some func := hfunc
      have hb3 := hb1
      rw [hv.1] at hb3
      simp only [argsOf, specBindings, List.foldl_nil] at hb3
      simp only [visitAtomExpr, n1, n2, n3, n4, n5, if_false, hsome, if_true, Exec.bind,
        hfunc2]
      rw [← hb3, ← hstN, hv.2]
  · intro q
    rw [hb2 q]
    by_cases hq : q ∈ func.params
    · simp only [hq, if_true]
    · simp only [hq, if_false]
      rfl

theorem progDefaultCapture_output :
    outputOf (visitFileInput 40 progDefaultCapture (EvalVisitor.init : EvalVisitor NoFloat)) =
      some ['1', '\n'] := by decide

theorem progDefaultOnce_output :
    outputOf (visitFileInput 40 progDefaultOnce (EvalVisitor.init : EvalVisitor NoFloat)) =
      some ['7', '\n', '2', '\n', '2', '\n'] := by decide

section DefaultClaims

/-- C12: when `def name(params…)` is executed, its default expressions are visited once,
in order, in the state of that moment, and their values `dvals` are stored in the function
record (`storedDefaults`).  In any later state `st2` whose function table still holds that
record under `name`, whatever its variables are bound to, a call that leaves the defaulted
parameter `p` unbound runs the body in a fresh scope where `p` is bound to the stored
value `v`, the value the default expression had at definition time: the expression is not
visited again.  The program `x = 1`, `def f(y=x): return y`, `x = 2`, `print(f())` prints
`1`; with `def g(): print(7); return 2` and `def h(y=g()): return y`, two calls `h()`
print `7` once, at definition time. -/
theorem C12_defaults_captured {F : Type} [HostFloat F] (fuelD fuelC : Nat)
    (st st1 st2 stN : EvalVisitor F) (name : String) (params : List String)
    (tests : List Test) (suite : Suite) (dvals : List (Value F))
    (arglist : Option (List Argument)) (avals : List (Value F)) (i : Nat) (p : String)
    (v : Value F)
    (hname : name ∉ ["print", "int", "float", "str", "bool"])
    (hlen : tests.length ≤ params.length)
    (hnd : (params.drop (params.length - tests.length)).Nodup)
    (hdvals : OperandsEvaluateTo visitTest fuelD st tests dvals st1)
    (hp : (params.drop (params.length - tests.length))[i]? = some p)
    (hv : dvals[i]? = some v)
    (hlater : mapFind st2.functions name = some
      ⟨params, storedDefaults (params.drop (params.length - tests.length)) dvals, suite⟩)
    (hargs : ArgsEvaluateTo fuelC st2.pushScope (argsOf arglist) avals stN)
    (hscopes : stN.scopes = [] :: st2.scopes)
    (hcount : positionalCount (argsOf arglist) ≤ params.length)
    (homit : p ∉ (specBindings params (argsOf arglist) avals 0).map Prod.fst) :
    visitStmt (fuelD + 2) (.defStmt name (some (params, tests)) suite) st
      = .ok () (defineFunction st1 name
          ⟨params, storedDefaults (params.drop (params.length - tests.length)) dvals, suite⟩) ∧
    mapFind (defineFunction st1 name
        ⟨params, storedDefaults (params.drop (params.length - tests.length)) dvals,
          suite⟩).functions name
      = some ⟨params, storedDefaults (params.drop (params.length - tests.length)) dvals,
          suite⟩ ∧
    (∃ scope : List (String × Value F),
      visitAtomExpr (fuelC + 1) (.mk (.name name) (some (.mk arglist))) st2
        = finishCall (visitSuite fuelC suite
            { scopes := scope :: st2.scopes, functions := st2.functions,
              output := stN.output }) ∧
      mapFind scope p = some v) ∧
    outputOf (visitFileInput 40 progDefaultCapture (EvalVisitor.init : EvalVisitor NoFloat)) =
      some ['1', '\n'] ∧
    outputOf (visitFileInput 40 progDefaultOnce (EvalVisitor.init : EvalVisitor NoFloat)) =
      some ['7', '\n', '2', '\n', '2', '\n'] := by
  refine ⟨?_, ?_, ?_, progDefaultCapture_output, progDefaultOnce_output⟩
  · have hl : (params.drop (params.length - tests.length)).length = tests.length := by
      rw [List.length_drop]; omega
    rw [visitStmt]
    simp only [hlen, if_true,
      visitDefaults_spec tests (params.drop (params.length - tests.length)) dvals fuelD [] st
        st1 hl hdvals, Exec.bind, storedDefaults]
  · simp only [defineFunction, mapFind_mapSet, if_true]
  · obtain ⟨scope, h1, h2⟩ := call_scope_spec st2 stN name
      ⟨params, storedDefaults (params.drop (params.length - tests.length)) dvals, suite⟩
      arglist avals fuelC hname hlater hargs hscopes hcount
    refine ⟨scope, h1, ?_⟩
    have hmem : p ∈ params :=
      List.mem_of_mem_drop (List.mem_iff_getElem?.2 ⟨i, hp⟩)
    rw [h2 p]
    simp only [hmem, if_true]
    rw [mapFind_foldl_mapSet_of_not_mem _ [] p homit]
    simp only [mapFind, specDefault,
      mapFind_storedDefaults (params.drop (params.length - tests.length)) dvals hnd i p v hp hv]

/-- Witness of C12: `def f(y=x): return y` executed while `x` is 1, then `f()` called in a
state where `x` is 2: the body runs with `y` bound to 1. -/
theorem C12_defaults_captured_witness :
    ∃ scope : List (String × Value NoFloat),
      visitAtomExpr (40 + 1) (.mk (.name "f") (some (.mk none)))
          (stateX "2" [("f", funcCaptured)])
        = finishCall (visitSuite 40 (.simple (Stmt.returnValue (Test.name "y")))
            { scopes := scope :: (stateX "2" [("f", funcCaptured)]).scopes,
              functions := (stateX "2" [("f", funcCaptured)]).functions,
              output := (stateX "2" [("f", funcCaptured)]).pushScope.output }) ∧
      mapFind scope "y" = some (intValue "1") :=
  (C12_defaults_captured 40 40 (stateX "1" []) (stateX "1" [])
    (stateX "2" [("f", funcCaptured)]) (stateX "2" [("f", funcCaptured)]).pushScope "f"
    ["y"] [Test.name "x"] (.simple (Stmt.returnValue (Test.name "y"))) [intValue "1"] none []
    0 "y" (intValue "1") (by decide) (by decide) (by decide) ⟨stateX "1" [], rfl, rfl⟩ rfl rfl
    rfl rfl rfl (by decide) (by decide)).2.2.1

end DefaultClaims

/-! ## Scope isolation -/

theorem FnsOk_of_functions_eq {F : Type} (st st1 : EvalVisitor F)
    (h : st1.functions = st.functions) (hf : FnsOk st) : FnsOk st1 := by
  intro name func hm
  rw [h] at hm
  exact hf name func hm

theorem FnsOk_defineFunction {F : Type} (st : EvalVisitor F) (name : String)
    (func : FunctionDef F) (hf : FnsOk st) (hs : SuiteOk false func.suite) :
    FnsOk (defineFunction st name func) := by
  intro q g hm
  simp only [defineFunction, mapFind_mapSet] at hm
  by_cases hq : name = q
  · simp only [hq, if_true, Option.some.injEq] at hm
    rw [← hm]
    exact hs
  · simp only [hq, if_false] at hm
    exact hf q g hm

theorem ExprInv_bind {F α β : Type} (sc : List (List (String × Value F))) (r : Exec F α)
    (f : α → EvalVisitor F → Exec F β) (h1 : ExprInv sc r)
    (h2 : ∀ a st1, st1.scopes = sc → FnsOk st1 → ExprInv sc (f a st1)) :
    ExprInv sc (r.bind f) := by
  cases r with
  | ok a st1 => exact h2 a st1 h1.1 h1.2
  | breakSignal s => exact h1
  | continueSignal s => exact h1
  | returnSignal v s => exact h1
  | error m => exact h1
  | outOfFuel => exact h1

theorem ExprInv_bind_stmt {F α β : Type} (inLoop : Bool) (sc : List (List (String × Value F)))
    (r : Exec F α) (f : α → EvalVisitor F → Exec F β) (h1 : ExprInv sc r)
    (h2 : ∀ a st1, st1.scopes = sc → FnsOk st1 → StmtInv inLoop sc.tail (f a st1)) :
    StmtInv inLoop sc.tail (r.bind f) := by
  cases r with
  | ok a st1 => exact h2 a st1 h1.1 h1.2
  | breakSignal s => exact h1.elim
  | continueSignal s => exact h1.elim
  | returnSignal v s => exact h1.elim
  | error m => exact trivial
  | outOfFuel => exact trivial

theorem StmtInv_bind {F α β : Type} (inLoop : Bool) (below : List (List (String × Value F)))
    (r : Exec F α) (f : α → EvalVisitor F → Exec F β) (h1 : StmtInv inLoop below r)
    (h2 : ∀ a st1, st1.scopes.tail = below → st1.scopes ≠ [] → FnsOk st1 →
      StmtInv inLoop below (f a st1)) :
    StmtInv inLoop below (r.bind f) := by
  cases r with
  | ok a st1 => exact h2 a st1 h1.1 h1.2.1 h1.2.2
  | breakSignal s => exact h1
  | continueSignal s => exact h1
  | returnSignal v s => exact h1
  | error m => exact trivial
  | outOfFuel => exact trivial

theorem StmtInv_mono {F α : Type} (inLoop : Bool) (below : List (List (String × Value F)))
    (r : Exec F α) (h : StmtInv false below r) : StmtInv inLoop below r := by
  cases r with
  | ok a st1 => exact h
  | breakSignal s => exact absurd h.1 (by decide)
  | continueSignal s => exact absurd h.1 (by decide)
  | returnSignal v s => exact h
  | error m => exact trivial
  | outOfFuel => exact trivial

theorem ExprInv_ofRes {F α : Type} (r : Res α) (st : EvalVisitor F) (hf : FnsOk st) :
    ExprInv st.scopes (Exec.ofRes r st) := by
  cases r with
  | ok v => exact ⟨rfl, hf⟩
  | throw m => exact trivial
  | outOfFuel => exact trivial

theorem setVariable_frame {F : Type} (st : EvalVisitor F) (name : String) (v : Value F)
    (hne : st.scopes ≠ []) :
    (st.setVariable name v).scopes.tail = st.scopes.tail ∧ (st.setVariable name v).scopes ≠ [] ∧
      (st.setVariable name v).functions = st.functions := by
  cases hs : st.scopes with
  | nil => exact absurd hs hne
  | cons top below =>
    simp [EvalVisitor.setVariable, hs]

theorem assignTargets_frame {F : Type} (targets : List Testlist) (v : Value F) :
    ∀ (st : EvalVisitor F), st.scopes ≠ [] →
    (assignTargets targets v st).scopes.tail = st.scopes.tail ∧
      (assignTargets targets v st).scopes ≠ [] ∧
      (assignTargets targets v st).functions = st.functions := by
  induction targets with
  | nil => intro st hne; exact ⟨rfl, hne, rfl⟩
  | cons lhs rest ih =>
    intro st hne
    have hstep : assignTargets (lhs :: rest) v st = assignTargets rest v
        (if testlistTarget lhs ≠ "" then st.setVariable (testlistTarget lhs) v else st) := rfl
    rw [hstep]
    by_cases hn : testlistTarget lhs ≠ ""
    · rw [if_pos hn]
      obtain ⟨s1, s2, s3⟩ := setVariable_frame st (testlistTarget lhs) v hne
      obtain ⟨i1, i2, i3⟩ := ih (st.setVariable (testlistTarget lhs) v) s2
      exact ⟨i1.trans s1, i2, i3.trans s3⟩
    · rw [if_neg hn]
      exact ih st hne

theorem bindParameters_frame {F : Type} (passedArgs defaults : List (String × Value F))
    (params : List String) :
    ∀ (st : EvalVisitor F), st.scopes ≠ [] →
    (bindParameters passedArgs defaults params st).scopes.tail = st.scopes.tail ∧
      (bindParameters passedArgs defaults params st).scopes ≠ [] ∧
      (bindParameters passedArgs defaults params st).functions = st.functions := by
  induction params with
  | nil => intro st hne; exact ⟨rfl, hne, rfl⟩
  | cons p rest ih =>
    intro st hne
    simp only [bindParameters]
    obtain ⟨s1, s2, s3⟩ := setVariable_frame st p
      (match mapFind passedArgs p with
        | some a => a
        | none =>
          match mapFind defaults p with
          | some d => d
          | none => .none) hne
    obtain ⟨i1, i2, i3⟩ := ih _ s2
    exact ⟨i1.trans s1, i2, i3.trans s3⟩

theorem popScope_of_frame {F : Type} (st : EvalVisitor F)
    (below : List (List (String × Value F))) (hb : below ≠ [])
    (h1 : st.scopes.tail = below) :
    st.popScope.scopes = below ∧ st.popScope.functions = st.functions := by
  cases hs : st.scopes with
  | nil => rw [hs] at h1; exact absurd h1.symm hb
  | cons top tl =>
    rw [hs] at h1
    simp only [List.tail_cons] at h1
    subst h1
    cases tl with
    | nil => exact absurd rfl hb
    | cons a as => simp [EvalVisitor.popScope, hs]

theorem finishCall_inv {F : Type} (sc : List (List (String × Value F))) (hsc : sc ≠ [])
    (r : Exec F Unit) (h : StmtInv false sc r) : ExprInv sc (finishCall r) := by
  cases r with
  | ok a st1 =>
    obtain ⟨p1, p2⟩ := popScope_of_frame st1 sc hsc h.1
    exact ⟨p1, FnsOk_of_functions_eq st1 _ p2 h.2.2⟩
  | returnSignal v st1 =>
    obtain ⟨p1, p2⟩ := popScope_of_frame st1 sc hsc h.1
    exact ⟨p1, FnsOk_of_functions_eq st1 _ p2 h.2.2⟩
  | breakSignal s => exact absurd h.1 (by decide)
  | continueSignal s => exact absurd h.1 (by decide)
  | error m => exact trivial
  | outOfFuel => exact trivial

theorem ExprInv_bind_gen {F α β : Type} (sc1 sc : List (List (String × Value F)))
    (r : Exec F α) (f : α → EvalVisitor F → Exec F β) (h1 : ExprInv sc1 r)
    (h2 : ∀ a st1, st1.scopes = sc1 → FnsOk st1 → ExprInv sc (f a st1)) :
    ExprInv sc (r.bind f) := by
  cases r with
  | ok a st1 => exact h2 a st1 h1.1 h1.2
  | breakSignal s => exact h1.elim
  | continueSignal s => exact h1.elim
  | returnSignal v s => exact h1.elim
  | error m => exact trivial
  | outOfFuel => exact trivial

theorem ExprInv_bind_state {F α β : Type} (st : EvalVisitor F) (r : Exec F α)
    (f : α → EvalVisitor F → Exec F β) (hne : st.scopes ≠ []) (h1 : ExprInv st.scopes r)
    (h2 : ∀ a st1, st1.scopes ≠ [] → FnsOk st1 → ExprInv st1.scopes (f a st1)) :
    ExprInv st.scopes (r.bind f) := by
  apply ExprInv_bind_gen st.scopes st.scopes r f h1
  intro a st1 hs hf1
  have h := h2 a st1 (by rw [hs]; exact hne) hf1
  rw [hs] at h
  exact h

theorem ExprInv_bind_stmt_state {F α β : Type} (inLoop : Bool) (st : EvalVisitor F)
    (r : Exec F α) (f : α → EvalVisitor F → Exec F β) (hne : st.scopes ≠ [])
    (h1 : ExprInv st.scopes r)
    (h2 : ∀ a st1, st1.scopes ≠ [] → FnsOk st1 → StmtInv inLoop st1.scopes.tail (f a st1)) :
    StmtInv inLoop st.scopes.tail (r.bind f) := by
  apply ExprInv_bind_stmt inLoop st.scopes r f h1
  intro a st1 hs hf1
  have h := h2 a st1 (by rw [hs]; exact hne) hf1
  rw [hs] at h
  exact h

theorem StmtInv_bind_state {F α β : Type} (inLoop : Bool) (st : EvalVisitor F)
    (r : Exec F α) (f : α → EvalVisitor F → Exec F β)
    (h1 : StmtInv inLoop st.scopes.tail r)
    (h2 : ∀ a st1, st1.scopes ≠ [] → FnsOk st1 → StmtInv inLoop st1.scopes.tail (f a st1)) :
    StmtInv inLoop st.scopes.tail (r.bind f) := by
  apply StmtInv_bind inLoop st.scopes.tail r f h1
  intro a st1 hs hne1 hf1
  have h := h2 a st1 hne1 hf1
  rw [hs] at h
  exact h

theorem allInv_zero (F : Type) [HostFloat F] : AllInv F 0 :=
  { test := fun _ _ _ _ => trivial
    orTest := fun _ _ _ _ => trivial
    orRest := fun _ _ _ _ _ => trivial
    andTest := fun _ _ _ _ => trivial
    andRest := fun _ _ _ _ _ => trivial
    notTest := fun _ _ _ _ => trivial
    comparison := fun _ _ _ _ => trivial
    comparisonRest := fun _ _ _ _ _ => trivial
    arithExpr := fun _ _ _ _ => trivial
    arithRest := fun _ _ _ _ _ => trivial
    term := fun _ _ _ _ => trivial
    termRest := fun _ _ _ _ _ => trivial
    factor := fun _ _ _ _ => trivial
    atomExpr := fun _ _ _ _ => trivial
    printArgs := fun _ _ _ _ _ => trivial
    callArgs := fun _ _ _ _ _ _ _ => trivial
    argument := fun _ _ _ _ => trivial
    atom := fun _ _ _ _ => trivial
    formatString := fun _ _ _ _ _ => trivial
    formatTests := fun _ _ _ _ _ _ => trivial
    testlist := fun _ _ _ _ => trivial
    defaults := fun _ _ _ _ _ _ => trivial
    stmt := fun _ _ _ _ _ _ => trivial
    ifBranches := fun _ _ _ _ _ _ _ _ => trivial
    whileLoop := fun _ _ _ _ _ _ => trivial
    suite := fun _ _ _ _ _ _ => trivial
    stmts := fun _ _ _ _ _ _ => trivial }

theorem inv_test {F : Type} [HostFloat F] (n : Nat) (ih : AllInv F n)
    (t : Test) (st : EvalVisitor F) (hne : st.scopes ≠ []) (hf : FnsOk st) :
    ExprInv st.scopes (visitTest (n + 1) t st) := by
  cases t with
  | mk o =>
    simp only [visitTest]
    exact ih.orTest o st hne hf

theorem inv_orTest {F : Type} [HostFloat F] (n : Nat) (ih : AllInv F n)
    (t : OrTest) (st : EvalVisitor F) (hne : st.scopes ≠ []) (hf : FnsOk st) :
    ExprInv st.scopes (visitOrTest (n + 1) t st) := by
  cases t with
  | mk first rest =>
    simp only [visitOrTest]
    exact ExprInv_bind_state st _ _ hne (ih.andTest first st hne hf)
      (fun a st1 hne1 hf1 => ih.orRest rest a st1 hne1 hf1)

theorem inv_orRest {F : Type} [HostFloat F] (n : Nat) (ih : AllInv F n)
    (rest : List AndTest) (r : Value F) (st : EvalVisitor F)
    (hne : st.scopes ≠ []) (hf : FnsOk st) :
    ExprInv st.scopes (visitOrRest (n + 1) rest r st) := by
  cases rest with
  | nil => exact ⟨rfl, hf⟩
  | cons t rest =>
    simp only [visitOrRest]
    split
    · exact ⟨rfl, hf⟩
    · exact ExprInv_bind_state st _ _ hne (ih.andTest t st hne hf)
        (fun a st1 hne1 hf1 => ih.orRest rest a st1 hne1 hf1)

theorem inv_andTest {F : Type} [HostFloat F] (n : Nat) (ih : AllInv F n)
    (t : AndTest) (st : EvalVisitor F) (hne : st.scopes ≠ []) (hf : FnsOk st) :
    ExprInv st.scopes (visitAndTest (n + 1) t st) := by
  cases t with
  | mk first rest =>
    simp only [visitAndTest]
    exact ExprInv_bind_state st _ _ hne (ih.notTest first st hne hf)
      (fun a st1 hne1 hf1 => ih.andRest rest a st1 hne1 hf1)

theorem inv_andRest {F : Type} [HostFloat F] (n : Nat) (ih : AllInv F n)
    (rest : List NotTest) (r : Value F) (st : EvalVisitor F)
    (hne : st.scopes ≠ []) (hf : FnsOk st) :
    ExprInv st.scopes (visitAndRest (n + 1) rest r st) := by
  cases rest with
  | nil => exact ⟨rfl, hf⟩
  | cons t rest =>
    simp only [visitAndRest]
    split
    · exact ⟨rfl, hf⟩
    · exact ExprInv_bind_state st _ _ hne (ih.notTest t st hne hf)
        (fun a st1 hne1 hf1 => ih.andRest rest a st1 hne1 hf1)

theorem inv_notTest {F : Type} [HostFloat F] (n : Nat) (ih : AllInv F n)
    (t : NotTest) (st : EvalVisitor F) (hne : st.scopes ≠ []) (hf : FnsOk st) :
    ExprInv st.scopes (visitNotTest (n + 1) t st) := by
  cases t with
  | not operand =>
    simp only [visitNotTest]
    exact ExprInv_bind_state st _ _ hne (ih.notTest operand st hne hf)
      (fun a st1 _ hf1 => ⟨rfl, hf1⟩)
  | comparison c =>
    simp only [visitNotTest]
    exact ih.comparison c st hne hf

theorem inv_comparison {F : Type} [HostFloat F] (n : Nat) (ih : AllInv F n)
    (t : Comparison) (st : EvalVisitor F) (hne : st.scopes ≠ [])
    (hf : FnsOk st) : ExprInv st.scopes (visitComparison (n + 1) t st) := by
  cases t with
  | mk first rest =>
    simp only [visitComparison]
    refine ExprInv_bind_state st _ _ hne (ih.arithExpr first st hne hf) ?_
    intro a st1 hne1 hf1
    split
    · exact ⟨rfl, hf1⟩
    · exact ih.comparisonRest rest a st1 hne1 hf1

theorem inv_comparisonRest {F : Type} [HostFloat F] (n : Nat) (ih : AllInv F n)
    (rest : List (String × ArithExpr)) (r : Value F)
    (st : EvalVisitor F) (hne : st.scopes ≠ []) (hf : FnsOk st) :
    ExprInv st.scopes (visitComparisonRest (n + 1) rest r st) := by
  cases rest with
  | nil => exact ⟨rfl, hf⟩
  | cons x rest =>
    obtain ⟨op, e⟩ := x
    simp only [visitComparisonRest]
    refine ExprInv_bind_state st _ _ hne (ih.arithExpr e st hne hf) ?_
    intro a st1 hne1 hf1
    split
    · exact ⟨rfl, hf1⟩
    · exact ih.comparisonRest rest a st1 hne1 hf1

theorem inv_arithExpr {F : Type} [HostFloat F] (n : Nat) (ih : AllInv F n)
    (t : ArithExpr) (st : EvalVisitor F) (hne : st.scopes ≠ [])
    (hf : FnsOk st) : ExprInv st.scopes (visitArithExpr (n + 1) t st) := by
  cases t with
  | mk first rest =>
    simp only [visitArithExpr]
    exact ExprInv_bind_state st _ _ hne (ih.term first st hne hf)
      (fun a st1 hne1 hf1 => ih.arithRest rest a st1 hne1 hf1)

theorem inv_arithRest {F : Type} [HostFloat F] (n : Nat) (ih : AllInv F n)
    (rest : List (String × Term)) (r : Value F) (st : EvalVisitor F)
    (hne : st.scopes ≠ []) (hf : FnsOk st) :
    ExprInv st.scopes (visitArithRest (n + 1) rest r st) := by
  cases rest with
  | nil => exact ⟨rfl, hf⟩
  | cons x rest =>
    obtain ⟨op, t⟩ := x
    simp only [visitArithRest]
    exact ExprInv_bind_state st _ _ hne (ih.term t st hne hf)
      (fun a st1 hne1 hf1 => ih.arithRest rest _ st1 hne1 hf1)

theorem inv_term {F : Type} [HostFloat F] (n : Nat) (ih : AllInv F n)
    (t : Term) (st : EvalVisitor F) (hne : st.scopes ≠ []) (hf : FnsOk st) :
    ExprInv st.scopes (visitTerm (n + 1) t st) := by
  cases t with
  | mk first rest =>
    simp only [visitTerm]
    exact ExprInv_bind_state st _ _ hne (ih.factor first st hne hf)
      (fun a st1 hne1 hf1 => ih.termRest rest a st1 hne1 hf1)

theorem inv_termRest {F : Type} [HostFloat F] (n : Nat) (ih : AllInv F n)
    (rest : List (String × Factor)) (r : Value F) (st : EvalVisitor F)
    (hne : st.scopes ≠ []) (hf : FnsOk st) :
    ExprInv st.scopes (visitTermRest (n + 1) rest r st) := by
  cases rest with
  | nil => exact ⟨rfl, hf⟩
  | cons x rest =>
    obtain ⟨op, f⟩ := x
    simp only [visitTermRest]
    refine ExprInv_bind_state st _ _ hne (ih.factor f st hne hf) ?_
    intro a st1 hne1 hf1
    exact ExprInv_bind_state st1 _ _ hne1 (ExprInv_ofRes _ st1 hf1)
      (fun b st2 hne2 hf2 => ih.termRest rest b st2 hne2 hf2)

theorem inv_factor {F : Type} [HostFloat F] (n : Nat) (ih : AllInv F n)
    (t : Factor) (st : EvalVisitor F) (hne : st.scopes ≠ []) (hf : FnsOk st) :
    ExprInv st.scopes (visitFactor (n + 1) t st) := by
  cases t with
  | unary op operand =>
    simp only [visitFactor]
    refine ExprInv_bind_state st _ _ hne (ih.factor operand st hne hf) ?_
    intro a st1 _ hf1
    split
    · exact ⟨rfl, hf1⟩
    · exact ⟨rfl, hf1⟩
  | atomExpr a =>
    simp only [visitFactor]
    exact ih.atomExpr a st hne hf

theorem inv_argument {F : Type} [HostFloat F] (n : Nat) (ih : AllInv F n)
    (t : Argument) (st : EvalVisitor F) (hne : st.scopes ≠ [])
    (hf : FnsOk st) : ExprInv st.scopes (visitArgument (n + 1) t st) := by
  cases t with
  | mk test0 text0 test1 =>
    simp only [visitArgument]
    exact ih.test test0 st hne hf

theorem inv_testlist {F : Type} [HostFloat F] (n : Nat) (ih : AllInv F n)
    (t : Testlist) (st : EvalVisitor F) (hne : st.scopes ≠ [])
    (hf : FnsOk st) : ExprInv st.scopes (visitTestlist (n + 1) t st) := by
  cases t with
  | mk first rest =>
    simp only [visitTestlist]
    exact ih.test first st hne hf

theorem inv_atom {F : Type} [HostFloat F] (n : Nat) (ih : AllInv F n)
    (t : Atom) (st : EvalVisitor F) (hne : st.scopes ≠ []) (hf : FnsOk st) :
    ExprInv st.scopes (visitAtom (n + 1) t st) := by
  cases t with
  | name s => exact ⟨rfl, hf⟩
  | number num =>
    simp only [visitAtom]
    split
    · split
      · exact ⟨rfl, hf⟩
      · exact trivial
    · exact ⟨rfl, hf⟩
  | strings first rest =>
    simp only [visitAtom]
    split
    · exact ⟨rfl, hf⟩
    · exact trivial
  | keyword text =>
    simp only [visitAtom]
    split
    · exact ⟨rfl, hf⟩
    · split
      · exact ⟨rfl, hf⟩
      · split
        · exact ⟨rfl, hf⟩
        · exact ⟨rfl, hf⟩
  | paren t =>
    simp only [visitAtom]
    exact ih.test t st hne hf
  | formatString children =>
    simp only [visitAtom]
    exact ih.formatString children [] st hne hf

theorem inv_formatString {F : Type} [HostFloat F] (n : Nat) (ih : AllInv F n)
    (children : List FormatChild) (result : List Char)
    (st : EvalVisitor F) (hne : st.scopes ≠ []) (hf : FnsOk st) :
    ExprInv st.scopes (visitFormatString (n + 1) children result st) := by
  cases children with
  | nil => exact ⟨rfl, hf⟩
  | cons c rest =>
    cases c with
    | token text =>
      simp only [visitFormatString]
      split
      · exact ih.formatString rest _ st hne hf
      · split
        · exact ih.formatString rest _ st hne hf
        · exact ih.formatString rest _ st hne hf
    | testlist tl =>
      cases tl with
      | mk first more =>
        simp only [visitFormatString]
        exact ExprInv_bind_state st _ _ hne (ih.formatTests (first :: more) true result st hne hf)
          (fun a st1 hne1 hf1 => ih.formatString rest a st1 hne1 hf1)

theorem inv_formatTests {F : Type} [HostFloat F] (n : Nat) (ih : AllInv F n)
    (tests : List Test) (isFirst : Bool) (result : List Char)
    (st : EvalVisitor F) (hne : st.scopes ≠ []) (hf : FnsOk st) :
    ExprInv st.scopes (visitFormatTests (n + 1) tests isFirst result st) := by
  cases tests with
  | nil => exact ⟨rfl, hf⟩
  | cons t rest =>
    simp only [visitFormatTests]
    exact ExprInv_bind_state st _ _ hne (ih.test t st hne hf)
      (fun a st1 hne1 hf1 => ih.formatTests rest false _ st1 hne1 hf1)

theorem inv_defaults {F : Type} [HostFloat F] (n : Nat) (ih : AllInv F n)
    (names : List String) (tests : List Test)
    (acc : List (String × Value F)) (st : EvalVisitor F) (hne : st.scopes ≠ [])
    (hf : FnsOk st) : ExprInv st.scopes (visitDefaults (n + 1) names tests acc st) := by
  cases names with
  | nil => cases tests <;> exact ⟨rfl, hf⟩
  | cons name names =>
    cases tests with
    | nil => exact ⟨rfl, hf⟩
    | cons t tests =>
      simp only [visitDefaults]
      exact ExprInv_bind_state st _ _ hne (ih.test t st hne hf)
        (fun a st1 hne1 hf1 => ih.defaults names tests _ st1 hne1 hf1)

theorem inv_printArgs {F : Type} [HostFloat F] (n : Nat) (ih : AllInv F n)
    (args : List Argument) (isFirst : Bool) (st : EvalVisitor F)
    (hne : st.scopes ≠ []) (hf : FnsOk st) :
    ExprInv st.scopes (visitPrintArgs (n + 1) args isFirst st) := by
  cases args with
  | nil => exact ⟨rfl, hf⟩
  | cons arg rest =>
    simp only [visitPrintArgs]
    have h1 : ExprInv st.scopes
        (visitArgument n arg (if isFirst = true then st else st.write [' '])) := by
      cases isFirst with
      | true => exact ih.argument arg st hne hf
      | false => exact ih.argument arg (st.write [' ']) hne hf
    refine ExprInv_bind_state st _ _ hne h1 ?_
    intro a st1 hne1 hf1
    exact ih.printArgs rest false (st1.write a.toString) hne1 hf1

theorem inv_callArgs {F : Type} [HostFloat F] (n : Nat) (ih : AllInv F n)
    (funcName : String) (args : List Argument) (idx : Nat)
    (passed : List (String × Value F)) (st : EvalVisitor F) (hne : st.scopes ≠ [])
    (hf : FnsOk st) :
    ExprInv st.scopes (visitCallArgs (n + 1) funcName args idx passed st) := by
  cases args with
  | nil => exact ⟨rfl, hf⟩
  | cons arg rest =>
    obtain ⟨test0, text0, test1⟩ := arg
    cases test1 with
    | some t1 =>
      simp only [visitCallArgs]
      exact ExprInv_bind_state st _ _ hne (ih.test t1 st hne hf)
        (fun a st1 hne1 hf1 => ih.callArgs funcName rest idx _ st1 hne1 hf1)
    | none =>
      simp only [visitCallArgs]
      split
      · exact ExprInv_bind_state st _ _ hne (ih.test test0 st hne hf)
          (fun a st1 hne1 hf1 => ih.callArgs funcName rest (idx + 1) _ st1 hne1 hf1)
      · exact ih.callArgs funcName rest idx passed st hne hf

theorem inv_atomExpr {F : Type} [HostFloat F] (n : Nat) (ih : AllInv F n)
    (t : AtomExpr) (st : EvalVisitor F) (hne : st.scopes ≠ []) (hf : FnsOk st) :
    ExprInv st.scopes (visitAtomExpr (n + 1) t st) := by
  obtain ⟨atom, trailer⟩ := t
  cases trailer with
  | none => cases atom <;> exact ih.atom _ st hne hf
  | some tr =>
    obtain ⟨arglist⟩ := tr
    cases atom with
    | number num => exact ⟨rfl, hf⟩
    | strings first rest => exact ⟨rfl, hf⟩
    | keyword text => exact ⟨rfl, hf⟩
    | paren t => exact ⟨rfl, hf⟩
    | formatString children => exact ⟨rfl, hf⟩
    | name funcName =>
      simp only [visitAtomExpr]
      split
      · refine ExprInv_bind_state st _ _ hne ?_ (fun _ st1 _ hf1 => ⟨rfl, hf1⟩)
        cases arglist with
        | some args => exact ih.printArgs args true st hne hf
        | none => exact ⟨rfl, hf⟩
      · split
        · split
          · exact ExprInv_bind_state st _ _ hne (ih.argument _ st hne hf)
              (fun _ st1 _ hf1 => ⟨rfl, hf1⟩)
          · exact ⟨rfl, hf⟩
        · split
          · split
            · exact ExprInv_bind_state st _ _ hne (ih.argument _ st hne hf)
                (fun _ st1 _ hf1 => ⟨rfl, hf1⟩)
            · exact ⟨rfl, hf⟩
          · split
            · split
              · exact ExprInv_bind_state st _ _ hne (ih.argument _ st hne hf)
                  (fun _ st1 _ hf1 => ⟨rfl, hf1⟩)
              · exact ⟨rfl, hf⟩
            · split
              · split
                · exact ExprInv_bind_state st _ _ hne (ih.argument _ st hne hf)
                    (fun _ st1 _ hf1 => ⟨rfl, hf1⟩)
                · exact ⟨rfl, hf⟩
              · split
                · have hargs : ExprInv ([] :: st.scopes)
                      (match arglist with
                        | some args => visitCallArgs n funcName args 0 [] st.pushScope
                        | none => (.ok [] st.pushScope : Exec F (List (String × Value F)))) := by
                    cases arglist with
                    | some args =>
                      exact ih.callArgs funcName args 0 [] st.pushScope (List.cons_ne_nil _ _) hf
                    | none => exact ⟨rfl, hf⟩
                  refine ExprInv_bind_gen ([] :: st.scopes) st.scopes _ _ hargs ?_
                  intro passed st1 hs hf1
                  split
                  · exact trivial
                  · rename_i func hm
                    apply finishCall_inv st.scopes hne
                    obtain ⟨b1, b2, b3⟩ := bindParameters_frame passed func.defaults func.params
                      st1 (by rw [hs]; exact List.cons_ne_nil _ _)
                    have h := ih.suite false func.suite
                      (bindParameters passed func.defaults func.params st1)
                      (hf1 funcName func hm) b2 (FnsOk_of_functions_eq st1 _ b3 hf1)
                    rw [b1, hs] at h
                    exact h
                · exact ⟨rfl, hf⟩

theorem inv_stmts {F : Type} [HostFloat F] (n : Nat) (ih : AllInv F n)
    (inLoop : Bool) (l : List Stmt) (st : EvalVisitor F) (hok : ∀ s, s ∈ l → StmtOk inLoop s)
    (hne : st.scopes ≠ []) (hf : FnsOk st) :
    StmtInv inLoop st.scopes.tail (visitStmts (n + 1) l st) := by
  cases l with
  | nil => exact ⟨rfl, hne, hf⟩
  | cons s rest =>
    simp only [visitStmts]
    exact StmtInv_bind_state inLoop st _ _
      (ih.stmt inLoop s st (hok s (List.mem_cons_self _ _)) hne hf)
      (fun _ st1 hne1 hf1 =>
        ih.stmts inLoop rest st1 (fun x hx => hok x (List.mem_cons_of_mem _ hx)) hne1 hf1)

theorem inv_suite {F : Type} [HostFloat F] (n : Nat) (ih : AllInv F n)
    (inLoop : Bool) (s : Suite) (st : EvalVisitor F) (hok : SuiteOk inLoop s)
    (hne : st.scopes ≠ []) (hf : FnsOk st) :
    StmtInv inLoop st.scopes.tail (visitSuite (n + 1) s st) := by
  cases hok with
  | simple _ s1 h =>
    simp only [visitSuite]
    exact ih.stmt inLoop s1 st h hne hf
  | block _ l h =>
    simp only [visitSuite]
    exact ih.stmts inLoop l st h hne hf

theorem inv_ifBranches {F : Type} [HostFloat F] (n : Nat) (ih : AllInv F n)
    (inLoop : Bool) (branches : List (Test × Suite)) (elseSuite : Option Suite)
    (st : EvalVisitor F) (h1 : ∀ p, p ∈ branches → SuiteOk inLoop p.2)
    (h2 : ∀ s, elseSuite = some s → SuiteOk inLoop s) (hne : st.scopes ≠ []) (hf : FnsOk st) :
    StmtInv inLoop st.scopes.tail (visitIfBranches (n + 1) branches elseSuite st) := by
  cases branches with
  | nil =>
    cases elseSuite with
    | none => exact ⟨rfl, hne, hf⟩
    | some s =>
      simp only [visitIfBranches]
      exact ih.suite inLoop s st (h2 s rfl) hne hf
  | cons p rest =>
    obtain ⟨test, suite⟩ := p
    simp only [visitIfBranches]
    refine ExprInv_bind_stmt_state inLoop st _ _ hne (ih.test test st hne hf) ?_
    intro c st1 hne1 hf1
    split
    · exact ih.suite inLoop suite st1 (h1 (test, suite) (List.mem_cons_self _ _)) hne1 hf1
    · exact ih.ifBranches inLoop rest elseSuite st1
        (fun q hq => h1 q (List.mem_cons_of_mem _ hq)) h2 hne1 hf1

theorem inv_whileLoop {F : Type} [HostFloat F] (n : Nat) (ih : AllInv F n)
    (test : Test) (suite : Suite) (st : EvalVisitor F) (hok : SuiteOk true suite)
    (hne : st.scopes ≠ []) (hf : FnsOk st) :
    StmtInv false st.scopes.tail (visitWhile (n + 1) test suite st) := by
  simp only [visitWhile]
  refine ExprInv_bind_stmt_state false st _ _ hne (ih.test test st hne hf) ?_
  intro c st1 hne1 hf1
  split
  · exact ⟨rfl, hne1, hf1⟩
  · have hb := ih.suite true suite st1 hok hne1 hf1
    cases hr : visitSuite n suite st1 with
    | ok u st2 =>
      rw [hr] at hb
      have h := ih.whileLoop test suite st2 hok hb.2.1 hb.2.2
      rw [hb.1] at h
      exact h
    | continueSignal st2 =>
      rw [hr] at hb
      have h := ih.whileLoop test suite st2 hok hb.2.2.1 hb.2.2.2
      rw [hb.2.1] at h
      exact h
    | breakSignal st2 =>
      rw [hr] at hb
      exact ⟨hb.2.1, hb.2.2.1, hb.2.2.2⟩
    | returnSignal v st2 =>
      rw [hr] at hb
      exact hb
    | error m => exact trivial
    | outOfFuel => exact trivial

theorem inv_stmt {F : Type} [HostFloat F] (n : Nat) (ih : AllInv F n)
    (inLoop : Bool) (s : Stmt) (st : EvalVisitor F) (hok : StmtOk inLoop s)
    (hne : st.scopes ≠ []) (hf : FnsOk st) :
    StmtInv inLoop st.scopes.tail (visitStmt (n + 1) s st) := by
  cases hok with
  | exprStmt _ first rest aug =>
    cases rest with
    | nil =>
      simp only [visitStmt]
      exact ExprInv_bind_stmt_state inLoop st _ _ hne (ih.testlist first st hne hf)
        (fun _ st1 hne1 hf1 => ⟨rfl, hne1, hf1⟩)
    | cons t rest1 =>
      cases aug with
      | none =>
        simp only [visitStmt]
        refine ExprInv_bind_stmt_state inLoop st _ _ hne (ih.testlist _ st hne hf) ?_
        intro v st1 hne1 hf1
        obtain ⟨a1, a2, a3⟩ := assignTargets_frame (first :: (t :: rest1).dropLast).reverse v
          st1 hne1
        exact ⟨a1, a2, FnsOk_of_functions_eq st1 _ a3 hf1⟩
      | some op =>
        simp only [visitStmt]
        split
        · refine ExprInv_bind_stmt_state inLoop st _ _ hne (ih.testlist t st hne hf) ?_
          intro v st1 hne1 hf1
          refine ExprInv_bind_stmt_state inLoop st1 _ _ hne1 (ExprInv_ofRes _ st1 hf1) ?_
          intro w st2 hne2 hf2
          obtain ⟨a1, a2, a3⟩ := setVariable_frame st2 (testlistTarget first) w hne2
          exact ⟨a1, a2, FnsOk_of_functions_eq st2 _ a3 hf2⟩
        · exact ⟨rfl, hne, hf⟩
  | breakStmt => exact ⟨rfl, rfl, hne, hf⟩
  | continueStmt => exact ⟨rfl, rfl, hne, hf⟩
  | returnStmt _ value =>
    cases value with
    | none => exact ⟨rfl, hne, hf⟩
    | some tl =>
      simp only [visitStmt]
      exact ExprInv_bind_stmt_state inLoop st _ _ hne (ih.testlist tl st hne hf)
        (fun _ st1 hne1 hf1 => ⟨rfl, hne1, hf1⟩)
  | ifStmt _ branches elseSuite h1 h2 =>
    simp only [visitStmt]
    exact ih.ifBranches inLoop branches elseSuite st h1 h2 hne hf
  | whileStmt _ test suite h1 =>
    simp only [visitStmt]
    exact StmtInv_mono inLoop _ _ (ih.whileLoop test suite st h1 hne hf)
  | defStmt _ name args suite h1 =>
    cases args with
    | none => exact ⟨rfl, hne, FnsOk_defineFunction st name _ hf h1⟩
    | some pt =>
      obtain ⟨params, tests⟩ := pt
      simp only [visitStmt]
      split
      · refine ExprInv_bind_stmt_state inLoop st _ _ hne (ih.defaults _ tests [] st hne hf) ?_
        intro defaults st1 hne1 hf1
        exact ⟨rfl, hne1, FnsOk_defineFunction st1 name _ hf1 h1⟩
      · exact trivial

theorem allInv_succ {F : Type} [HostFloat F] (n : Nat) (ih : AllInv F n) : AllInv F (n + 1) :=
  { test := inv_test n ih
    orTest := inv_orTest n ih
    orRest := inv_orRest n ih
    andTest := inv_andTest n ih
    andRest := inv_andRest n ih
    notTest := inv_notTest n ih
    comparison := inv_comparison n ih
    comparisonRest := inv_comparisonRest n ih
    arithExpr := inv_arithExpr n ih
    arithRest := inv_arithRest n ih
    term := inv_term n ih
    termRest := inv_termRest n ih
    factor := inv_factor n ih
    atomExpr := inv_atomExpr n ih
    printArgs := inv_printArgs n ih
    callArgs := inv_callArgs n ih
    argument := inv_argument n ih
    atom := inv_atom n ih
    formatString := inv_formatString n ih
    formatTests := inv_formatTests n ih
    testlist := inv_testlist n ih
    defaults := inv_defaults n ih
    stmt := inv_stmt n ih
    ifBranches := inv_ifBranches n ih
    whileLoop := inv_whileLoop n ih
    suite := inv_suite n ih
    stmts := inv_stmts n ih }

theorem allInv (F : Type) [HostFloat F] : ∀ fuel, AllInv F fuel
  | 0 => allInv_zero F
  | n + 1 => allInv_succ n (allInv F n)

theorem call_finish_frame {F : Type} [HostFloat F] (fuel : Nat) (st s1 st1 : EvalVisitor F)
    (func : FunctionDef F) (passed : List (String × Value F)) (v : Value F)
    (hne : st.scopes ≠ []) (hs : s1.scopes = [] :: st.scopes) (hf1 : FnsOk s1)
    (hok : SuiteOk false func.suite)
    (h : finishCall (visitSuite fuel func.suite
      (bindParameters passed func.defaults func.params s1)) = .ok v st1) :
    (∃ (sB sB1 : EvalVisitor F) (scope scope1 : List (String × Value F)),
      sB.scopes = scope :: st.scopes ∧
      (visitSuite fuel func.suite sB = .ok () sB1 ∨
        visitSuite fuel func.suite sB = .returnSignal v sB1) ∧
      sB1.scopes = scope1 :: st.scopes ∧ st1 = sB1.popScope) ∧
    st1.scopes = st.scopes := by
  obtain ⟨b1, b2, b3⟩ := bindParameters_frame passed func.defaults func.params s1
    (by rw [hs]; exact List.cons_ne_nil _ _)
  rw [hs, List.tail_cons] at b1
  have hinv := (allInv F fuel).suite false func.suite
    (bindParameters passed func.defaults func.params s1) hok b2
    (FnsOk_of_functions_eq s1 _ b3 hf1)
  rw [b1] at hinv
  have hcons : ∀ (s : EvalVisitor F), s.scopes.tail = st.scopes → s.scopes ≠ [] →
      ∃ scope, s.scopes = scope :: st.scopes := by
    intro s h1 h2
    cases hsc : s.scopes with
    | nil => exact absurd hsc h2
    | cons top tl =>
      rw [hsc, List.tail_cons] at h1
      exact ⟨top, by rw [h1]⟩
  obtain ⟨scope, hscope⟩ := hcons _ b1 b2
  cases hr : visitSuite fuel func.suite (bindParameters passed func.defaults func.params s1) with
  | ok u sB1 =>
    rw [hr] at h hinv
    simp only [finishCall, Exec.ok.injEq] at h
    obtain ⟨scope1, hscope1⟩ := hcons sB1 hinv.1 hinv.2.1
    refine ⟨⟨_, sB1, scope, scope1, hscope, Or.inl hr, hscope1, h.2.symm⟩, ?_⟩
    rw [← h.2]
    exact (popScope_of_frame sB1 st.scopes hne hinv.1).1
  | returnSignal w sB1 =>
    rw [hr] at h hinv
    simp only [finishCall, Exec.ok.injEq] at h
    obtain ⟨scope1, hscope1⟩ := hcons sB1 hinv.1 hinv.2.1
    refine ⟨⟨_, sB1, scope, scope1, hscope, Or.inr (by rw [hr, h.1]), hscope1, h.2.symm⟩, ?_⟩
    rw [← h.2]
    exact (popScope_of_frame sB1 st.scopes hne hinv.1).1
  | breakSignal s => rw [hr] at h; simp [finishCall] at h
  | continueSignal s => rw [hr] at h; simp [finishCall] at h
  | error m => rw [hr] at h; simp [finishCall] at h
  | outOfFuel => rw [hr] at h; simp [finishCall] at h

theorem progLocal_output :
    outputOf (visitFileInput 40 progLocal (EvalVisitor.init : EvalVisitor NoFloat)) =
      some ['7', '\n', 'N', 'o', 'n', 'e', '\n'] := by decide

theorem progLocal_scopes :
    scopesOf (visitFileInput 40 progLocal (EvalVisitor.init : EvalVisitor NoFloat)) =
      some [[("r", intValue "7")]] := by decide

section IsolationClaims

/-- Counterexample to C11 as worded: with `def h(): break` and
`def g(): y = 5; while 1: h()`, the call `g()` made with the scope stack `[[]]` completes
with the value `None`, and the body of `g` ends normally (the loop of `g` catches the break
signal that left the call of `h` without the pop of its scope); yet the scope stack after
the call has depth 2, not 1, and the variable `y` assigned inside `g` is visible after the
return. -/
theorem C11_counterexample :
    visitAtomExpr 32 (.mk (.name "g") (some (.mk none))) (stateLeak [[]])
      = .ok .none (stateLeak [[("y", intValue "5")], []]) ∧
    visitSuite 31 bodyG (stateLeak [[], []])
      = .ok () (stateLeak [[], [("y", intValue "5")], []]) ∧
    (stateLeak [[("y", intValue "5")], []]).scopes ≠ (stateLeak [[]]).scopes ∧
    (stateLeak [[]]).getVariable "y" = .none ∧
    (stateLeak [[("y", intValue "5")], []]).getVariable "y" = intValue "5" ∧
    scopesOf (visitFileInput 40 progLeak (EvalVisitor.init : EvalVisitor NoFloat))
      = some [[("y", intValue "5")], []] :=
  ⟨rfl, rfl, by decide, rfl, rfl, by decide⟩

/-- C11 (amended): in a state whose functions all have well-formed bodies (`break` and
`continue` only inside a `while` loop of the same function body), every call of a user
function that completes ran the body of the function with exactly one scope pushed on the
caller's stack, the body ended normally or by a return signal, and that scope was popped:
the scope stack after the call is the scope stack before the call, so every variable
reads after the call as it did before.  The program `def f(): t = 7; return t`,
`r = f()`, `print(r)`, `print(t)` prints `7` and `None` and ends with `r` alone bound. -/
theorem C11_scope_isolation {F : Type} [HostFloat F] (fuel : Nat) (st st1 : EvalVisitor F)
    (funcName : String) (arglist : Option (List Argument)) (v : Value F)
    (hne : st.scopes ≠ [])
    (hfns : FnsOk st)
    (hname : funcName ∉ ["print", "int", "float", "str", "bool"])
    (hdef : (mapFind st.functions funcName).isSome = true)
    (hcall : visitAtomExpr (fuel + 1) (.mk (.name funcName) (some (.mk arglist))) st
      = .ok v st1) :
    (∃ (func : FunctionDef F) (sB sB1 : EvalVisitor F)
        (scope scope1 : List (String × Value F)),
      sB.scopes = scope :: st.scopes ∧
      (visitSuite fuel func.suite sB = .ok () sB1 ∨
        visitSuite fuel func.suite sB = .returnSignal v sB1) ∧
      sB1.scopes = scope1 :: st.scopes ∧ st1 = sB1.popScope) ∧
    st1.scopes = st.scopes ∧
    (∀ x, st1.getVariable x = st.getVariable x) ∧
    outputOf (visitFileInput 40 progLocal (EvalVisitor.init : EvalVisitor NoFloat)) =
      some ['7', '\n', 'N', 'o', 'n', 'e', '\n'] ∧
    scopesOf (visitFileInput 40 progLocal (EvalVisitor.init : EvalVisitor NoFloat)) =
      some [[("r", intValue "7")]] := by
  simp only [List.mem_cons, List.mem_singleton, List.not_mem_nil, or_false, not_or] at hname
  obtain ⟨n1, n2, n3, n4, n5⟩ := hname
  have key : ∀ (r : Exec F (List (String × Value F))), ExprInv ([] :: st.scopes) r →
      (r.bind fun passedArgs s1 =>
        match mapFind s1.functions funcName with
        | none => .error "function table entry lost"
        | some func =>
          finishCall (visitSuite fuel func.suite
            (bindParameters passedArgs func.defaults func.params s1))) = .ok v st1 →
      (∃ (func : FunctionDef F) (sB sB1 : EvalVisitor F)
          (scope scope1 : List (String × Value F)),
        sB.scopes = scope :: st.scopes ∧
        (visitSuite fuel func.suite sB = .ok () sB1 ∨
          visitSuite fuel func.suite sB = .returnSignal v sB1) ∧
        sB1.scopes = scope1 :: st.scopes ∧ st1 = sB1.popScope) ∧
      st1.scopes = st.scopes := by
    intro r hargs h
    cases r with
    | ok passed s1 =>
      simp only [Exec.bind] at h
      split at h
      · simp at h
      · rename_i func hm
        obtain ⟨h1, h2⟩ := call_finish_frame fuel st s1 st1 func passed v hne hargs.1 hargs.2
          (hargs.2 funcName func hm) h
        exact ⟨⟨func, h1⟩, h2⟩
    | breakSignal s => exact hargs.elim
    | continueSignal s => exact hargs.elim
    | returnSignal w s => exact hargs.elim
    | error m => simp [Exec.bind] at h
    | outOfFuel => simp [Exec.bind] at h
  have hmain : (∃ (func : FunctionDef F) (sB sB1 : EvalVisitor F)
        (scope scope1 : List (String × Value F)),
      sB.scopes = scope :: st.scopes ∧
      (visitSuite fuel func.suite sB = .ok () sB1 ∨
        visitSuite fuel func.suite sB = .returnSignal v sB1) ∧
      sB1.scopes = scope1 :: st.scopes ∧ st1 = sB1.popScope) ∧
    st1.scopes = st.scopes := by
    simp only [visitAtomExpr, n1, n2, n3, n4, n5, if_false, hdef, if_true] at hcall
    cases arglist with
    | some args =>
      exact key _ ((allInv F fuel).callArgs funcName args 0 [] st.pushScope
        (List.cons_ne_nil _ _) hfns) hcall
    | none => exact key (.ok [] st.pushScope) ⟨rfl, hfns⟩ hcall
  refine ⟨hmain.1, hmain.2, ?_, progLocal_output, progLocal_scopes⟩
  intro x
  simp only [EvalVisitor.getVariable, hmain.2]

/-- Witness of C11 (amended): with `def f(): t = 7; return t` defined and `t` bound to 1,
the call `f()` returns 7 and leaves the scope stack as it was. -/
theorem C11_scope_isolation_witness :
    visitAtomExpr (31 + 1) (.mk (.name "f") (some (.mk none)))
        (stateLocal [[("t", intValue "1")]])
      = .ok (intValue "7") (stateLocal [[("t", intValue "1")]]) ∧
    (∃ (func : FunctionDef NoFloat) (sB sB1 : EvalVisitor NoFloat)
        (scope scope1 : List (String × Value NoFloat)),
      sB.scopes = scope :: (stateLocal [[("t", intValue "1")]]).scopes ∧
      (visitSuite 31 func.suite sB = .ok () sB1 ∨
        visitSuite 31 func.suite sB = .returnSignal (intValue "7") sB1) ∧
      sB1.scopes = scope1 :: (stateLocal [[("t", intValue "1")]]).scopes ∧
      stateLocal [[("t", intValue "1")]] = sB1.popScope) :=
  ⟨rfl, (C11_scope_isolation 31 (stateLocal [[("t", intValue "1")]])
    (stateLocal [[("t", intValue "1")]]) "f" none (intValue "7") (by decide)
    (by
      intro name func h
      simp only [stateLocal, mapFind] at h
      split at h
      · cases h
        exact SuiteOk.block false _ (fun s hs => by
          simp only [List.mem_cons, List.mem_singleton, List.not_mem_nil, or_false] at hs
          rcases hs with rfl | rfl
          · exact StmtOk.exprStmt false _ _ _
          · exact StmtOk.returnStmt false _)
      · cases h)
    (by decide) rfl rfl).1⟩

end IsolationClaims

section LongDivisionClaim

/-- C30: in the long division of canonical magnitudes `a` by `b` with `b` nonzero, the
running remainder starts empty (value 0, below `b`), and one step of the digit loop started with a running remainder below `b` appends the digit,
runs the repeated-subtraction loop to its end within 9 body executions (fuel 9 suffices),
counts at most 9 subtractions and leaves a remainder below `b` again; the whole division
returns with that fuel, every character of the quotient is a decimal digit, and the pair
`(q, r)` satisfies `a = b * q + r` with `0 ≤ r < b`.  For 1000 and 7 the result is
`("142", "6")`. -/
theorem C30_long_division (a b : List Char) (ha : CanonMag a) (hb : CanonMag b)
    (hb0 : b ≠ ['0']) :
    val ([] : List Char) < val b ∧
    (∀ (remainder : List Char) (digit : Char), IsDigits remainder → IsDigits [digit] →
      val remainder < val b →
      ∃ r1 count, absDivInner b 9 (stripLeadingZeros (remainder ++ [digit])) 0 = some (r1, count) ∧
        0 ≤ count ∧ count ≤ 9 ∧ val r1 < val b ∧ IsDigits [charOf count] ∧
        val remainder * 10 + digitOf digit = count * val b + val r1) ∧
    (∃ q r, absDiv 9 a b = .ok (q, r) ∧ IsDigits q ∧ IsDigits r ∧
      val a = val b * val q + val r ∧ 0 ≤ val r ∧ val r < val b) ∧
    absDiv 9 ['1', '0', '0', '0'] ['7'] = .ok (['1', '4', '2'], ['6']) := by
  refine ⟨by simpa using canon_val_pos hb hb0, ?_, ?_, by decide⟩
  · intro remainder digit hr hd hv
    have hd0 := digitOf_nonneg hd.head
    have hd9 := digitOf_le hd.head
    have hdig : IsDigits (remainder ++ [digit]) := hr.append hd
    have hcan : CanonMag (stripLeadingZeros (remainder ++ [digit])) :=
      stripLeadingZeros_canon (by simp) hdig
    have hval : val (stripLeadingZeros (remainder ++ [digit]))
        = val remainder * 10 + digitOf digit := by
      rw [stripLeadingZeros_val, val_snoc]
    obtain ⟨r1, c1, e1, _, e3, e4, e5, e6⟩ :=
      absDivInner_spec hb 9 9 (stripLeadingZeros (remainder ++ [digit])) 0 hcan le_rfl
        (by rw [hval]; push_cast; linarith)
    simp only [zero_add, sub_zero] at e4 e6
    have hc9 : c1 ≤ 9 := by exact_mod_cast e6
    refine ⟨r1, c1, e1, e5, hc9, e3, IsDigits.cons (charOf_isDigit e5 hc9) isDigits_nil, ?_⟩
    rw [← hval]
    exact e4
  · obtain ⟨q, r, h1, h2, h3, h4, h5, h6⟩ := absDiv_spec ha hb hb0 (le_refl 9)
    exact ⟨q, r, h1, h2.2.1, h3.2.1, h4, h5, h6⟩

/-- Witness of C30: the division of 2024 by 12. -/
theorem C30_long_division_witness :
    ∃ q r, absDiv 9 ['2', '0', '2', '4'] ['1', '2'] = .ok (q, r) ∧ IsDigits q ∧ IsDigits r ∧
      val ['2', '0', '2', '4'] = val ['1', '2'] * val q + val r ∧ 0 ≤ val r ∧
      val r < val ['1', '2'] :=
  (C30_long_division ['2', '0', '2', '4'] ['1', '2'] (by decide) (by decide)
    (by decide)).2.2.1

end LongDivisionClaim

/-! ## If statements -/

theorem visitIfBranches_skip {F : Type} [HostFloat F] (rest : List (Test × Suite))
    (elseSuite : Option Suite) :
    ∀ (pre : List (Test × Suite)) (pvals : List (Value F)) (g : Nat) (st stk : EvalVisitor F),
    OperandsEvaluateTo visitTest g st (pre.map Prod.fst) pvals stk →
    (∀ u ∈ pvals, u.toBool = false) →
    visitIfBranches (g + 1) (pre ++ rest) elseSuite st
      = visitIfBranches (g - pre.length + 1) rest elseSuite stk := by
  intro pre
  induction pre with
  | nil =>
    intro pvals g st stk h _
    cases pvals with
    | cons u us => cases g <;> simp [OperandsEvaluateTo] at h
    | nil =>
      have hst : stk = st := by cases g <;> simpa [OperandsEvaluateTo] using h
      subst hst
      rfl
  | cons p ps ih =>
    intro pvals g st stk h hfalsy
    obtain ⟨t, s⟩ := p
    cases pvals with
    | nil => cases g <;> simp [OperandsEvaluateTo] at h
    | cons u us =>
      cases g with
      | zero => simp [OperandsEvaluateTo] at h
      | succ g1 =>
        simp only [List.map_cons, OperandsEvaluateTo] at h
        obtain ⟨st1, h1, h2⟩ := h
        have hu := hfalsy u (List.mem_cons_self _ _)
        simp only [List.cons_append, visitIfBranches, h1, Exec.bind, hu, Bool.false_eq_true,
          if_false, List.length_cons, Nat.add_sub_add_right]
        exact ih us g1 st1 stk h2 (fun w hw => hfalsy w (List.mem_cons_of_mem _ hw))

theorem progIfChain_output :
    outputOf (visitFileInput 40 progIfChain (EvalVisitor.init : EvalVisitor NoFloat)) =
      some ['2', '\n'] := by decide

theorem progIfEffects_output :
    outputOf (visitFileInput 50 progIfEffects (EvalVisitor.init : EvalVisitor NoFloat)) =
      some ['0', '\n', '1', '\n', '8', '\n'] := by decide

theorem progIfNone_output :
    outputOf (visitFileInput 50 (progIfNone true) (EvalVisitor.init : EvalVisitor NoFloat)) =
      some ['0', '\n', '0', '\n', '6', '\n', '5', '\n'] ∧
    outputOf (visitFileInput 50 (progIfNone false) (EvalVisitor.init : EvalVisitor NoFloat)) =
      some ['0', '\n', '0', '\n', '5', '\n'] := by
  constructor <;> decide

section IfClaim

/-- C21: an `if` statement visits its tests in order.  When the tests of the branches
`pre` evaluate to falsy values (threading the state), then: if the next test evaluates to a
truthy value, the statement does exactly what the suite of that branch does in the state
reached, whatever the later branches and the `else` suite are (none of their tests or
suites is visited); if `pre` is the whole list of branches, the statement does what the
`else` suite does when there is one and completes without any effect otherwise.  With
`x = 5` the chain `if x < 3 … elif x < 10 … elif x < 20 … else …` runs its second suite
only; with `z`, `f`, `g` printing 0, 1, 2, `if z(): … elif f(): … elif g(): … else: …`
never calls `g`. -/
theorem C21_if_statement {F : Type} [HostFloat F] (fuel : Nat) (st stk : EvalVisitor F)
    (pre : List (Test × Suite)) (pvals : List (Value F))
    (hpre : OperandsEvaluateTo visitTest fuel st (pre.map Prod.fst) pvals stk)
    (hfalsy : ∀ u ∈ pvals, u.toBool = false) :
    (∀ (t : Test) (s : Suite) (post : List (Test × Suite)) (elseSuite : Option Suite)
        (v : Value F) (st1 : EvalVisitor F),
      visitTest (fuel - pre.length) t stk = .ok v st1 → v.toBool = true →
      visitStmt (fuel + 2) (.ifStmt (pre ++ (t, s) :: post) elseSuite) st
        = visitSuite (fuel - pre.length) s st1) ∧
    (∀ s : Suite, visitStmt (fuel + 2) (.ifStmt pre (some s)) st
        = visitSuite (fuel - pre.length) s stk) ∧
    visitStmt (fuel + 2) (.ifStmt pre none) st = .ok () stk ∧
    outputOf (visitFileInput 40 progIfChain (EvalVisitor.init : EvalVisitor NoFloat)) =
      some ['2', '\n'] ∧
    outputOf (visitFileInput 50 progIfEffects (EvalVisitor.init : EvalVisitor NoFloat)) =
      some ['0', '\n', '1', '\n', '8', '\n'] ∧
    outputOf (visitFileInput 50 (progIfNone true) (EvalVisitor.init : EvalVisitor NoFloat)) =
      some ['0', '\n', '0', '\n', '6', '\n', '5', '\n'] ∧
    outputOf (visitFileInput 50 (progIfNone false) (EvalVisitor.init : EvalVisitor NoFloat)) =
      some ['0', '\n', '0', '\n', '5', '\n'] := by
  refine ⟨?_, ?_, ?_, progIfChain_output, progIfEffects_output, progIfNone_output.1,
    progIfNone_output.2⟩
  · intro t s post elseSuite v st1 ht hv
    have hskip := visitIfBranches_skip ((t, s) :: post) elseSuite pre pvals fuel st stk hpre
      hfalsy
    rw [visitStmt, hskip, visitIfBranches]
    simp only [ht, Exec.bind, hv, if_true]
  · intro s
    have hskip := visitIfBranches_skip [] (some s) pre pvals fuel st stk hpre hfalsy
    rw [List.append_nil] at hskip
    rw [visitStmt, hskip, visitIfBranches]
  · have hskip := visitIfBranches_skip [] none pre pvals fuel st stk hpre hfalsy
    rw [List.append_nil] at hskip
    rw [visitStmt, hskip, visitIfBranches]

/-- Witness of C21: with `f`, `g`, `z` of `progPrinters` defined, in
`if z(): print(7) elif f(): print(8) elif g(): print(9) else: print(6)` the test `z()`
is falsy and `f()` truthy, so the statement does what `print(8)` does after the outputs of
`z` and `f`. -/
theorem C21_if_statement_witness :
    visitStmt (40 + 2)
        (.ifStmt ([(Test.call "z" [], Suite.simple (Stmt.print (Test.number "7")))] ++
          (Test.call "f" [], Suite.simple (Stmt.print (Test.number "8"))) ::
          [(Test.call "g" [], Suite.simple (Stmt.print (Test.number "9")))])
          (some (Suite.simple (Stmt.print (Test.number "6"))))) (statePrinters [])
      = visitSuite (40 - 1) (Suite.simple (Stmt.print (Test.number "8")))
          (statePrinters ['0', '\n', '1', '\n']) :=
  (C21_if_statement 40 (statePrinters []) (statePrinters ['0', '\n'])
    [(Test.call "z" [], Suite.simple (Stmt.print (Test.number "7")))] [intValue "0"]
    ⟨statePrinters ['0', '\n'], rfl, rfl⟩ (by decide)).1
    (Test.call "f" []) (Suite.simple (Stmt.print (Test.number "8")))
    [(Test.call "g" [], Suite.simple (Stmt.print (Test.number "9")))]
    (some (Suite.simple (Stmt.print (Test.number "6")))) (intValue "1")
    (statePrinters ['0', '\n', '1', '\n']) rfl (by decide)

end IfClaim

/-! ## Operators on values -/

theorem repeatString_spec (s : List Char) :
    ∀ (n : Nat) (result : List Char),
    repeatString s n result = result ++ (List.replicate n s).flatten := by
  intro n
  induction n with
  | zero => intro result; simp [repeatString]
  | succ k ih =>
    intro result
    rw [repeatString, ih, List.replicate_succ, List.flatten_cons, List.append_assoc]

theorem specRepeat_length (s : List Char) (n : Int) :
    (specRepeat s n).length = s.length * n.toNat := by
  simp [specRepeat, List.length_flatten, List.map_replicate, List.sum_replicate, Nat.mul_comm]

theorem repeatBy_spec {F : Type} [HostFloat F] (s : List Char) (count : BigInt) :
    (Value.repeatBy s count : Value F)
      = .str (specRepeat s (HostFloat.toLongLong (count.toDouble : F))) := by
  unfold Value.repeatBy specRepeat
  by_cases h : HostFloat.toLongLong (count.toDouble : F) > 0
  · simp only [h, if_true, repeatString_spec, List.nil_append]
  · simp only [h, if_false]
    have h0 : (HostFloat.toLongLong (count.toDouble : F)).toNat = 0 := by
      apply Int.toNat_of_nonpos
      omega
    rw [h0]
    rfl

theorem progRepeat_output :
    outputOf (visitFileInput 40 progRepeat (EvalVisitor.init : EvalVisitor ExactFloat)) =
      some ['h', 'a', 'h', 'a', 'h', 'a', '!', '\n'] := by decide

section RepetitionClaim

/-- Counterexample to C23 as worded (every integer `n` of any size): for `n = 10^22` the
count of `"ab" * n` and `n * "ab"` is read through `double` into a `long long`, which
cannot hold `10^22`; in the float model (where `10^22`, exactly representable, converts
to `-2^63` as on x86-64) both products are the empty string, not `10^22` copies of
`"ab"`, and the length is `0`, not `2 * 10^22`. -/
theorem C23_counterexample :
    tenPow22.toInt = 10 ^ 22 ∧ tenPow22.Canonical ∧
    ((Value.str ['a', 'b']).mul (.int tenPow22) : Value ExactFloat) = .str [] ∧
    ((Value.int tenPow22).mul (.str ['a', 'b']) : Value ExactFloat) = .str [] ∧
    ((Value.str ['a', 'b']).mul (.int tenPow22) : Value ExactFloat)
      ≠ .str (specRepeat ['a', 'b'] tenPow22.toInt) ∧
    ((Value.str ['a', 'b']).mul (.int tenPow22) : Value ExactFloat).toString.length
      ≠ 2 * 10 ^ 22 := by
  have h1 : tenPow22.toInt = 10 ^ 22 := by decide
  have h2 : ((Value.str ['a', 'b']).mul (.int tenPow22) : Value ExactFloat) = .str [] := by
    decide
  refine ⟨h1, by decide, h2, by decide, ?_, ?_⟩
  · rw [h2, h1]
    intro h
    have hl := congrArg (fun v : Value ExactFloat => v.toString.length) h
    simp only [Value.toString, List.length_nil, specRepeat_length] at hl
    revert hl
    decide
  · rw [h2]
    decide

/-- C23 (amended): for every string `s` and every int `n`, `s * n` and `n * s` are the
string made of `max(c, 0)` copies of `s`, where `c` is the 64-bit integer that the
conversion of `n` to `double` and then to `long long` yields; whenever that conversion
returns `n` itself, they are `max(n, 0)` copies of `s`, of length `len(s) * max(n, 0)`, and
empty for `n ≤ 0`.  In the float model `"ha" * 3 + "!"` is `"hahaha!"`. -/
theorem C23_string_repetition {F : Type} [HostFloat F] (s : List Char) (n : BigInt)
    (hconv : HostFloat.toLongLong (n.toDouble : F) = n.toInt) :
    ((Value.str s).mul (.int n) : Value F) = .str (specRepeat s n.toInt) ∧
    ((Value.int n).mul (.str s) : Value F) = .str (specRepeat s n.toInt) ∧
    (specRepeat s n.toInt).length = s.length * (max n.toInt 0).toNat ∧
    (n.toInt ≤ 0 → specRepeat s n.toInt = []) ∧
    (∀ (t : List Char) (m : BigInt),
      ((Value.str t).mul (.int m) : Value F)
        = .str (specRepeat t (HostFloat.toLongLong (m.toDouble : F))) ∧
      ((Value.int m).mul (.str t) : Value F)
        = .str (specRepeat t (HostFloat.toLongLong (m.toDouble : F)))) ∧
    outputOf (visitFileInput 40 progRepeat (EvalVisitor.init : EvalVisitor ExactFloat)) =
      some ['h', 'a', 'h', 'a', 'h', 'a', '!', '\n'] := by
  have hgen : ∀ (t : List Char) (m : BigInt),
      ((Value.str t).mul (.int m) : Value F)
        = .str (specRepeat t (HostFloat.toLongLong (m.toDouble : F))) ∧
      ((Value.int m).mul (.str t) : Value F)
        = .str (specRepeat t (HostFloat.toLongLong (m.toDouble : F))) :=
    fun t m => ⟨repeatBy_spec t m, repeatBy_spec t m⟩
  refine ⟨?_, ?_, ?_, ?_, hgen, progRepeat_output⟩
  · rw [(hgen s n).1, hconv]
  · rw [(hgen s n).2, hconv]
  · rw [specRepeat_length]
    congr 1
    omega
  · intro h
    simp [specRepeat, Int.toNat_of_nonpos h]

/-- Witness of C23 (amended): in the float model the int 3 converts to itself, and
`"ha" * 3` is `"hahaha"`. -/
theorem C23_string_repetition_witness :
    ((Value.str ['h', 'a']).mul (.int (BigInt.ofString ['3'])) : Value ExactFloat)
      = .str (specRepeat ['h', 'a'] (BigInt.ofString ['3']).toInt) ∧
    specRepeat ['h', 'a'] (BigInt.ofString ['3']).toInt = ['h', 'a', 'h', 'a', 'h', 'a'] :=
  ⟨(C23_string_repetition ['h', 'a'] (BigInt.ofString ['3']) (by decide)).1, by decide⟩

end RepetitionClaim

/-! ## Addition, true division and comparison of values -/

theorem BigInt.eq_iff_eq (x y : BigInt) : x.eq y = true ↔ x = y := by
  cases x with
  | mk xv xn =>
    cases y with
    | mk yv yn =>
      simp only [BigInt.eq, Bool.and_eq_true, decide_eq_true_eq, BigInt.mk.injEq]
      exact ⟨fun h => ⟨h.2, h.1⟩, fun h => ⟨h.2, h.1⟩⟩

theorem progValues_output :
    outputOf (visitFileInput 40 progValues (EvalVisitor.init : EvalVisitor ExactFloat)) =
      some "n=42\n3.500000\nFalse\nTrue\nTrue\n".toList := by decide

section ValueClaims

/-- C22: when either operand of `a + b` is a string, the result is the string made of
the display form of `a` followed by the display form of `b` (the concatenation, for two
strings); for two ints it is the int of the `BigInt` sum, which for canonical operands is
canonical and denotes the sum of the two integers.  The display forms are `None`,
`True`/`False`, the decimal text of an int, and a string verbatim.  `print("n=" + 42)`
prints `n=42`. -/
theorem C22_add_display_forms {F : Type} [HostFloat F] (a b : Value F)
    (h : a.type = .STRING ∨ b.type = .STRING) :
    a.add b = .str (a.toString ++ b.toString) ∧
    arithOp "+" a b = .str (a.toString ++ b.toString) ∧
    (∀ s t : List Char, (Value.str s : Value F).add (.str t) = .str (s ++ t)) ∧
    (∀ x y : BigInt, (Value.int x : Value F).add (.int y) = .int (x.add y) ∧
      (x.Canonical → y.Canonical →
        (x.add y).Canonical ∧ (x.add y).toInt = x.toInt + y.toInt)) ∧
    ((Value.none : Value F).toString = ['N', 'o', 'n', 'e'] ∧
      (Value.bool true : Value F).toString = ['T', 'r', 'u', 'e'] ∧
      (Value.bool false : Value F).toString = ['F', 'a', 'l', 's', 'e'] ∧
      (∀ i : BigInt, (Value.int i : Value F).toString = i.toString) ∧
      (∀ f : F, (Value.float f).toString = HostFloat.fixed6 f) ∧
      (∀ s : List Char, (Value.str s : Value F).toString = s)) ∧
    outputOf (visitFileInput 40 progValues (EvalVisitor.init : EvalVisitor ExactFloat)) =
      some "n=42\n3.500000\nFalse\nTrue\nTrue\n".toList := by
  have hstr : (a.isStr = true ∨ b.isStr = true) := by
    rcases h with h | h
    · left; cases a <;> simp [Value.type] at h; rfl
    · right; cases b <;> simp [Value.type] at h; rfl
  have hadd : a.add b = .str (a.toString ++ b.toString) := by
    unfold Value.add
    simp only [hstr, if_true]
  refine ⟨hadd, ?_, fun s t => rfl, ?_, ⟨rfl, rfl, rfl, fun _ => rfl, fun _ => rfl,
    fun _ => rfl⟩, progValues_output⟩
  · simp only [arithOp, if_true, hadd]
  · intro x y
    exact ⟨rfl, fun hx hy => BigInt.add_spec hx hy⟩

/-- Witness of C22: `"n=" + 42` is `"n=42"`. -/
theorem C22_add_display_forms_witness :
    ((Value.str ['n', '=']).add (.int (BigInt.ofString ['4', '2'])) : Value NoFloat)
      = .str ['n', '=', '4', '2'] :=
  (C22_add_display_forms (Value.str ['n', '=']) (.int (BigInt.ofString ['4', '2']))
    (Or.inl rfl)).1

/-- C24: true division is total and float-tagged: for all values `a` and `b`, `a / b` is
the float quotient of their float coercions, whatever their types; the coercion itself
never fails (an int is converted digit by digit, a bool is 1.0 or 0.0, a string that
`std::stod` rejects and `None` are 0.0), no zero test is made on the divisor, and the
operators `/` and `/=` of the evaluator complete normally with that float. -/
theorem C24_true_division_total {F : Type} [HostFloat F] (fuel : Nat) (a b : Value F) :
    a.div b = .float (HostFloat.div a.toFloatVal b.toFloatVal) ∧
    (a.div b).type = .FLOAT ∧
    termOp fuel "/" a b = .ok (a.div b) ∧
    augOp fuel "/=" a b = .ok (a.div b) ∧
    (∀ st : EvalVisitor F, Exec.ofRes (termOp fuel "/" a b) st = .ok (a.div b) st) ∧
    (∀ s : List Char, (Value.str s : Value F).toFloatVal
      = match (HostFloat.stod s : Option F) with
        | some f => f
        | none => HostFloat.ofInt 0) ∧
    (Value.none : Value F).toFloatVal = HostFloat.ofInt 0 ∧
    (Value.bool true : Value F).toFloatVal = HostFloat.ofInt 1 ∧
    (Value.bool false : Value F).toFloatVal = HostFloat.ofInt 0 ∧
    (∀ i : BigInt, (Value.int i : Value F).toFloatVal = i.toDouble) ∧
    (∀ f : F, (Value.float f).toFloatVal = f) :=
  ⟨rfl, rfl, rfl, rfl, fun _ => rfl, fun _ => rfl, rfl, rfl, rfl, fun _ => rfl, fun _ => rfl⟩

/-- C25: for values of different type tags of which at least one is `None`, a bool or a
string, `==` is false and `!=` is true (no coercion is attempted and nothing is thrown);
for two values of the same tag other than float, `==` holds exactly when the payloads are
equal: always for `None`, equal flags for bools, equal sign and magnitude for ints, equal
text for strings. -/
theorem C25_equality_of_mismatched_types {F : Type} [HostFloat F] (a b : Value F)
    (htag : a.type ≠ b.type)
    (hnon : a.type ∈ [ValueType.NONE, .BOOL, .STRING] ∨ b.type ∈ [ValueType.NONE, .BOOL, .STRING]) :
    a.eq b = false ∧ a.ne b = true ∧
    compareOp "==" a b = false ∧ compareOp "!=" a b = true ∧
    (∀ c d : Value F, c.type = d.type → c.type ≠ .FLOAT → (c.eq d = true ↔ c = d)) ∧
    (Value.none : Value F).eq .none = true ∧
    (∀ x y : Bool, (Value.bool x : Value F).eq (.bool y) = decide (x = y)) ∧
    (∀ x y : BigInt, ((Value.int x : Value F).eq (.int y) = true ↔
      x.negative = y.negative ∧ x.value = y.value)) ∧
    (∀ s t : List Char, (Value.str s : Value F).eq (.str t) = decide (s = t)) := by
  have heq : a.eq b = false := by
    cases a <;> cases b <;>
      first
        | rfl
        | exact absurd rfl htag
        | (simp [Value.type] at hnon)
  refine ⟨heq, by simp [Value.ne, heq], by simp [compareOp, heq],
    by simp [compareOp, Value.ne, heq], ?_, rfl, fun _ _ => rfl, ?_, fun _ _ => rfl⟩
  · intro c d hcd hc
    cases c <;> cases d <;> simp [Value.type] at hcd hc
    · simp [Value.eq]
    · simp [Value.eq]
    · simp only [Value.eq, BigInt.eq_iff_eq, Value.int.injEq]
    · simp [Value.eq]
  · intro x y
    simp [Value.eq, BigInt.eq]

/-- Witness of C25: `True == 1` is false and `True != 1` is true. -/
theorem C25_equality_of_mismatched_types_witness :
    (Value.bool true : Value NoFloat).eq (.int (BigInt.ofString ['1'])) = false ∧
    (Value.bool true : Value NoFloat).ne (.int (BigInt.ofString ['1'])) = true :=
  ⟨(C25_equality_of_mismatched_types (Value.bool true) (.int (BigInt.ofString ['1']))
      (by decide) (by decide)).1,
    (C25_equality_of_mismatched_types (Value.bool true) (.int (BigInt.ofString ['1']))
      (by decide) (by decide)).2.1⟩

end ValueClaims

section MixedComparisonClaim

/-- Counterexample to C26 as worded: `True == 1.0` and `1.0 == True` are false and
`True != 1.0` is true, although the float coercions of the two operands (1.0 and 1.0)
are equal: `operator==` coerces only when both tags are int or float.  The program
`print(True == 1.0)` prints `False`. -/
theorem C26_counterexample :
    (Value.bool true : Value ExactFloat).eq (.float (HostFloat.ofInt 1)) = false ∧
    (Value.float (HostFloat.ofInt 1) : Value ExactFloat).eq (.bool true) = false ∧
    (Value.bool true : Value ExactFloat).ne (.float (HostFloat.ofInt 1)) = true ∧
    compareOp "==" (Value.bool true : Value ExactFloat) (.float (HostFloat.ofInt 1)) = false ∧
    HostFloat.eq (Value.bool true : Value ExactFloat).toFloatVal
      (Value.float (HostFloat.ofInt 1) : Value ExactFloat).toFloatVal = true ∧
    outputOf (visitFileInput 40 progValues (EvalVisitor.init : EvalVisitor ExactFloat)) =
      some "n=42\n3.500000\nFalse\nTrue\nTrue\n".toList := by
  refine ⟨by decide, by decide, by decide, by decide, by decide, by decide⟩

/-- C26 (amended): when one operand is a float and the other an int or a bool, `<` and `>`
are the float comparison `<` on the float coercions of the two operands (a bool as 1.0 or
0.0, an int through `toDouble`), and `<=`, `>=` are the negations of `>`, `<` on them;
`==` and `!=` are the float `==` on the coercions and its negation when the other operand
is an int, whereas a float and a bool are never equal: `==` is false and `!=` is true. -/
theorem C26_mixed_comparisons {F : Type} [HostFloat F] (a b : Value F)
    (h : (a.type = .FLOAT ∧ (b.type = .INT ∨ b.type = .BOOL)) ∨
      (b.type = .FLOAT ∧ (a.type = .INT ∨ a.type = .BOOL))) :
    compareOp "<" a b = HostFloat.lt a.toFloatVal b.toFloatVal ∧
    compareOp ">" a b = HostFloat.lt b.toFloatVal a.toFloatVal ∧
    compareOp "<=" a b = !HostFloat.lt b.toFloatVal a.toFloatVal ∧
    compareOp ">=" a b = !HostFloat.lt a.toFloatVal b.toFloatVal ∧
    (a.type = .INT ∨ b.type = .INT →
      compareOp "==" a b = HostFloat.eq a.toFloatVal b.toFloatVal ∧
      compareOp "!=" a b = !HostFloat.eq a.toFloatVal b.toFloatVal) ∧
    (a.type = .BOOL ∨ b.type = .BOOL →
      compareOp "==" a b = false ∧ compareOp "!=" a b = true) ∧
    (Value.bool true : Value F).toFloatVal = HostFloat.ofInt 1 ∧
    (Value.bool false : Value F).toFloatVal = HostFloat.ofInt 0 := by
  have hfl : a.isFloat = true ∨ b.isFloat = true := by
    rcases h with ⟨h1, _⟩ | ⟨h1, _⟩
    · left; cases a <;> simp [Value.type] at h1; rfl
    · right; cases b <;> simp [Value.type] at h1; rfl
  have hfl2 : b.isFloat = true ∨ a.isFloat = true := hfl.symm
  have hlt : a.lt b = HostFloat.lt a.toFloatVal b.toFloatVal := by
    unfold Value.lt; simp only [hfl, if_true]
  have hgt : b.lt a = HostFloat.lt b.toFloatVal a.toFloatVal := by
    unfold Value.lt; simp only [hfl2, if_true]
  refine ⟨?_, ?_, ?_, ?_, ?_, ?_, rfl, rfl⟩
  · simpa [compareOp] using hlt
  · simpa [compareOp, Value.gt] using hgt
  · simp [compareOp, Value.le, Value.gt, hgt]
  · simp [compareOp, Value.ge, hlt]
  · intro hint
    rcases h with ⟨h1, h2⟩ | ⟨h1, h2⟩
    · cases a <;> simp [Value.type] at h1
      cases b <;> simp [Value.type] at h2 hint
      simp [compareOp, Value.eq, Value.ne]
    · cases b <;> simp [Value.type] at h1
      cases a <;> simp [Value.type] at h2 hint
      simp [compareOp, Value.eq, Value.ne]
  · intro hbool
    rcases h with ⟨h1, h2⟩ | ⟨h1, h2⟩
    · cases a <;> simp [Value.type] at h1
      cases b <;> simp [Value.type] at h2 hbool
      simp [compareOp, Value.eq, Value.ne]
    · cases b <;> simp [Value.type] at h1
      cases a <;> simp [Value.type] at h2 hbool
      simp [compareOp, Value.eq, Value.ne]

/-- Witness of C26 (amended): `True < 1.5` is the float comparison `1.0 < 1.5`, true in the
float model, and `1 == 1.0` is the float comparison `1.0 == 1.0`. -/
theorem C26_mixed_comparisons_witness :
    compareOp "<" (Value.bool true : Value ExactFloat) (.float ⟨3, 2⟩) = true ∧
    compareOp "==" (Value.int (BigInt.ofString ['1']) : Value ExactFloat)
      (.float (HostFloat.ofInt 1)) = true :=
  ⟨((C26_mixed_comparisons (Value.bool true : Value ExactFloat) (.float ⟨3, 2⟩)
      (Or.inr ⟨rfl, Or.inr rfl⟩)).1).trans (by decide),
    (((C26_mixed_comparisons (Value.int (BigInt.ofString ['1']) : Value ExactFloat)
      (.float (HostFloat.ofInt 1)) (Or.inr ⟨rfl, Or.inl rfl⟩)).2.2.2.2.1
        (Or.inl rfl)).1).trans (by decide)⟩

end MixedComparisonClaim

/-! ## String literals -/

theorem unescape_eq_specEscape (c : Char) : unescape c = specEscape c := by
  unfold unescape specEscape
  by_cases h1 : c = 'n'
  · subst h1; decide
  · by_cases h2 : c = 't'
    · subst h2; decide
    · by_cases h3 : c = 'r'
      · subst h3; decide
      · simp only [h1, h2, h3, if_false]
        split
        · next h => exact h.symm
        · split
          · next h => exact h.symm
          · split
            · next h => exact h.symm
            · rfl

theorem parseStringLoop_spec :
    ∀ (n : Nat) (content out acc : List Char), content.length ≤ n →
    specDecode content = some out → parseStringLoop content false acc = acc ++ out := by
  intro n
  induction n with
  | zero =>
    intro content out acc hlen h
    cases content with
    | nil =>
      simp only [specDecode, Option.some.injEq] at h
      subst h
      simp [parseStringLoop]
    | cons c rest => simp at hlen
  | succ k ih =>
    intro content out acc hlen h
    cases content with
    | nil =>
      simp only [specDecode, Option.some.injEq] at h
      subst h
      simp [parseStringLoop]
    | cons c rest =>
      simp only [List.length_cons, Nat.add_le_add_iff_right] at hlen
      by_cases hc : c = '\\'
      · subst hc
        cases rest with
        | nil => simp [specDecode] at h
        | cons d rest1 =>
          simp only [specDecode, if_true, Option.map_eq_some'] at h
          obtain ⟨out1, h1, h2⟩ := h
          subst h2
          simp only [List.length_cons] at hlen
          have hrec := ih rest1 out1 (acc ++ [unescape d]) (by omega) h1
          rw [unescape_eq_specEscape] at hrec
          simp only [parseStringLoop, if_true, unescape_eq_specEscape]
          rw [hrec, List.append_assoc, List.singleton_append]
      · rw [specDecode.eq_def] at h
        simp only [hc, if_false, Option.map_eq_some'] at h
        obtain ⟨out1, h1, h2⟩ := h
        subst h2
        have hrec := ih rest out1 (acc ++ [c]) hlen h1
        rw [parseStringLoop]
        simp only [hc, if_false]
        rw [hrec, List.append_assoc, List.singleton_append]

theorem specDecode_of_no_backslash :
    ∀ (content : List Char), '\\' ∉ content → specDecode content = some content := by
  intro content
  induction content with
  | nil => intro _; rfl
  | cons c rest ih =>
    intro h
    simp only [List.mem_cons, not_or] at h
    have hc : c ≠ '\\' := fun e => h.1 e.symm
    rw [specDecode.eq_def]
    simp only [hc, if_false, ih h.2, Option.map_some']

theorem parseString_quoted (q1 q2 : Char) (content : List Char) :
    parseString (q1 :: content ++ [q2]) = some (parseStringLoop content false []) := by
  simp [parseString]

theorem parseStrings_spec :
    ∀ (lexemes : List (List Char)) (outs : List (List Char)) (acc : List Char),
    List.Forall₂ (fun l o => parseString l = some o) lexemes outs →
    parseStrings lexemes acc = some (acc ++ outs.flatten) := by
  intro lexemes
  induction lexemes with
  | nil =>
    intro outs acc h
    cases h
    simp [parseStrings]
  | cons l ls ih =>
    intro outs acc h
    cases h with
    | cons h1 h2 =>
      simp only [parseStrings, h1, ih _ _ h2, List.flatten_cons, List.append_assoc]

theorem progEscapes_output :
    outputOf (visitFileInput 40 progEscapes (EvalVisitor.init : EvalVisitor NoFloat)) =
      some "a\tbc\\d\"eqf\n".toList := by decide

section StringLiteralClaim

/-- C28: decoding a string literal `q content q` strips the one character at each end
and maps the content left to right: when the content decodes to `out` by the rules of the
claim (`specDecode`: a backslash and the next character give newline, tab, carriage
return, backslash, quote, double quote for `n`, `t`, `r`, `\`, `'`, `"` and that character
alone otherwise; any other character is kept), `parseString` returns `out`; a content
without backslash is returned unchanged; and the value of adjacent literals is the
concatenation of their decodings in order.  `print("a\tb" "c\\d\"e\qf")` prints
`a<TAB>bc\d"eqf`. -/
theorem C28_string_literal_decoding (content out : List Char)
    (h : specDecode content = some out) :
    parseStringLoop content false [] = out ∧
    (∀ q1 q2 : Char, parseString (q1 :: content ++ [q2]) = some out) ∧
    (∀ (text : List Char) (q1 q2 : Char), '\\' ∉ text →
      parseString (q1 :: text ++ [q2]) = some text) ∧
    (∀ (lexemes outs : List (List Char)),
      List.Forall₂ (fun l o => parseString l = some o) lexemes outs →
      parseStrings lexemes [] = some outs.flatten) ∧
    (∀ (F : Type) [HostFloat F] (fuel : Nat) (st : EvalVisitor F) (first : List Char)
      (rest outs : List (List Char)),
      List.Forall₂ (fun l o => parseString l = some o) (first :: rest) outs →
      visitAtom (fuel + 1) (.strings first rest) st = .ok (.str outs.flatten) st) ∧
    (specEscape 'n' = '\n' ∧ specEscape 't' = '\t' ∧ specEscape 'r' = '\r' ∧
      specEscape '\\' = '\\' ∧ specEscape (Char.ofNat 39) = Char.ofNat 39 ∧
      specEscape '"' = '"' ∧ specEscape 'q' = 'q') ∧
    outputOf (visitFileInput 40 progEscapes (EvalVisitor.init : EvalVisitor NoFloat)) =
      some "a\tbc\\d\"eqf\n".toList := by
  have hloop : ∀ (c o : List Char), specDecode c = some o → parseStringLoop c false [] = o := by
    intro c o hc
    simpa using parseStringLoop_spec c.length c o [] le_rfl hc
  refine ⟨hloop content out h, ?_, ?_, ?_, ?_, by decide, progEscapes_output⟩
  · intro q1 q2
    rw [parseString_quoted, hloop content out h]
  · intro text q1 q2 ht
    rw [parseString_quoted, hloop text text (specDecode_of_no_backslash text ht)]
  · intro lexemes outs hl
    simpa using parseStrings_spec lexemes outs [] hl
  · intro F _ fuel st first rest outs hl
    have hp := parseStrings_spec (first :: rest) outs [] hl
    simp only [List.nil_append] at hp
    simp only [visitAtom, hp]

/-- Witness of C28: the content `a\nb` decodes to `a`, newline, `b`. -/
theorem C28_string_literal_decoding_witness :
    parseString ['"', 'a', '\\', 'n', 'b', '"'] = some ['a', '\n', 'b'] :=
  (C28_string_literal_decoding ['a', '\\', 'n', 'b'] ['a', '\n', 'b'] (by decide)).2.1 '"' '"'

end StringLiteralClaim

/-! ## Conversion of text to int, and formatted strings -/

theorem progToInt_output :
    outputOf (visitFileInput 40 progToInt (EvalVisitor.init : EvalVisitor NoFloat)) =
      some "abc\n170\n+5\n42\n".toList := by decide

theorem progHello_output :
    outputOf (visitFileInput 40 progHello (EvalVisitor.init : EvalVisitor NoFloat)) =
      some ("hello ".toList ++ ['{'] ++ "world".toList ++ ['}', '!', '\n']) := by decide

theorem progFormatText_output :
    outputOf (visitFileInput 40 progFormatText (EvalVisitor.init : EvalVisitor NoFloat)) =
      some ['i', 't', Char.ofNat 39, 's', '\n', '\n'] := by decide

section ConversionClaims

/-- C27, the code at the failing input: `toInt` of a string without `.` is the `BigInt`
built from the trimmed text, whatever its characters: the constructor checks no digit and
throws nothing, so the `catch` that returns 0 is not reached.  `toInt` of `"abc"`, `"12a"`
and `"+5"` are ints whose magnitudes are the texts `abc`, `12a` and `+5`, not the int 0;
`print(int("abc"))` prints `abc` and `print(int("12a") + 1)` prints `170`.  Only the empty
text and `-` give 0. -/
theorem C27_toInt_unparsed_text :
    (∀ (F : Type) [HostFloat F] (s : List Char), (Value.str s : Value F).toInt
      = if '.' ∈ trimSpaces s then
          (match (HostFloat.stod (trimSpaces s) : Option F) with
            | some f => .int (BigInt.ofLongLong (HostFloat.toLongLong f))
            | none => .int (BigInt.ofLongLong 0))
        else .int (BigInt.ofString (trimSpaces s))) ∧
    ((Value.str ['a', 'b', 'c']).toInt : Value NoFloat)
      = .int { value := ['a', 'b', 'c'], negative := false } ∧
    ((Value.str ['1', '2', 'a']).toInt : Value NoFloat)
      = .int { value := ['1', '2', 'a'], negative := false } ∧
    ((Value.str ['+', '5']).toInt : Value NoFloat)
      = .int { value := ['+', '5'], negative := false } ∧
    ((Value.str ['a', 'b', 'c']).toInt : Value NoFloat) ≠ .int (BigInt.ofLongLong 0) ∧
    ((Value.str ['a', 'b', 'c']).toInt : Value NoFloat).toString = ['a', 'b', 'c'] ∧
    ((Value.str []).toInt : Value NoFloat) = .int (BigInt.ofLongLong 0) ∧
    ((Value.str ['-']).toInt : Value NoFloat) = .int (BigInt.ofLongLong 0) ∧
    ((Value.str [' ', '4', '2', ' ']).toInt : Value NoFloat)
      = .int { value := ['4', '2'], negative := false } ∧
    outputOf (visitFileInput 40 progToInt (EvalVisitor.init : EvalVisitor NoFloat)) =
      some "abc\n170\n+5\n42\n".toList := by
  refine ⟨fun F _ s => rfl, by decide, by decide, by decide, by decide, by decide, by decide,
    by decide, by decide, progToInt_output⟩

/-- C29, the code at the failing input: for `f"hello {name}!"`, whose node has the
children `f"`, `hello `, `{`, the expression list `name`, `}`, `!` and `"`, the loop skips
the two quote tokens but appends the brace tokens `{` and `}` as literal text (its brace
test only skips a text of length at least 2 that starts with `{` and ends with `}`): with
`name = "world"` the value is `hello {world}!`.  The same comparison of texts drops a
literal text that is a lone quote character: `f"'"` gives the empty string. -/
theorem C29_format_string_tokens :
    formatHello = [.token ['f', '"'], .token ['h', 'e', 'l', 'l', 'o', ' '], .token ['{'],
      .testlist (Testlist.single (Test.name "name")), .token ['}'], .token ['!'],
      .token ['"']] ∧
    visitFormatString 20 formatHello [] stateWorld
      = .ok (.str ("hello ".toList ++ ['{'] ++ "world".toList ++ ['}', '!'])) stateWorld ∧
    outputOf (visitFileInput 40 progHello (EvalVisitor.init : EvalVisitor NoFloat)) =
      some ("hello ".toList ++ ['{'] ++ "world".toList ++ ['}', '!', '\n']) ∧
    visitFormatString 20 (formatChildren '"' [.text [Char.ofNat 39]]) [] stateWorld
      = .ok (.str []) stateWorld ∧
    visitFormatString 20 (formatChildren '"' [.text ['i', 't', Char.ofNat 39, 's']]) []
        stateWorld
      = .ok (.str ['i', 't', Char.ofNat 39, 's']) stateWorld := by
  refine ⟨rfl, rfl, progHello_output, rfl, rfl⟩

end ConversionClaims

/-! ## Ordering of values -/

theorem strLt_iff_lexLt : ∀ (s t : List Char), strLt s t = true ↔ LexLt s t
  | [], [] => by
    simp only [strLt, Bool.false_eq_true, false_iff]
    intro h
    cases h
  | [], c :: t => by
    simp only [strLt, true_iff]
    exact LexLt.shorter c t
  | x :: s, [] => by
    simp only [strLt, Bool.false_eq_true, false_iff]
    intro h
    cases h
  | x :: s, y :: t => by
    have ih := strLt_iff_lexLt s t
    rw [strLt]
    by_cases h1 : x.toNat < y.toNat
    · simp only [h1, if_true, true_iff]
      exact LexLt.head x y s t h1
    · by_cases h2 : y.toNat < x.toNat
      · simp only [h1, h2, if_false, if_true, Bool.false_eq_true, false_iff]
        intro h
        cases h with
        | head _ _ _ _ hlt => exact h1 hlt
        | tail _ _ _ _ => exact absurd h2 (lt_irrefl _)
      · have hxy : x = y := toNat_inj (by omega)
        subst hxy
        simp only [lt_irrefl, if_false, ih]
        constructor
        · exact LexLt.tail x s t
        · intro h
          cases h with
          | head _ _ _ _ hlt => exact absurd hlt (lt_irrefl _)
          | tail _ _ _ h3 => exact h3

theorem strLt_total : ∀ (s t : List Char), strLt s t = false → strLt t s = false → s = t
  | [], [], _, _ => rfl
  | [], c :: t, h, _ => by simp [strLt] at h
  | x :: s, [], _, h => by simp [strLt] at h
  | x :: s, y :: t, h1, h2 => by
    rw [strLt] at h1 h2
    by_cases a1 : x.toNat < y.toNat
    · simp [a1] at h1
    · by_cases a2 : y.toNat < x.toNat
      · simp [a2] at h2
      · have hxy : x = y := toNat_inj (by omega)
        subst hxy
        simp only [lt_irrefl, if_false] at h1 h2
        rw [strLt_total s t h1 h2]

theorem strLt_asymm : ∀ (s t : List Char), strLt s t = true → strLt t s = false
  | [], [], h => by simp [strLt] at h
  | [], c :: t, _ => by simp [strLt]
  | x :: s, [], h => by simp [strLt] at h
  | x :: s, y :: t, h => by
    rw [strLt] at h ⊢
    by_cases a1 : x.toNat < y.toNat
    · have a2 : ¬ y.toNat < x.toNat := by omega
      simp [a1, a2]
    · by_cases a2 : y.toNat < x.toNat
      · simp [a1, a2] at h
      · simp only [a1, a2, if_false] at h ⊢
        exact strLt_asymm s t h

theorem progOrdering_output :
    outputOf (visitFileInput 40 progOrdering (EvalVisitor.init : EvalVisitor NoFloat)) =
      some "False\nTrue\nFalse\nTrue\nFalse\nTrue\nFalse\nTrue\n".toList := by decide

section OrderingClaim

/-- C31: for values `a`, `b` of which neither is a float and which are neither both ints
nor both strings, `a < b` and `a > b` are false and `a <= b`, `a >= b` are true: `>` is
`<` with the operands exchanged, and `<=`, `>=` are the negations of `>`, `<`.  For two
canonical ints the four comparisons are those of the integers they denote; for two strings
`<` is the byte-lexicographic order `LexLt`, and `s <= t` holds exactly when `s = t` or
`s` comes before `t`.  `None < None`, `"a" < 1` and `True > False` print `False`;
`None <= None` and `"a" >= 1` print `True`. -/
theorem C31_ordering_without_common_order {F : Type} [HostFloat F] (a b : Value F)
    (ha : a.type ≠ .FLOAT) (hb : b.type ≠ .FLOAT)
    (hint : ¬ (a.type = .INT ∧ b.type = .INT))
    (hstr : ¬ (a.type = .STRING ∧ b.type = .STRING)) :
    (compareOp "<" a b = false ∧ compareOp ">" a b = false ∧
      compareOp "<=" a b = true ∧ compareOp ">=" a b = true) ∧
    (∀ c d : Value F, c.gt d = d.lt c ∧ c.le d = !c.gt d ∧ c.ge d = !c.lt d) ∧
    (∀ x y : BigInt, x.Canonical → y.Canonical →
      (compareOp "<" (Value.int x : Value F) (.int y) = true ↔ x.toInt < y.toInt) ∧
      (compareOp ">" (Value.int x : Value F) (.int y) = true ↔ y.toInt < x.toInt) ∧
      (compareOp "<=" (Value.int x : Value F) (.int y) = true ↔ x.toInt ≤ y.toInt) ∧
      (compareOp ">=" (Value.int x : Value F) (.int y) = true ↔ y.toInt ≤ x.toInt)) ∧
    (∀ s t : List Char,
      (compareOp "<" (Value.str s : Value F) (.str t) = true ↔ LexLt s t) ∧
      (compareOp ">" (Value.str s : Value F) (.str t) = true ↔ LexLt t s) ∧
      (compareOp "<=" (Value.str s : Value F) (.str t) = true ↔ s = t ∨ LexLt s t) ∧
      (compareOp ">=" (Value.str s : Value F) (.str t) = true ↔ s = t ∨ LexLt t s)) ∧
    outputOf (visitFileInput 40 progOrdering (EvalVisitor.init : EvalVisitor NoFloat)) =
      some "False\nTrue\nFalse\nTrue\nFalse\nTrue\nFalse\nTrue\n".toList := by
  have hlt : ∀ c d : Value F, c.type ≠ .FLOAT → d.type ≠ .FLOAT →
      ¬ (c.type = .INT ∧ d.type = .INT) → ¬ (c.type = .STRING ∧ d.type = .STRING) →
      c.lt d = false := by
    intro c d hc hd h1 h2
    cases c <;> cases d <;> simp [Value.type] at hc hd h1 h2 <;> rfl
  have hab := hlt a b ha hb hint hstr
  have hba := hlt b a hb ha (fun h => hint ⟨h.2, h.1⟩) (fun h => hstr ⟨h.2, h.1⟩)
  have hle : ∀ s t : List Char, (!strLt t s) = true ↔ s = t ∨ LexLt s t := by
    intro s t
    rw [← strLt_iff_lexLt]
    constructor
    · intro h
      simp only [Bool.not_eq_true'] at h
      cases h2 : strLt s t with
      | true => exact Or.inr rfl
      | false => exact Or.inl (strLt_total s t h2 h)
    · rintro (h | h)
      · subst h
        simp [BigInt.strLt_irrefl]
      · simp [strLt_asymm s t h]
  refine ⟨⟨?_, ?_, ?_, ?_⟩, fun c d => ⟨rfl, rfl, rfl⟩, ?_, ?_, progOrdering_output⟩
  · simpa [compareOp] using hab
  · simpa [compareOp, Value.gt] using hba
  · simp [compareOp, Value.le, Value.gt, hba]
  · simp [compareOp, Value.ge, hab]
  · intro x y hx hy
    have h1 := BigInt.lt_iff hx hy
    have h2 := BigInt.lt_iff hy hx
    have e1 : compareOp "<" (Value.int x : Value F) (.int y) = x.lt y := rfl
    have e2 : compareOp ">" (Value.int x : Value F) (.int y) = y.lt x := rfl
    have e3 : compareOp "<=" (Value.int x : Value F) (.int y) = !y.lt x := rfl
    have e4 : compareOp ">=" (Value.int x : Value F) (.int y) = !x.lt y := rfl
    rw [e1, e2, e3, e4]
    refine ⟨h1, h2, ?_, ?_⟩
    · rw [Bool.not_eq_true', ← Bool.not_eq_true, h2]
      omega
    · rw [Bool.not_eq_true', ← Bool.not_eq_true, h1]
      omega
  · intro s t
    have e1 : compareOp "<" (Value.str s : Value F) (.str t) = strLt s t := rfl
    have e2 : compareOp ">" (Value.str s : Value F) (.str t) = strLt t s := rfl
    have e3 : compareOp "<=" (Value.str s : Value F) (.str t) = !strLt t s := rfl
    have e4 : compareOp ">=" (Value.str s : Value F) (.str t) = !strLt s t := rfl
    rw [e1, e2, e3, e4]
    refine ⟨strLt_iff_lexLt s t, strLt_iff_lexLt t s, hle s t, ?_⟩
    rw [hle t s]
    constructor
    · rintro (h | h)
      · exact Or.inl h.symm
      · exact Or.inr h
    · rintro (h | h)
      · exact Or.inl h.symm
      · exact Or.inr h

/-- Witness of C31: the string `"a"` against the int 1. -/
theorem C31_ordering_without_common_order_witness :
    compareOp "<" (Value.str ['a'] : Value NoFloat) (.int (BigInt.ofString ['1'])) = false ∧
    compareOp ">" (Value.str ['a'] : Value NoFloat) (.int (BigInt.ofString ['1'])) = false ∧
    compareOp "<=" (Value.str ['a'] : Value NoFloat) (.int (BigInt.ofString ['1'])) = true ∧
    compareOp ">=" (Value.str ['a'] : Value NoFloat) (.int (BigInt.ofString ['1'])) = true :=
  (C31_ordering_without_common_order (Value.str ['a']) (.int (BigInt.ofString ['1']))
    (by decide) (by decide) (by decide) (by decide)).1

end OrderingClaim

/-! ## Round trip of an int through its text -/

theorem dropWhile_trim_append (pre t : List Char) (hpre : ∀ c ∈ pre, isTrimChar c = true) :
    (pre ++ t).dropWhile isTrimChar = t.dropWhile isTrimChar := by
  induction pre with
  | nil => rfl
  | cons c pre ih =>
    have hc := hpre c (List.mem_cons_self _ _)
    simp only [List.cons_append, List.dropWhile_cons, hc, if_true]
    exact ih (fun d hd => hpre d (List.mem_cons_of_mem _ hd))

theorem dropWhile_trim_of_head (t : List Char) (h : ∀ c, t.head? = some c → isTrimChar c = false) :
    t.dropWhile isTrimChar = t := by
  cases t with
  | nil => rfl
  | cons c t =>
    have hc := h c rfl
    simp [List.dropWhile_cons, hc]

theorem trimSpaces_padded (pre text post : List Char)
    (hpre : ∀ c ∈ pre, isTrimChar c = true) (hpost : ∀ c ∈ post, isTrimChar c = true)
    (hne : text ≠ []) (hhead : ∀ c, text.head? = some c → isTrimChar c = false)
    (hlast : ∀ c, text.getLast? = some c → isTrimChar c = false) :
    trimSpaces (pre ++ text ++ post) = text := by
  unfold trimSpaces
  have h1 : (pre ++ text ++ post).dropWhile isTrimChar = text ++ post := by
    rw [List.append_assoc, dropWhile_trim_append pre _ hpre]
    apply dropWhile_trim_of_head
    intro c hc
    apply hhead c
    cases text with
    | nil => exact absurd rfl hne
    | cons x xs => simpa using hc
  rw [h1, List.reverse_append,
    dropWhile_trim_append post.reverse _ (fun c hc => hpost c (List.mem_reverse.1 hc)),
    dropWhile_trim_of_head, List.reverse_reverse]
  intro c hc
  apply hlast c
  rw [List.head?_reverse] at hc
  exact hc

theorem isTrimChar_of_digit_or_minus (c : Char) (h : c.isDigit = true ∨ c = '-') :
    isTrimChar c = false := by
  rcases h with h | h
  · rw [isDigit_iff] at h
    have h1 : c ≠ ' ' := by rintro rfl; revert h; decide
    have h2 : c ≠ '\t' := by rintro rfl; revert h; decide
    have h3 : c ≠ '\n' := by rintro rfl; revert h; decide
    have h4 : c ≠ '\r' := by rintro rfl; revert h; decide
    simp [isTrimChar, h1, h2, h3, h4]
  · subst h
    decide

theorem BigInt.ofString_toString {x : BigInt} (hx : x.Canonical) :
    BigInt.ofString x.toString = x := by
  have h := BigInt.ofString_signed x.negative hx.ne_nil hx.digits
  have e : x.toString = (if x.negative = true then ['-'] else []) ++ x.value := rfl
  rw [e, h]
  exact BigInt.removeLeadingZeros_of_canonical hx

theorem BigInt.toString_shape {x : BigInt} (hx : x.Canonical) :
    x.toString ≠ [] ∧ (∀ c ∈ x.toString, c.isDigit = true ∨ c = '-') ∧
    (∀ c, x.toString.getLast? = some c → c.isDigit = true) := by
  have hne := hx.ne_nil
  have hd := hx.digits
  have e : x.toString = (if x.negative = true then ['-'] else []) ++ x.value := rfl
  refine ⟨?_, ?_, ?_⟩
  · rw [e]
    simp [hne]
  · intro c hc
    rw [e] at hc
    rcases List.mem_append.1 hc with h | h
    · right
      split at h
      · simpa using h
      · simp at h
    · exact Or.inl (hd c h)
  · intro c hc
    rw [e, List.getLast?_append_of_ne_nil _ hne] at hc
    exact hd c (List.mem_of_getLast?_eq_some hc)

theorem progRoundTrip_output :
    outputOf (visitFileInput 60 progRoundTrip (EvalVisitor.init : EvalVisitor NoFloat)) =
      some "True\n-12345678901234567890122\n-42\n".toList := by decide

section RoundTripClaim

/-- C32: for every canonical `BigInt` `i`, `toStr` of the int `i` is the string of its
decimal text, and `toInt` of that string is the int `i` again, also when the text is
padded in front and behind with any number of the characters space, tab, newline and
carriage return (the characters `toInt` trims).  `int(str(x)) == x` prints `True` for
`x = -12345678901234567890123`, and `int(" \t-42\n")` is `-42`. -/
theorem C32_int_text_round_trip {F : Type} [HostFloat F] (i : BigInt) (pre post : List Char)
    (hi : i.Canonical) (hpre : ∀ c ∈ pre, isTrimChar c = true)
    (hpost : ∀ c ∈ post, isTrimChar c = true) :
    (Value.int i : Value F).toStr = .str i.toString ∧
    ((Value.int i : Value F).toStr).toInt = .int i ∧
    (Value.str (pre ++ i.toString ++ post) : Value F).toInt = .int i ∧
    (∀ c : Char, isTrimChar c = true ↔ c = ' ' ∨ c = '\t' ∨ c = '\n' ∨ c = '\r') ∧
    outputOf (visitFileInput 60 progRoundTrip (EvalVisitor.init : EvalVisitor NoFloat)) =
      some "True\n-12345678901234567890122\n-42\n".toList := by
  obtain ⟨s1, s2, s3⟩ := BigInt.toString_shape hi
  have hpad : ∀ (p q : List Char), (∀ c ∈ p, isTrimChar c = true) →
      (∀ c ∈ q, isTrimChar c = true) →
      (Value.str (p ++ i.toString ++ q) : Value F).toInt = .int i := by
    intro p q hp hq
    have ht : trimSpaces (p ++ i.toString ++ q) = i.toString :=
      trimSpaces_padded p i.toString q hp hq s1
        (fun c hc => isTrimChar_of_digit_or_minus c (s2 c (List.mem_of_mem_head? hc)))
        (fun c hc => isTrimChar_of_digit_or_minus c (Or.inl (s3 c hc)))
    have hdot : '.' ∉ i.toString := by
      intro hmem
      rcases s2 '.' hmem with h | h
      · revert h; decide
      · revert h; decide
    simp only [Value.toInt, ht, hdot, if_false, BigInt.ofString_toString hi]
  refine ⟨rfl, ?_, hpad pre post hpre hpost, ?_, progRoundTrip_output⟩
  · have h := hpad [] [] (by simp) (by simp)
    simpa using h
  · intro c
    simp [isTrimChar]

/-- Witness of C32: the int `-42`, padded with a space and a tab in front and a newline
and a carriage return behind. -/
theorem C32_int_text_round_trip_witness :
    (Value.str ([' ', '\t'] ++ (BigInt.ofString ['-', '4', '2']).toString ++ ['\n', '\r'])
      : Value NoFloat).toInt = .int (BigInt.ofString ['-', '4', '2']) :=
  (C32_int_text_round_trip (BigInt.ofString ['-', '4', '2']) [' ', '\t'] ['\n', '\r']
    (by decide) (by decide) (by decide)).2.2.1

end RoundTripClaim

end PyInterp

